import Mathlib

/-!
# Process manager backend (`src/backend/server.c`)

A shallow embedding of the C backend and theorems about it.

Conventions of the embedding.

* A byte is a natural number (`0 .. 255`); a C string literal is written with
  `bytes "..."`.
* A `char *` is modelled by the list of bytes that starts at the pointed-to
  address.  `p + k` is `p.drop k`, `*p` is `deref p`.  Reading beyond the
  modelled region yields the NUL byte.
* `unsigned long` and `size_t` are 64 bit wide, `long` is 64 bit wide and
  `int` is 32 bit wide (LP64); values are `Nat`/`Int` with explicit wrapping.
* `double` is IEEE 754 binary64 (`Dbl`); every operation rounds the exact result
  to nearest, ties to even, and yields infinities and NaNs as the format does.
* The C library functions the program calls (`strchr`, `strrchr`, `strtoul`,
  `fgets`, `atoi`, `sscanf`, `qsort`, ...) are modelled after their ISO C /
  glibc behaviour.
-/

namespace TaskManager

/-! ## Bytes and C strings -/

/-- The bytes of an ASCII string literal. -/
def bytes (s : String) : List Nat := s.toList.map Char.toNat

/-- Largest `unsigned long`. -/
def ULONG_MAX : Nat := 2 ^ 64 - 1

/-- Largest `long`. -/
def LONG_MAX : Int := 2 ^ 63 - 1

/-- Smallest `long`. -/
def LONG_MIN : Int := -(2 ^ 63)

/-- Conversion of an integer to `int` (two's complement, 32 bit). -/
def to_int32 (z : Int) : Int := (z + 2 ^ 31) % 2 ^ 32 - 2 ^ 31

/-- The byte a pointer points to: `*p`. -/
def deref (p : List Nat) : Nat := p.headD 0

/-- The C string a pointer points to: the bytes before the first NUL. -/
def cstr (p : List Nat) : List Nat := p.takeWhile (fun b => b != 0)

/-- Library `isdigit`. -/
def isdigit (b : Nat) : Bool := decide (48 ≤ b) && decide (b ≤ 57)

/-- Library `isspace` in the C locale: space, `\t`, `\n`, `\v`, `\f`, `\r`. -/
def isspace (b : Nat) : Bool := b == 32 || (decide (9 ≤ b) && decide (b ≤ 13))

/-- Library `strchr(s, c)`: offset of the first byte equal to `c` in the C string
at `s` (the terminator counts as part of the string), `none` for `NULL`. -/
def strchr : List Nat → Nat → Option Nat
  | [], c => if c = 0 then some 0 else none
  | b :: t, c =>
    if b = c then some 0
    else if b = 0 then none
    else (strchr t c).map (· + 1)

/-- Library `strrchr(s, c)`: offset of the last byte equal to `c` in the C string
at `s` (the terminator counts as part of the string), `none` for `NULL`. -/
def strrchr : List Nat → Nat → Option Nat
  | [], c => if c = 0 then some 0 else none
  | b :: t, c =>
    if b = 0 then (if c = 0 then some 0 else none)
    else
      match strrchr t c with
      | some k => some (k + 1)
      | none => if b = c then some 0 else none

/-- Value of a run of decimal digit bytes, most significant first. -/
def dec_value (ds : List Nat) : Nat := ds.foldl (fun a d => 10 * a + (d - 48)) 0

/-- Library `strtoul(p, &end, 10)`: skips white space, takes an optional sign and
then the longest run of decimal digits.  `none` stands for "no conversion"
(`end == p`, value 0); otherwise the value and `end`.  A value beyond
`ULONG_MAX` yields `ULONG_MAX`; a minus sign negates within `unsigned long`. -/
def strtoul (p : List Nat) : Option (Nat × List Nat) :=
  let s := p.dropWhile isspace
  let neg := deref s == 45
  let s1 := if deref s == 45 || deref s == 43 then s.tail else s
  let ds := s1.takeWhile isdigit
  if ds = [] then none
  else
    let v := dec_value ds
    let r := if v > ULONG_MAX then ULONG_MAX
             else if neg then (2 ^ 64 - v) % 2 ^ 64 else v
    some (r, s1.drop ds.length)

/-- Library `fgets(buf, size, fp)` on the unread bytes of a stream: at most
`n = size - 1` bytes, stopping after a newline. -/
def take_line : Nat → List Nat → List Nat
  | 0, _ => []
  | _, [] => []
  | n + 1, b :: t => if b = 10 then [b] else b :: take_line n t

/-- Library `fgets(buf, size, fp)`: `none` for `NULL` (end of file before any
byte was read); otherwise the bytes stored in front of the terminator. -/
def fgets (size : Nat) (stream : List Nat) : Option (List Nat) :=
  if stream = [] then none else some (take_line (size - 1) stream)

/-! ## `read_stat` -/

/-- What `read_stat` stores on success: `info->name` (the bytes in front of its
terminator), `info->state`, `*cpu_ticks` and `*start_ticks`. -/
structure StatResult where
  name : List Nat
  state : Nat
  cpu_ticks : Nat
  start_ticks : Nat
  deriving DecidableEq, Repr

/-- The field loop of `read_stat` (lines 189-203).  The arguments are `p`,
`field_index`, `utime`, `stime` and `starttime`; the result is the final
`(utime, stime, starttime)`.  The first argument bounds the number of passes:
`field_index` grows by one per pass and the pass with `field_index == 22`
always leaves the loop, so 19 passes from `field_index = 4` are never exceeded. -/
def scan_fields : Nat → List Nat → Nat → Nat → Nat → Nat → Nat × Nat × Nat
  | 0, _, _, utime, stime, starttime => (utime, stime, starttime)
  | fuel + 1, p, field_index, utime, stime, starttime =>
    if deref p = 0 then (utime, stime, starttime)
    else
      let p1 := p.dropWhile (fun b => b == 32)
      if deref p1 = 0 then (utime, stime, starttime)
      else
        match strtoul p1 with
        | none => (utime, stime, starttime)
        | some (val, e) =>
          let utime1 := if field_index = 14 then val else utime
          let stime1 := if field_index = 15 then val else stime
          if field_index = 22 then (utime1, stime1, val)
          else scan_fields fuel e (field_index + 1) utime1 stime1 starttime

/-- The body of `read_stat` from line 171 on, on the memory that starts at `buf`. -/
def read_stat_buf (buf : List Nat) : Option StatResult :=
  match strchr buf 40, strrchr buf 41 with
  | some lpar, some rpar =>
    if rpar < lpar then none
    else
      let name_len0 := (((rpar : Int) - (lpar : Int) - 1) % 2 ^ 64).toNat
      let name_len := if name_len0 ≥ 256 then 255 else name_len0
      let name := (buf.drop (lpar + 1)).take name_len
      let rest := buf.drop (rpar + 2)
      let r := scan_fields 19 (rest.drop 2) 4 0 0 0
      some { name := name, state := deref rest,
             cpu_ticks := (r.1 + r.2.1) % 2 ^ 64, start_ticks := r.2.2 }
  | _, _ => none

/-- The function `read_stat`.  `file` is the content of `/proc/<pid>/stat`
(`none` when it cannot be opened) and `stack` is what the memory at `buf` held
before the call and what follows it. -/
def read_stat (file : Option (List Nat)) (stack : List Nat) : Option StatResult :=
  match file with
  | none => none
  | some content =>
    match fgets 1024 content with
    | none => none
    | some line => read_stat_buf (line ++ 0 :: stack.drop (line.length + 1))

/-! ## Values of type `double`

The arithmetic of `double` is that of IEEE 754 binary64 with every operation
evaluated in `double` itself (`FLT_EVAL_METHOD` 0, as on x86-64): the exact
result of an operation is rounded to nearest, ties to even. -/

/-- A value of type `double` (IEEE 754 binary64): a NaN, an infinity, or the
finite number `(-1)^neg * m * 2^e`.  The operations below return finite numbers
in the form the format stores: `m < 2^53`, `-1074 ≤ e ≤ 971`, and `2^52 ≤ m`
unless `e = -1074`; both zeros have `m = 0` and `e = -1074`. -/
inductive Dbl where
  | nan
  | inf (neg : Bool)
  | fin (neg : Bool) (m : Nat) (e : Int)
  deriving DecidableEq, Repr

/-- The constant `0.0`. -/
def Dbl.zero : Dbl := Dbl.fin false 0 (-1074)

/-- Number of binary digits of `n`; the first argument bounds the number of
halvings. -/
def bit_length : Nat → Nat → Nat
  | 0, _ => 0
  | fuel + 1, n => if n = 0 then 0 else bit_length fuel (n / 2) + 1

/-- The exponent of the leading binary digit of `n / d`, that is
`floor (log2 (n / d))`, for positive `n` and `d`. -/
def ilog2 (n d : Nat) : Int :=
  let k0 : Int := (bit_length n n : Int) - (bit_length d d : Int)
  if n * 2 ^ (-k0).toNat < d * 2 ^ k0.toNat then k0 - 1 else k0

/-- The integer nearest to `n / d`; of two nearest integers the even one. -/
def round_even (n d : Nat) : Nat :=
  let q := n / d
  let r := n % d
  if 2 * r < d then q else if d < 2 * r then q + 1 else if q % 2 = 0 then q else q + 1

/-- Rounding of the exact value `(-1)^neg * (n / d) * 2^s` (with `d > 0`) to
`double` in the default rounding mode, to nearest with ties to even: 53
significant binary digits, fewer below `2^-1022`, infinity from
`2^1024 - 2^970` on. -/
def Dbl.round (neg : Bool) (n d : Nat) (s : Int) : Dbl :=
  if n = 0 then Dbl.fin neg 0 (-1074)
  else
    let e0 : Int := max (ilog2 n d + s - 52) (-1074)
    let m0 := round_even (n * 2 ^ (s - e0).toNat) (d * 2 ^ (e0 - s).toNat)
    let e := if m0 = 2 ^ 53 then e0 + 1 else e0
    let m := if m0 = 2 ^ 53 then 2 ^ 52 else m0
    if e > 971 then Dbl.inf neg else Dbl.fin neg m e

/-- Conversion of an integer (`int`, `long`, `unsigned long`) to `double`. -/
def Dbl.of_int (z : Int) : Dbl := Dbl.round (decide (z < 0)) z.natAbs 1 0

/-- The integer `(-1)^neg * m * 2^k`. -/
def Dbl.scaled (neg : Bool) (m k : Nat) : Int :=
  if neg then -((m * 2 ^ k : Nat) : Int) else ((m * 2 ^ k : Nat) : Int)

/-- The operator `-` on `double`. -/
def Dbl.sub (x y : Dbl) : Dbl :=
  match x, y with
  | Dbl.nan, _ => Dbl.nan
  | Dbl.inf _, Dbl.nan => Dbl.nan
  | Dbl.inf a, Dbl.inf b => if a = b then Dbl.nan else Dbl.inf a
  | Dbl.inf a, Dbl.fin _ _ _ => Dbl.inf a
  | Dbl.fin _ _ _, Dbl.nan => Dbl.nan
  | Dbl.fin _ _ _, Dbl.inf b => Dbl.inf (!b)
  | Dbl.fin a m e, Dbl.fin b m2 e2 =>
    let s := min e e2
    let diff := Dbl.scaled a m (e - s).toNat - Dbl.scaled b m2 (e2 - s).toNat
    if diff = 0 then Dbl.fin (a && !b) 0 (-1074)
    else Dbl.round (decide (diff < 0)) diff.natAbs 1 s

/-- The operator `*` on `double`. -/
def Dbl.mul (x y : Dbl) : Dbl :=
  match x, y with
  | Dbl.nan, _ => Dbl.nan
  | Dbl.inf _, Dbl.nan => Dbl.nan
  | Dbl.inf a, Dbl.inf b => Dbl.inf (xor a b)
  | Dbl.inf a, Dbl.fin b m _ => if m = 0 then Dbl.nan else Dbl.inf (xor a b)
  | Dbl.fin _ _ _, Dbl.nan => Dbl.nan
  | Dbl.fin a m _, Dbl.inf b => if m = 0 then Dbl.nan else Dbl.inf (xor a b)
  | Dbl.fin a m e, Dbl.fin b m2 e2 => Dbl.round (xor a b) (m * m2) 1 (e + e2)

/-- The operator `/` on `double`. -/
def Dbl.div (x y : Dbl) : Dbl :=
  match x, y with
  | Dbl.nan, _ => Dbl.nan
  | Dbl.inf _, Dbl.nan => Dbl.nan
  | Dbl.inf _, Dbl.inf _ => Dbl.nan
  | Dbl.inf a, Dbl.fin b _ _ => Dbl.inf (xor a b)
  | Dbl.fin _ _ _, Dbl.nan => Dbl.nan
  | Dbl.fin a _ _, Dbl.inf b => Dbl.fin (xor a b) 0 (-1074)
  | Dbl.fin a m e, Dbl.fin b m2 e2 =>
    if m2 = 0 then (if m = 0 then Dbl.nan else Dbl.inf (xor a b))
    else Dbl.round (xor a b) m m2 (e - e2)

/-- The operator `<` on `double`; a comparison with a NaN is false. -/
def Dbl.lt (x y : Dbl) : Bool :=
  match x, y with
  | Dbl.nan, _ => false
  | Dbl.inf _, Dbl.nan => false
  | Dbl.inf a, Dbl.inf b => a && !b
  | Dbl.inf a, Dbl.fin _ _ _ => a
  | Dbl.fin _ _ _, Dbl.nan => false
  | Dbl.fin _ _ _, Dbl.inf b => !b
  | Dbl.fin a m e, Dbl.fin b m2 e2 =>
    decide (Dbl.scaled a m (e - min e e2).toNat < Dbl.scaled b m2 (e2 - min e e2).toNat)

/-- The operator `<=` on `double`; a comparison with a NaN is false. -/
def Dbl.le (x y : Dbl) : Bool :=
  match x, y with
  | Dbl.nan, _ => false
  | Dbl.inf _, Dbl.nan => false
  | Dbl.inf a, Dbl.inf b => a || !b
  | Dbl.inf a, Dbl.fin _ _ _ => a
  | Dbl.fin _ _ _, Dbl.nan => false
  | Dbl.fin _ _ _, Dbl.inf b => !b
  | Dbl.fin a m e, Dbl.fin b m2 e2 =>
    decide (Dbl.scaled a m (e - min e e2).toNat ≤ Dbl.scaled b m2 (e2 - min e e2).toNat)

/-! ## Number parsing and printing of the C library -/

/-- Comparison of the leading bytes, as `strncmp(line, key, strlen(key)) == 0` does
for a NUL-free `key`. -/
def starts_with (key line : List Nat) : Bool := line.take key.length == key

/-- Library `strtol(p, NULL, 10)`: the value, 0 without digits, clamped to the
range of `long`. -/
def strtol_value (p : List Nat) : Int :=
  let s := p.dropWhile isspace
  let neg := deref s == 45
  let s1 := if deref s == 45 || deref s == 43 then s.tail else s
  let v : Int := (dec_value (s1.takeWhile isdigit) : Int)
  let w := if neg then -v else v
  if w > LONG_MAX then LONG_MAX else if w < LONG_MIN then LONG_MIN else w

/-- Library `atoi(p)`.  A value outside `int` is undefined in ISO C; glibc
computes `(int) strtol(p, NULL, 10)`, which is what is modelled. -/
def atoi (p : List Nat) : Int := to_int32 (strtol_value p)

/-- Conversion `%ld` of `sscanf`: `none` when no number is matched (nothing is
stored), otherwise the value clamped to the range of `long`. -/
def scan_long (p : List Nat) : Option Int :=
  let s := p.dropWhile isspace
  let s1 := if deref s == 45 || deref s == 43 then s.tail else s
  if s1.takeWhile isdigit = [] then none else some (strtol_value p)

/-- Conversion `%lu` of `sscanf`: `none` when no number is matched, otherwise
the value as `strtoul` computes it. -/
def scan_ulong (p : List Nat) : Option Nat := (strtoul p).map (fun r => r.1)

/-- Decimal digits of `n`, most significant first; the first argument bounds the
number of digits. -/
def dec_digits : Nat → Nat → List Nat
  | 0, _ => []
  | fuel + 1, n => if n < 10 then [48 + n] else dec_digits fuel (n / 10) ++ [48 + n % 10]

/-- Output of `%u`, `%lu`, `%zu` for a value `n`. -/
def dec (n : Nat) : List Nat := dec_digits (n + 1) n

/-- Output of `%d` and `%ld` for a value `z`. -/
def fmt_int (z : Int) : List Nat := if z < 0 then 45 :: dec z.natAbs else dec z.natAbs

/-! ## `is_pid_dir`, `read_status_info`, `username_from_uid`, `read_mem_total_kb` -/

/-- The loop of `is_pid_dir` over the C string. -/
def all_digits : List Nat → Bool
  | [] => true
  | b :: t => if b = 0 then true else if isdigit b then all_digits t else false

/-- The function `is_pid_dir` on a non-NULL name. -/
def is_pid_dir (name : List Nat) : Bool :=
  if deref name = 0 then false else all_digits name

/-- The outputs of `read_status_info`: `*vmsize_kb`, `*vmrss_kb`, `*uid_out`. -/
structure StatusOut where
  vmsize_kb : Int
  vmrss_kb : Int
  uid : Nat
  deriving DecidableEq, Repr

/-- One pass of the loop of `read_status_info` on the line `fgets` stored. -/
def status_line (line : List Nat) (o : StatusOut) : StatusOut :=
  if starts_with (bytes "VmSize:") line then
    match scan_long (line.drop 7) with
    | some v => { o with vmsize_kb := v }
    | none => o
  else if starts_with (bytes "VmRSS:") line then
    match scan_long (line.drop 6) with
    | some v => { o with vmrss_kb := v }
    | none => o
  else if starts_with (bytes "Uid:") line then
    let uid_val := (scan_ulong (line.drop 4)).getD 0
    { o with uid := uid_val % 2 ^ 32 }
  else o

/-- The loop of `read_status_info` on the unread bytes of the file.  Each `fgets`
consumes at least one byte, so as many passes as there are bytes suffice. -/
def read_status_loop : Nat → List Nat → StatusOut → StatusOut
  | 0, _, o => o
  | fuel + 1, stream, o =>
    match fgets 256 stream with
    | none => o
    | some line => read_status_loop fuel (stream.drop line.length) (status_line line o)

/-- The function `read_status_info`; `file` is the content of `/proc/<pid>/status`
(`none` when it cannot be opened), `o` holds the prior values of the outputs. -/
def read_status_info (file : Option (List Nat)) (o : StatusOut) : StatusOut :=
  match file with
  | none => o
  | some content => read_status_loop content.length content o

/-- The function `username_from_uid` with `out_len = 64`; `passwd uid` is the
`pw_name` that `getpwuid` finds (`none` when there is no entry or no name). -/
def username_from_uid (passwd : Nat → Option (List Nat)) (uid : Nat) : List Nat :=
  match passwd uid with
  | some pw_name => (cstr pw_name).take 63
  | none => (dec uid).take 63

/-- The loop of `read_mem_total_kb` on the unread bytes of `/proc/meminfo`. -/
def mem_total_loop : Nat → List Nat → Int
  | 0, _ => 0
  | fuel + 1, stream =>
    match fgets 256 stream with
    | none => 0
    | some line =>
      if starts_with (bytes "MemTotal:") line then (scan_long (line.drop 9)).getD 0
      else mem_total_loop fuel (stream.drop line.length)

/-- The function `read_mem_total_kb`; `file` is the content of `/proc/meminfo`. -/
def read_mem_total_kb (file : Option (List Nat)) : Int :=
  match file with
  | none => 0
  | some content => mem_total_loop content.length content

/-! ## `collect_processes_proc` -/

/-- The record `ProcessInfo`; the strings are the bytes in front of the terminator. -/
structure ProcessInfo where
  pid : Int
  name : List Nat
  user : List Nat
  state : Nat
  vmsize_kb : Int
  vmrss_kb : Int
  cpu_percent : Dbl
  mem_percent : Dbl
  deriving DecidableEq

/-- One entry that `readdir` returns for `/proc`, with the files below it:
`d_name`, the content of `stat` and of `status` (`none` when `fopen` fails) and
the prior content of the stack memory `read_stat` uses for `buf`. -/
structure DirEntry where
  d_name : List Nat
  stat : Option (List Nat)
  status : Option (List Nat)
  stack : List Nat
  deriving DecidableEq

/-- What `collect_processes_proc` obtains from the system: the content of
`/proc/meminfo`, the value `read_uptime_seconds` returns, the two `sysconf`
values, the user database, and whether `realloc` of the list to a given number of
records succeeds. -/
structure ProcEnv where
  meminfo : Option (List Nat)
  uptime : Dbl
  clk_tck : Int
  nprocessors : Int
  passwd : Nat → Option (List Nat)
  realloc_ok : Nat → Bool

/-- Line 218: `ticks_per_sec` after defaulting. -/
def ticks_per_sec (env : ProcEnv) : Int := if env.clk_tck ≤ 0 then 100 else env.clk_tck

/-- Line 219: `cpu_count` after defaulting. -/
def cpu_count (env : ProcEnv) : Int := if env.nprocessors ≤ 0 then 1 else env.nprocessors

/-- Line 254: the variable `seconds`. -/
def elapsed_seconds (env : ProcEnv) (start_ticks : Nat) : Dbl :=
  Dbl.sub env.uptime (Dbl.div (Dbl.of_int start_ticks) (Dbl.of_int (ticks_per_sec env)))

/-- Lines 254-260: the value stored in `info.cpu_percent`. -/
def cpu_percent_of (env : ProcEnv) (cpu_ticks start_ticks : Nat) : Dbl :=
  let seconds := elapsed_seconds env start_ticks
  if Dbl.lt (Dbl.of_int 0) seconds then
    let total_time := Dbl.div (Dbl.of_int cpu_ticks) (Dbl.of_int (ticks_per_sec env))
    Dbl.div (Dbl.mul (Dbl.div total_time seconds) (Dbl.of_int 100)) (Dbl.of_int (cpu_count env))
  else Dbl.zero

/-- Lines 262-266: the value stored in `info.mem_percent`. -/
def mem_percent_of (mem_total_kb vmrss_kb : Int) : Dbl :=
  if mem_total_kb > 0 then
    Dbl.div (Dbl.mul (Dbl.of_int vmrss_kb) (Dbl.of_int 100)) (Dbl.of_int mem_total_kb)
  else Dbl.zero

/-- Lines 239-266: the record built for one entry, `none` when `read_stat` fails. -/
def build_record (env : ProcEnv) (e : DirEntry) : Option ProcessInfo :=
  match read_stat e.stat e.stack with
  | none => none
  | some st =>
    let so := read_status_info e.status { vmsize_kb := 0, vmrss_kb := 0, uid := 0 }
    some { pid := atoi e.d_name,
           name := st.name,
           user := username_from_uid env.passwd so.uid,
           state := st.state,
           vmsize_kb := so.vmsize_kb,
           vmrss_kb := so.vmrss_kb,
           cpu_percent := cpu_percent_of env st.cpu_ticks st.start_ticks,
           mem_percent := mem_percent_of (read_mem_total_kb env.meminfo) so.vmrss_kb }

/-- The `readdir` loop of `collect_processes_proc` (lines 230-269) on the entries
not yet read, with the current `cap` and the records stored so far (`count` is
their number). -/
def proc_loop (env : ProcEnv) : List DirEntry → Nat → List ProcessInfo → List ProcessInfo
  | [], _, list => list
  | e :: es, cap, list =>
    if is_pid_dir e.d_name then
      if list.length ≥ cap then
        if env.realloc_ok (cap * 2) then
          match build_record env e with
          | none => proc_loop env es (cap * 2) list
          | some info => proc_loop env es (cap * 2) (list ++ [info])
        else list
      else
        match build_record env e with
        | none => proc_loop env es cap list
        | some info => proc_loop env es cap (list ++ [info])
    else proc_loop env es cap list

/-- The function `collect_processes_proc`.  `dir` lists the entries of `/proc` in
`readdir` order (`none` when `opendir` fails), `malloc_ok` tells whether the
initial `malloc` succeeds; `none` stands for the `NULL` result. -/
def collect_processes_proc (env : ProcEnv) (dir : Option (List DirEntry)) (malloc_ok : Bool) :
    Option (List ProcessInfo) :=
  match dir with
  | none => none
  | some entries => if malloc_ok then some (proc_loop env entries 256 []) else none

/-- The function `collect_processes`: the result of `collect_processes_proc` unless
it is `NULL`, else `ps_result`, the result of `collect_processes_ps`. -/
def collect_processes (env : ProcEnv) (dir : Option (List DirEntry)) (malloc_ok : Bool)
    (ps_result : Option (List ProcessInfo)) : Option (List ProcessInfo) :=
  match collect_processes_proc env dir malloc_ok with
  | some list => some list
  | none => ps_result

/-! ## `StrBuf` -/

/-- The record `StrBuf`.  `data` holds the bytes of the heap block `sb->data`
points to (the empty list for `NULL`), `len` and `cap` are the fields of the
same name (`size_t` arithmetic is taken without overflow).  The ghost field `oob`
lists, in order, the stores through `sb->data` that fall outside the block:
index and byte. -/
structure StrBuf where
  data : List Nat
  len : Nat
  cap : Nat
  oob : List (Nat × Nat)
  deriving DecidableEq, Repr

/-- The store `sb->data[i] = b`. -/
def StrBuf.store (sb : StrBuf) (i b : Nat) : StrBuf :=
  if i < sb.data.length then { sb with data := sb.data.set i b }
  else { sb with oob := sb.oob ++ [(i, b)] }

/-- The statement `sb->data[sb->len++] = b`. -/
def StrBuf.push (sb : StrBuf) (b : Nat) : StrBuf :=
  { sb.store sb.len b with len := sb.len + 1 }

/-- The function `sb_init`.  `alloc n` tells how a request for `n` bytes ends:
`none` for failure, `some fill` for success, the fresh bytes holding `fill`. -/
def sb_init (alloc : Nat → Option Nat) (cap : Nat) : StrBuf :=
  match alloc cap with
  | none => { data := [], len := 0, cap := cap, oob := [] }
  | some fill =>
    StrBuf.store { data := List.replicate cap fill, len := 0, cap := cap, oob := [] } 0 0

/-- The function `sb_ensure`. -/
def sb_ensure (alloc : Nat → Option Nat) (sb : StrBuf) (extra : Nat) : StrBuf :=
  if sb.len + extra + 1 ≤ sb.cap then sb
  else
    let new_cap := sb.cap * 2 + extra + 1
    match alloc new_cap with
    | none => sb
    | some fill =>
      { sb with data := sb.data.take new_cap ++ List.replicate (new_cap - sb.data.length) fill,
                cap := new_cap }

/-- The call `memcpy(sb->data + at, src, n)`: the stores of `src` from index `at` on. -/
def sb_memcpy : StrBuf → Nat → List Nat → StrBuf
  | sb, _, [] => sb
  | sb, i, b :: t => sb_memcpy (sb.store i b) (i + 1) t

/-- The function `sb_appendf`; `text` is the output the format and its arguments
produce, so `written = text.length`, and `tmp` holds the first 1023 bytes of it
and a terminator. -/
def sb_appendf (alloc : Nat → Option Nat) (sb : StrBuf) (text : List Nat) : StrBuf :=
  let written := text.length
  if written = 0 then sb
  else
    let sb1 := sb_ensure alloc sb written
    let tmp := (List.range written).map (fun i => (text.take 1023).getD i 0)
    let sb2 := sb_memcpy sb1 sb1.len tmp
    let sb3 := { sb2 with len := sb2.len + written }
    sb3.store sb3.len 0

/-- The loop of `sb_append_escaped` from the pointer `p` on. -/
def sb_escape_loop (alloc : Nat → Option Nat) : StrBuf → List Nat → StrBuf
  | sb, [] => sb
  | sb, c :: t =>
    if c = 0 then sb
    else if c = 34 ∨ c = 92 then
      sb_escape_loop alloc (((sb_ensure alloc sb 2).push 92).push c) t
    else if c = 10 then
      sb_escape_loop alloc (((sb_ensure alloc sb 2).push 92).push 110) t
    else
      sb_escape_loop alloc ((sb_ensure alloc sb 1).push c) t

/-- The function `sb_append_escaped`. -/
def sb_append_escaped (alloc : Nat → Option Nat) (sb : StrBuf) (s : List Nat) : StrBuf :=
  let sb1 := sb_escape_loop alloc sb s
  sb1.store sb1.len 0

/-- Reading of escaped text by the rules the specification documents:
backslash-quote is a quote, backslash-backslash is a backslash, backslash-n is a
newline, every other byte stands for itself. -/
def unescape : List Nat → List Nat
  | [] => []
  | [b] => [b]
  | a :: b :: t =>
    if a = 92 ∧ b = 34 then 34 :: unescape t
    else if a = 92 ∧ b = 92 then 92 :: unescape t
    else if a = 92 ∧ b = 110 then 10 :: unescape t
    else a :: unescape (b :: t)

/-! ## Sorting and `build_process_json` -/

/-- The function `compare_pid`; the `int` subtraction wraps. -/
def compare_pid (a b : ProcessInfo) : Int := to_int32 (a.pid - b.pid)

/-- Insertion of one element for `qsort`. -/
def qsort_insert (cmp : ProcessInfo → ProcessInfo → Int) (x : ProcessInfo) :
    List ProcessInfo → List ProcessInfo
  | [] => [x]
  | y :: ys => if cmp x y ≤ 0 then x :: y :: ys else y :: qsort_insert cmp x ys

/-- Library `qsort` with the comparison function `cmp`, as a sort by insertion.
For a comparison that orders the elements totally and without ties, every correct
sort yields the same array. -/
def qsort (cmp : ProcessInfo → ProcessInfo → Int) : List ProcessInfo → List ProcessInfo
  | [] => []
  | x :: xs => qsort_insert cmp x (qsort cmp xs)

/-- Output of the format of line 359 for the record `p`. -/
def process_head_text (p : ProcessInfo) : List Nat :=
  bytes "\x7b\"pid\":" ++ fmt_int p.pid ++ bytes ",\"name\":\""

/-- Output of the format of line 365 for the record `p`; `fmt_double` is the
output of `%.2f`. -/
def process_tail_text (fmt_double : Dbl → List Nat) (p : ProcessInfo) : List Nat :=
  bytes "\",\"state\":\"" ++ [p.state] ++ bytes "\",\"vmsize_kb\":" ++ fmt_int p.vmsize_kb
    ++ bytes ",\"vmrss_kb\":" ++ fmt_int p.vmrss_kb
    ++ bytes ",\"cpu_percent\":" ++ fmt_double p.cpu_percent
    ++ bytes ",\"mem_percent\":" ++ fmt_double p.mem_percent ++ bytes "\x7d"

/-- The appends of one pass of the loop of `build_process_json` (lines 357-366);
`first` is `i == 0`. -/
def append_process (alloc : Nat → Option Nat) (fmt_double : Dbl → List Nat)
    (sb : StrBuf) (first : Bool) (p : ProcessInfo) : StrBuf :=
  let sb1 := if first then sb else sb_appendf alloc sb (bytes ",")
  let sb2 := sb_appendf alloc sb1 (process_head_text p)
  let sb3 := sb_append_escaped alloc sb2 p.name
  let sb4 := sb_appendf alloc sb3 (bytes "\",\"user\":\"")
  let sb5 := sb_append_escaped alloc sb4 p.user
  sb_appendf alloc sb5 (process_tail_text fmt_double p)

/-- The loop of `build_process_json` (lines 356-367) over the records from index
`i` on. -/
def append_processes (alloc : Nat → Option Nat) (fmt_double : Dbl → List Nat) :
    StrBuf → Bool → List ProcessInfo → StrBuf
  | sb, _, [] => sb
  | sb, first, p :: ps =>
    append_processes alloc fmt_double (append_process alloc fmt_double sb first p) false ps

/-- The function `build_process_json`.  `collected` is the result of
`collect_processes` (`none` for `NULL`), `current_user` what `current_user_name`
stores; the result is the final buffer (`sb.data`, `sb.len`), `none` for `NULL`. -/
def build_process_json (alloc : Nat → Option Nat) (fmt_double : Dbl → List Nat)
    (current_user : List Nat) (collected : Option (List ProcessInfo)) : Option StrBuf :=
  match collected with
  | none => none
  | some list0 =>
    let list := qsort compare_pid list0
    let sb0 := sb_init alloc 8192
    let sb1 := sb_appendf alloc sb0 (bytes "\x7b\"current_user\":\"")
    let sb2 := sb_append_escaped alloc sb1 current_user
    let sb3 := sb_appendf alloc sb2
      (bytes "\",\"count\":" ++ dec list.length ++ bytes ",\"processes\":[")
    let sb4 := append_processes alloc fmt_double sb3 true list
    some (sb_appendf alloc sb4 (bytes "]\x7d"))

/-! ## Request handling -/

/-- Library `strstr(hay, needle)`: the pointer to the first occurrence of the C
string `needle` in the C string at `hay`, `none` for `NULL`. -/
def strstr : List Nat → List Nat → Option (List Nat)
  | [], needle => if cstr needle = [] then some [] else none
  | b :: t, needle =>
    if starts_with (cstr needle) (cstr (b :: t)) then some (b :: t)
    else if b = 0 then none
    else strstr t needle

/-- The function `extract_int_field`; `body` is `none` for `NULL`. -/
def extract_int_field (body : Option (List Nat)) (key : List Nat) : Int :=
  match body with
  | none => -1
  | some b =>
    match strstr b key with
    | none => -1
    | some p =>
      match strchr p 58 with
      | none => -1
      | some k =>
        let p1 := p.drop (k + 1)
        let p2 := p1.dropWhile (fun c => c != 0 && !isdigit c && c != 45)
        if deref p2 = 0 then -1 else atoi p2

/-- What `handle_request` does to the outside: a `send_response` call with its
status, content type and body, or a `kill` call with its pid and signal. -/
inductive Effect where
  | respond (status : List Nat) (content_type : List Nat) (body : List Nat)
  | kill (pid : Int) (sig : Nat)
  deriving DecidableEq

/-- What `handle_request` obtains from the system: the payload
`build_process_json` returns (`none` for `NULL`), the `errno` a `kill` of a pid
ends with (0 when it returns 0) and `strerror`. -/
structure ReqEnv where
  json : Option (List Nat)
  kill_errno : Int → Int
  strerror : Int → List Nat

/-- The signal number `SIGTERM`. -/
def SIGTERM : Nat := 15

/-- Output of `snprintf(buf, size, ...)` stored in front of the terminator. -/
def snprintf (size : Nat) (text : List Nat) : List Nat := cstr (text.take (size - 1))

/-- The function `handle_request`: the calls it makes, in order.  `method` and
`path` point to C strings, `body` is `none` for `NULL`. -/
def handle_request (env : ReqEnv) (method path : List Nat) (body : Option (List Nat)) :
    List Effect :=
  if cstr method = bytes "OPTIONS" then
    [Effect.respond (bytes "204 No Content") (bytes "text/plain") []]
  else if cstr method = bytes "GET" ∧ cstr path = bytes "/api/processes" then
    match env.json with
    | none => [Effect.respond (bytes "500 Internal Server Error") (bytes "application/json")
                (bytes "\x7b\"error\":\"Failed to read process list\"\x7d")]
    | some json => [Effect.respond (bytes "200 OK") (bytes "application/json") json]
  else if cstr method = bytes "POST" ∧ cstr path = bytes "/api/kill" then
    let pid := extract_int_field body (bytes "pid")
    if pid ≤ 0 then
      [Effect.respond (bytes "400 Bad Request") (bytes "application/json")
        (bytes "\x7b\"error\":\"Invalid PID\"\x7d")]
    else if env.kill_errno pid ≠ 0 then
      [Effect.kill pid SIGTERM,
       Effect.respond (bytes "500 Internal Server Error") (bytes "application/json")
        (snprintf 256 (bytes "\x7b\"error\":\"kill failed\",\"errno\":" ++ fmt_int (env.kill_errno pid)
          ++ bytes ",\"message\":\"" ++ env.strerror (env.kill_errno pid) ++ bytes "\"\x7d"))]
    else
      [Effect.kill pid SIGTERM,
       Effect.respond (bytes "200 OK") (bytes "application/json")
        (snprintf 128 (bytes "\x7b\"status\":\"terminated\",\"pid\":" ++ fmt_int pid ++ bytes "\x7d"))]
  else
    [Effect.respond (bytes "404 Not Found") (bytes "application/json")
      (bytes "\x7b\"error\":\"Not found\"\x7d")]

/-! ## Text of stat fields -/

/-- The text of consecutive numeric fields of a stat line, each followed by one
space. -/
def fields_text : List Int → List Nat
  | [] => []
  | z :: zs => fmt_int z ++ 32 :: fields_text zs

/-! ## Views of a `StrBuf` -/

/-- The read view of a buffer: the bytes `data[0 .. len)`. -/
def StrBuf.content (sb : StrBuf) : List Nat := sb.data.take sb.len

/-- The block has `cap` bytes, `k` more bytes and a terminator fit after `len`,
and no store fell outside the block. -/
def StrBuf.room (sb : StrBuf) (k : Nat) : Prop :=
  sb.data.length = sb.cap ∧ sb.len + k + 1 ≤ sb.cap ∧ sb.oob = []

/-- The bytes the loop of `sb_append_escaped` stores for the C string at `s`. -/
def escape_bytes : List Nat → List Nat
  | [] => []
  | c :: t =>
    if c = 0 then []
    else if c = 34 ∨ c = 92 then 92 :: c :: escape_bytes t
    else if c = 10 then 92 :: 110 :: escape_bytes t
    else c :: escape_bytes t

/-- The text of one process object in the payload. -/
def object_text (fmt_double : Dbl → List Nat) (p : ProcessInfo) : List Nat :=
  process_head_text p ++ escape_bytes p.name ++ bytes "\",\"user\":\"" ++ escape_bytes p.user
    ++ process_tail_text fmt_double p

/-- The text of a sequence of process objects, separated by commas; `first` tells
whether no object precedes them. -/
def objects_text (fmt_double : Dbl → List Nat) : Bool → List ProcessInfo → List Nat
  | _, [] => []
  | first, p :: ps =>
    (if first then [] else bytes ",") ++ object_text fmt_double p
      ++ objects_text fmt_double false ps

/-- The text of one process object of the payload, written out: the members
`pid`, `name`, `user`, `state`, `vmsize_kb`, `vmrss_kb`, `cpu_percent` and
`mem_percent` in this order, the strings escaped, the integers in decimal, the
percentages as `fmt_double` prints them. -/
def json_object (fmt_double : Dbl → List Nat) (p : ProcessInfo) : List Nat :=
  bytes "\x7b\"pid\":" ++ fmt_int p.pid
    ++ bytes ",\"name\":\"" ++ escape_bytes p.name
    ++ bytes "\",\"user\":\"" ++ escape_bytes p.user
    ++ bytes "\",\"state\":\"" ++ [p.state]
    ++ bytes "\",\"vmsize_kb\":" ++ fmt_int p.vmsize_kb
    ++ bytes ",\"vmrss_kb\":" ++ fmt_int p.vmrss_kb
    ++ bytes ",\"cpu_percent\":" ++ fmt_double p.cpu_percent
    ++ bytes ",\"mem_percent\":" ++ fmt_double p.mem_percent ++ bytes "\x7d"

/-- The text of the payload for the process sequence `ps`, written out: the
members `current_user`, `count` and `processes`, the process objects in the order
of `ps`, separated by commas. -/
def json_payload (fmt_double : Dbl → List Nat) (current_user : List Nat)
    (ps : List ProcessInfo) : List Nat :=
  bytes "\x7b\"current_user\":\"" ++ escape_bytes current_user
    ++ bytes "\",\"count\":" ++ dec ps.length ++ bytes ",\"processes\":["
    ++ List.intercalate (bytes ",") (ps.map (json_object fmt_double)) ++ bytes "]\x7d"

/-! ## Concrete inputs used in examples -/

/-- A system with 8 GB of memory, 1000 s of uptime, 100 ticks per second, 4
processors, an empty user database and a `realloc` that always succeeds. -/
def demo_env : ProcEnv :=
  { meminfo := some (bytes "MemTotal: 8000000 kB\n"), uptime := Dbl.of_int 1000, clk_tck := 100,
    nprocessors := 4, passwd := fun _ => none, realloc_ok := fun _ => true }

/-- A well-formed stat line: utime 300, stime 200, starttime 5000. -/
def demo_stat_line : List Nat :=
  bytes "7 (a (copy) b) S 1 7 7 0 -1 4194304 10 0 0 0 300 200 0 0 20 0 1 0 5000 1000 50\n"

/-- The `/proc` entry `7` with a well-formed stat file. -/
def demo_entry : DirEntry :=
  { d_name := bytes "7", stat := some demo_stat_line,
    status := some (bytes "Name:\ta\nVmSize:\t  2000 kB\nVmRSS:\t   800 kB\nUid:\t1000\t1000\n"),
    stack := [] }

/-- A stat line of process 42 that lacks the closing parenthesis: utime 7,
stime 5, starttime 300. -/
def demo_line_unclosed : List Nat :=
  bytes "42 (sh S 1 42 42 0 -1 0 0 0 0 0 7 5 0 0 20 0 1 0 300 0 0\n"

/-- The line of `demo_line_unclosed` with the parenthesis closed. -/
def demo_line_closed : List Nat :=
  bytes "42 (sh) S 1 42 42 0 -1 0 0 0 0 0 7 5 0 0 20 0 1 0 300 0 0\n"

/-- The `/proc` entry `42` whose stat line lacks the closing parenthesis. -/
def demo_entry_unclosed : DirEntry :=
  { d_name := bytes "42", stat := some demo_line_unclosed, status := none, stack := [] }

/-- The `/proc` entry `42` with the corrected stat line. -/
def demo_entry_closed : DirEntry :=
  { d_name := bytes "42", stat := some demo_line_closed, status := none, stack := [] }

/-- The `/proc` entry `1` whose stat file holds `1 (a)` and nothing more, read
into the memory in which the previous call of `read_stat` left `line`. -/
def demo_entry_short (line : List Nat) : DirEntry :=
  { d_name := bytes "1", stat := some (bytes "1 (a)"), status := none, stack := line ++ [0] }

/-- The `/proc` entry `9` whose start time, 200000 ticks, lies after the uptime
of `demo_env`. -/
def demo_entry_skew : DirEntry :=
  { d_name := bytes "9",
    stat := some (bytes "9 (late) R 1 9 9 0 -1 0 0 0 0 0 30 20 0 0 20 0 1 0 200000 0 0\n"),
    status := some (bytes "VmRSS:\t   800 kB\n"), stack := [] }

/-- The record `collect_processes_proc` builds for `demo_entry_skew` in `demo_env`. -/
def demo_record_skew : ProcessInfo :=
  { pid := 9, name := bytes "late", user := bytes "0", state := 82, vmsize_kb := 0,
    vmrss_kb := 800, cpu_percent := Dbl.zero,
    mem_percent := Dbl.fin false 5764607523034235 (-59) }

/-- The record `collect_processes_proc` builds for `demo_entry` in `demo_env`:
5 s of CPU time in 950 s on 4 processors, `0.13157894736842105`. -/
def demo_record : ProcessInfo :=
  { pid := 7, name := bytes "a (copy) b", user := bytes "1000", state := 83, vmsize_kb := 2000,
    vmrss_kb := 800, cpu_percent := Dbl.fin false 4740631186705785 (-55),
    mem_percent := Dbl.fin false 5764607523034235 (-59) }

/-- The system of `demo_env` with `/proc/uptime` holding `nan`. -/
def demo_env_nan : ProcEnv := { demo_env with uptime := Dbl.nan }

/-- The system of `demo_env` with `/proc/uptime` holding `0.1`. -/
def demo_env_tenth : ProcEnv :=
  { demo_env with uptime := Dbl.fin false 7205759403792794 (-56) }

/-- The `/proc` entry `8` of a process started 10 ticks after boot. -/
def demo_entry_early : DirEntry :=
  { d_name := bytes "8",
    stat := some (bytes "8 (init) S 0 8 8 0 -1 0 0 0 0 0 30 20 0 0 20 0 1 0 10 0 0\n"),
    status := none, stack := [] }

/-- A `/proc` entry named `0` with a well-formed stat file. -/
def demo_entry_zero : DirEntry :=
  { d_name := bytes "0",
    stat := some (bytes "0 (idle) R 0 0 0 0 -1 0 0 0 0 0 0 0 0 0 20 0 1 0 0 0 0\n"),
    status := none, stack := [] }

/-- A system in which every `kill` succeeds and `build_process_json` fails. -/
def demo_req_env : ReqEnv :=
  { json := none, kill_errno := fun _ => 0, strerror := fun _ => [] }

/-- Four records with the pids 42, 7, 1000 and 3, in this order. -/
def demo_records : List ProcessInfo :=
  [42, 7, 1000, 3].map (fun pid =>
    { pid := pid, name := bytes "sh", user := bytes "root", state := 83, vmsize_kb := 2000,
      vmrss_kb := 800, cpu_percent := Dbl.zero, mem_percent := Dbl.zero })

/-- A `/proc` entry named `2147483648`, for which `atoi` yields `INT_MIN`. -/
def demo_entry_wrap : DirEntry :=
  { d_name := bytes "2147483648",
    stat := some (bytes "2147483648 (big) S 1 0 0 0 -1 0 0 0 0 0 0 0 0 0 20 0 1 0 0 0 0\n"),
    status := none, stack := [] }

/-- The `/proc` entry `1`. -/
def demo_entry_one : DirEntry :=
  { d_name := bytes "1",
    stat := some (bytes "1 (init) S 0 1 1 0 -1 0 0 0 0 0 0 0 0 0 20 0 1 0 0 0 0\n"),
    status := none, stack := [] }

/-- The records `collect_processes_proc` builds for `demo_entry_wrap` and
`demo_entry_one` in `demo_env`. -/
def demo_records_wrap : List ProcessInfo :=
  [{ pid := -2147483648, name := bytes "big", user := bytes "0", state := 83, vmsize_kb := 0,
     vmrss_kb := 0, cpu_percent := Dbl.zero, mem_percent := Dbl.zero },
   { pid := 1, name := bytes "init", user := bytes "0", state := 83, vmsize_kb := 0,
     vmrss_kb := 0, cpu_percent := Dbl.zero, mem_percent := Dbl.zero }]

/-! ## Allocation requests of `sb_ensure` -/

/-- The sizes `sb_ensure` passes to `realloc`, in call order: none when the bytes
fit (the early return of line 47), else the one request of line 49. -/
def sb_ensure_requests (sb : StrBuf) (extra : Nat) : List Nat :=
  if sb.len + extra + 1 ≤ sb.cap then [] else [sb.cap * 2 + extra + 1]

/-! ## Sequences of appends -/

/-- One append to a buffer: a call of `sb_appendf` whose format and arguments produce
`text`, or a call of `sb_append_escaped` with the string `s`. -/
inductive SbCall where
  | appendf (text : List Nat)
  | append_escaped (s : List Nat)
  deriving DecidableEq

/-- The effect of one append. -/
def sb_call (alloc : Nat → Option Nat) (sb : StrBuf) : SbCall → StrBuf
  | SbCall.appendf text => sb_appendf alloc sb text
  | SbCall.append_escaped s => sb_append_escaped alloc sb s

/-- The effect of a sequence of appends, in call order. -/
def sb_calls (alloc : Nat → Option Nat) (sb : StrBuf) : List SbCall → StrBuf
  | [] => sb
  | c :: cs => sb_calls alloc (sb_call alloc sb c) cs

/-- The bytes one append is to add: the formatted text, or the escaped form of
the string. -/
def SbCall.appended : SbCall → List Nat
  | SbCall.appendf text => text
  | SbCall.append_escaped s => escape_bytes s

/-- The bytes a sequence of appends is to add, in call order. -/
def appended_bytes : List SbCall → List Nat
  | [] => []
  | c :: cs => c.appended ++ appended_bytes cs

/-- No `sb_appendf` among the calls formats to more than 1023 bytes. -/
def formats_fit : List SbCall → Prop
  | [] => True
  | SbCall.appendf text :: cs => text.length ≤ 1023 ∧ formats_fit cs
  | SbCall.append_escaped _ :: cs => formats_fit cs

/-! ## More concrete inputs -/

/-- A record with the given pid. -/
def record_with_pid (pid : Int) : ProcessInfo :=
  { pid := pid, name := bytes "sh", user := bytes "root", state := 83, vmsize_kb := 0,
    vmrss_kb := 0, cpu_percent := Dbl.zero, mem_percent := Dbl.zero }

/-! ## Stat lines that stop early -/

/-- The text begins with a decimal number: a digit, or a sign and a digit. -/
def begins_with_number : List Nat → Bool
  | [] => false
  | b :: t => isdigit b || ((b == 45 || b == 43) && isdigit (deref t))

/-! ## Texts made of lines -/

/-- The text made of the given lines, each followed by a newline. -/
def join_lines : List (List Nat) → List Nat
  | [] => []
  | l :: ls => l ++ 10 :: join_lines ls

/-- What `fgets` delivers, call by call, for the text `join_lines lines ++ last`
when every line fits the buffer: each line with its newline, then the unterminated
rest `last` if there is one. -/
def line_chunks (lines : List (List Nat)) (last : List Nat) : List (List Nat) :=
  lines.map (fun l => l ++ [10]) ++ (if last = [] then [] else [last])

/-! ## `collect_processes_ps` -/

/-- Conversion `%<w>s` of `sscanf`: white space is skipped, then at most `w` bytes
that are neither white space nor NUL are taken; `none` when there is none.  The
result is the token stored and the rest of the input. -/
def scan_str (w : Nat) (p : List Nat) : Option (List Nat × List Nat) :=
  let s := p.dropWhile isspace
  let tok := (s.takeWhile (fun b => b != 0 && !isspace b)).take w
  if tok = [] then none else some (tok, s.drop tok.length)

/-- Conversion `%ld` of `sscanf` with the rest of the input: `none` when no number
is matched, otherwise the value clamped to the range of `long`. -/
def scan_long_rest (p : List Nat) : Option (Int × List Nat) :=
  let s := p.dropWhile isspace
  let s1 := if deref s == 45 || deref s == 43 then s.tail else s
  let ds := s1.takeWhile isdigit
  if ds = [] then none else some (strtol_value p, s1.drop ds.length)

/-- Conversion `%d` of `sscanf`: as `%ld`, the value stored in an `int`. -/
def scan_int (p : List Nat) : Option (Int × List Nat) :=
  (scan_long_rest p).map (fun r => (to_int32 r.1, r.2))

/-- The variables `sscanf` fills in `collect_processes_ps`, and its return value
`fields`. -/
structure PsLine where
  fields : Int
  user : List Nat
  pid : Int
  comm : List Nat
  state : List Nat
  rss : Int
  vsz : Int
  pcpu : Dbl
  pmem : Dbl

/-- The call of `sscanf` of line 299 on a line; `scan_double` is the conversion
`%lf` (library `strtod`).  The variables keep their initial values from the first
conversion that fails on; the return value is the number of conversions made, or
`EOF` (-1) when the input ends before the first one. -/
def ps_sscanf (scan_double : List Nat → Option (Dbl × List Nat)) (line : List Nat) : PsLine :=
  let v0 : PsLine := { fields := -1, user := [], pid := 0, comm := [], state := [], rss := 0,
                       vsz := 0, pcpu := Dbl.zero, pmem := Dbl.zero }
  match scan_str 63 line with
  | none => v0
  | some (user, p1) =>
    let v1 := { v0 with fields := 1, user := user }
    match scan_int p1 with
    | none => v1
    | some (pid, p2) =>
      let v2 := { v1 with fields := 2, pid := pid }
      match scan_str 255 p2 with
      | none => v2
      | some (comm, p3) =>
        let v3 := { v2 with fields := 3, comm := comm }
        match scan_str 31 p3 with
        | none => v3
        | some (state, p4) =>
          let v4 := { v3 with fields := 4, state := state }
          match scan_long_rest p4 with
          | none => v4
          | some (rss, p5) =>
            let v5 := { v4 with fields := 5, rss := rss }
            match scan_long_rest p5 with
            | none => v5
            | some (vsz, p6) =>
              let v6 := { v5 with fields := 6, vsz := vsz }
              match scan_double p6 with
              | none => v6
              | some (pcpu, p7) =>
                let v7 := { v6 with fields := 7, pcpu := pcpu }
                match scan_double p7 with
                | none => v7
                | some (pmem, _) => { v7 with fields := 8, pmem := pmem }

/-- Lines 290-318 for one line: the record built, `none` when the line is skipped. -/
def ps_record (scan_double : List Nat → Option (Dbl × List Nat)) (line : List Nat) :
    Option ProcessInfo :=
  let v := ps_sscanf scan_double line
  if v.fields < 4 ∨ v.pid ≤ 0 then none
  else
    some { pid := v.pid,
           name := snprintf 256 v.comm,
           user := snprintf 64 v.user,
           state := if deref v.state ≠ 0 then deref v.state else 32,
           vmsize_kb := v.vsz,
           vmrss_kb := v.rss,
           cpu_percent := v.pcpu,
           mem_percent := v.pmem }

/-- The `fgets` loop of `collect_processes_ps` (lines 289-321) on the unread output
of the utility, with the current `cap` and the records stored so far.  Each `fgets`
consumes at least one byte, so as many passes as there are bytes suffice. -/
def ps_loop (scan_double : List Nat → Option (Dbl × List Nat)) (realloc_ok : Nat → Bool) :
    Nat → List Nat → Nat → List ProcessInfo → List ProcessInfo
  | 0, _, _, list => list
  | fuel + 1, stream, cap, list =>
    match fgets 512 stream with
    | none => list
    | some line =>
      match ps_record scan_double line with
      | none => ps_loop scan_double realloc_ok fuel (stream.drop line.length) cap list
      | some info =>
        if list.length ≥ cap then
          if realloc_ok (cap * 2) then
            ps_loop scan_double realloc_ok fuel (stream.drop line.length) (cap * 2)
              (list ++ [info])
          else list
        else
          ps_loop scan_double realloc_ok fuel (stream.drop line.length) cap (list ++ [info])

/-- The function `collect_processes_ps`.  `output` is what the utility writes
(`none` when `popen` fails), `malloc_ok` tells whether the initial `malloc`
succeeds; `none` stands for the `NULL` result. -/
def collect_processes_ps (scan_double : List Nat → Option (Dbl × List Nat))
    (realloc_ok : Nat → Bool) (output : Option (List Nat)) (malloc_ok : Bool) :
    Option (List ProcessInfo) :=
  match output with
  | none => none
  | some text =>
    if malloc_ok then some (ps_loop scan_double realloc_ok text.length text 256 []) else none

/-! ## Fields of a line of the utility -/

/-- The byte belongs to a field: it is neither NUL nor white space. -/
def tokch (b : Nat) : Bool := b != 0 && !isspace b

/-- The white-space-separated fields of the C string at `p`. -/
def split_ws : List Nat → List (List Nat)
  | [] => []
  | b :: t =>
    if b = 0 then []
    else if isspace b then split_ws t
    else
      match split_ws t with
      | [] => [[b]]
      | tok :: rest => if tokch (deref t) then (b :: tok) :: rest else [b] :: tok :: rest

/-- The field is a decimal number: an optional sign and one or more digits. -/
def is_number : List Nat → Bool
  | [] => false
  | b :: r => if b == 45 || b == 43 then (!r.isEmpty && r.all isdigit) else (b :: r).all isdigit

/-- The value of a field that is a decimal number. -/
def number_value : List Nat → Int
  | [] => 0
  | b :: r =>
    if b == 45 then -(dec_value r : Int)
    else if b == 43 then (dec_value r : Int)
    else (dec_value (b :: r) : Int)

/-- The line is well formed for `collect_processes_ps`: it has at least four
fields, the second is a decimal number, and this number is positive. -/
def ps_well_formed (line : List Nat) : Bool :=
  match split_ws line with
  | _ :: pid :: _ :: _ :: _ => is_number pid && decide (0 < number_value pid)
  | _ => false

/-- The fields of the line fit the conversions of line 299: the first field has at
most 63 bytes, the third at most 255, and the second, when it begins with a
decimal number, is a decimal number with a value of `int`. -/
def ps_fits (line : List Nat) : Prop :=
  ((split_ws line).getD 0 []).length ≤ 63 ∧
  ((split_ws line).getD 2 []).length ≤ 255 ∧
  (begins_with_number ((split_ws line).getD 1 []) = true →
    is_number ((split_ws line).getD 1 []) = true ∧
    -(2 ^ 31) ≤ number_value ((split_ws line).getD 1 []) ∧
    number_value ((split_ws line).getD 1 []) < 2 ^ 31)

/-! # Theorems -/

/-! ## Facts about the C string functions -/

theorem cstr_no_nul (p : List Nat) : 0 ∉ cstr p := by
  intro h
  have := List.mem_takeWhile_imp h
  simp at this

theorem cstr_split (p : List Nat) (junk : List Nat) :
    ∃ j, p ++ 0 :: junk = cstr p ++ 0 :: j := by
  induction p with
  | nil => exact ⟨junk, by simp [cstr]⟩
  | cons b t ih =>
    obtain ⟨j, hj⟩ := ih
    by_cases hb : b = 0
    · subst hb
      exact ⟨t ++ 0 :: junk, by simp [cstr]⟩
    · refine ⟨j, ?_⟩
      have : cstr (b :: t) = b :: cstr t := by simp [cstr, List.takeWhile_cons, hb]
      rw [this]
      simpa using hj

theorem strchr_first (pre rest : List Nat) (c : Nat) (hc : c ∉ pre) (h0 : 0 ∉ pre) :
    strchr (pre ++ c :: rest) c = some pre.length := by
  induction pre with
  | nil => simp [strchr]
  | cons b t ih =>
    simp only [List.mem_cons, not_or] at hc h0
    have hb : ¬ b = c := fun h => hc.1 h.symm
    have hb0 : ¬ b = 0 := fun h => h0.1 h.symm
    simp [strchr, hb, hb0, ih hc.2 h0.2]

theorem strchr_none (s j : List Nat) (c : Nat) (hc : c ∉ s) (hc0 : c ≠ 0) :
    strchr (s ++ 0 :: j) c = none := by
  induction s with
  | nil => simp [strchr, Ne.symm hc0]
  | cons b t ih =>
    simp only [List.mem_cons, not_or] at hc
    have hb : ¬ b = c := fun h => hc.1 h.symm
    by_cases hb0 : b = 0
    · subst hb0
      simp [strchr, Ne.symm hc0]
    · simp [strchr, hb, hb0, ih hc.2]

theorem strrchr_none (s j : List Nat) (c : Nat) (hc : c ∉ s) (hc0 : c ≠ 0) :
    strrchr (s ++ 0 :: j) c = none := by
  induction s with
  | nil => simp [strrchr, hc0]
  | cons b t ih =>
    simp only [List.mem_cons, not_or] at hc
    have hb : ¬ b = c := fun h => hc.1 h.symm
    by_cases hb0 : b = 0
    · simp [strrchr, hb0, hc0]
    · simp [strrchr, hb, hb0, ih hc.2]

theorem strrchr_last (a post j : List Nat) (c : Nat) (hc : c ∉ post) (hc0 : c ≠ 0)
    (ha : 0 ∉ a) : strrchr (a ++ c :: post ++ 0 :: j) c = some a.length := by
  induction a with
  | nil =>
    have := strrchr_none post j c hc hc0
    simp [strrchr, hc0, this]
  | cons b t ih =>
    simp only [List.mem_cons, not_or] at ha
    have hb0 : ¬ b = 0 := fun h => ha.1 h.symm
    have := ih ha.2
    simp only [List.append_assoc, List.cons_append] at this
    simp [strrchr, hb0, this]

theorem read_stat_buf_name (pre mid post j : List Nat) (hpre : 40 ∉ pre) (hpost : 41 ∉ post)
    (h0 : 0 ∉ pre ++ 40 :: mid ++ 41 :: post) (hlen : mid.length < 2 ^ 64) :
    ∃ r, read_stat_buf (pre ++ 40 :: mid ++ 41 :: post ++ 0 :: j) = some r ∧
      r.name = mid.take 255 := by
  have h0pre : 0 ∉ pre := fun h => h0 (by simp [h])
  have h0mid : 0 ∉ mid := fun h => h0 (by simp [h])
  have hl : strchr (pre ++ 40 :: mid ++ 41 :: post ++ 0 :: j) 40 = some pre.length := by
    have := strchr_first pre (mid ++ 41 :: post ++ 0 :: j) 40 hpre h0pre
    simpa using this
  have hr : strrchr (pre ++ 40 :: mid ++ 41 :: post ++ 0 :: j) 41
      = some (pre.length + 1 + mid.length) := by
    have := strrchr_last (pre ++ 40 :: mid) post j 41 hpost (by decide)
      (by simp only [List.mem_append, List.mem_cons]; rintro (h | h | h)
          · exact h0pre h
          · exact absurd h (by decide)
          · exact h0mid h)
    have e : pre.length + 1 + mid.length = (pre ++ 40 :: mid).length := by simp; omega
    rw [e]
    simpa using this
  simp only [read_stat_buf, hl, hr]
  have hlt : ¬ (pre.length + 1 + mid.length < pre.length) := by omega
  simp only [hlt, if_false]
  refine ⟨_, rfl, ?_⟩
  have hnl : ((((pre.length + 1 + mid.length : Nat) : Int) - (pre.length : Int) - 1) % 2 ^ 64).toNat
      = mid.length := by
    omega
  have hdrop : List.drop (pre.length + 1) (pre ++ 40 :: mid ++ 41 :: post ++ 0 :: j)
      = mid ++ 41 :: post ++ 0 :: j := by
    simp [List.drop_append_eq_append_drop, List.drop_of_length_le]
  simp only [hnl, hdrop]
  split
  · rw [List.append_assoc, List.take_append_of_le_length (by omega)]
  · rw [List.append_assoc, List.take_append_of_le_length (by omega),
      List.take_of_length_le (by omega), List.take_of_length_le (by omega)]

theorem take_line_length (n : Nat) (s : List Nat) : (take_line n s).length ≤ n := by
  induction n generalizing s with
  | zero => simp [take_line]
  | succ n ih =>
    cases s with
    | nil => simp [take_line]
    | cons b t =>
      simp only [take_line]
      split
      · simp
      · simpa using ih t

theorem fgets_length (size : Nat) (s line : List Nat) (h : fgets size s = some line) :
    line.length ≤ size - 1 := by
  unfold fgets at h
  split at h
  · cases h
  · cases h
    exact take_line_length _ _

/-- C1: whenever the stat line read by `fgets` (the C string in `buf`) has the
shape `pre ( mid ) post` with no `(` in `pre` and no `)` in `post` (a `(` in front
of the last `)`), `read_stat` succeeds and the name is `mid`, the bytes strictly
between the first `(` and the last `)`, cut to its first 255 bytes. -/
theorem read_stat_name_between_first_lparen_last_rparen
    (content stack line pre mid post : List Nat)
    (hread : fgets 1024 content = some line)
    (hline : cstr line = pre ++ 40 :: mid ++ 41 :: post)
    (hpre : 40 ∉ pre) (hpost : 41 ∉ post) :
    ∃ r, read_stat (some content) stack = some r ∧ r.name = mid.take 255 := by
  obtain ⟨j, hj⟩ := cstr_split line (stack.drop (line.length + 1))
  have h0 : 0 ∉ pre ++ 40 :: mid ++ 41 :: post := hline ▸ cstr_no_nul line
  have hlen : line.length ≤ 1023 := fgets_length 1024 content line hread
  have hcl : (cstr line).length ≤ line.length := by
    unfold cstr
    exact (List.takeWhile_sublist _).length_le
  have hmid : mid.length < 2 ^ 64 := by
    rw [hline] at hcl
    simp at hcl
    omega
  obtain ⟨r, hr, hn⟩ := read_stat_buf_name pre mid post j hpre hpost h0 hmid
  refine ⟨r, ?_, hn⟩
  simp only [read_stat, hread, hj, hline]
  exact hr

/-- Witness for C1: the name `a (copy) b`. -/
theorem read_stat_name_between_first_lparen_last_rparen_witness :
    ∃ r, read_stat (some (bytes "1 (a (copy) b) S 1 2 3\n")) [] = some r ∧
      r.name = (bytes "a (copy) b").take 255 :=
  read_stat_name_between_first_lparen_last_rparen (bytes "1 (a (copy) b) S 1 2 3\n") []
    (bytes "1 (a (copy) b) S 1 2 3\n") (bytes "1 ") (bytes "a (copy) b") (bytes " S 1 2 3\n")
    (by decide) (by decide) (by decide) (by decide)

/-! ## Failure of `read_stat` and the collector -/

theorem exists_first_split (s : List Nat) (c : Nat) (h : c ∈ s) :
    ∃ pre rest, s = pre ++ c :: rest ∧ c ∉ pre := by
  induction s with
  | nil => cases h
  | cons b t ih =>
    by_cases hb : c = b
    · subst hb
      exact ⟨[], t, rfl, by simp⟩
    · have ht : c ∈ t := by
        rcases List.mem_cons.mp h with h | h
        · exact absurd h hb
        · exact h
      obtain ⟨pre, rest, h1, h2⟩ := ih ht
      refine ⟨b :: pre, rest, by simp [h1], ?_⟩
      simp only [List.mem_cons, not_or]
      exact ⟨hb, h2⟩

theorem exists_last_split (s : List Nat) (c : Nat) (h : c ∈ s) :
    ∃ a post, s = a ++ c :: post ∧ c ∉ post := by
  induction s with
  | nil => cases h
  | cons b t ih =>
    by_cases ht : c ∈ t
    · obtain ⟨a, post, h1, h2⟩ := ih ht
      exact ⟨b :: a, post, by simp [h1], h2⟩
    · have : c = b := by
        rcases List.mem_cons.mp h with h | h
        · exact h
        · exact absurd h ht
      subst this
      exact ⟨[], t, rfl, ht⟩

theorem read_stat_buf_none_iff (s j : List Nat) (h0 : 0 ∉ s) :
    read_stat_buf (s ++ 0 :: j) = none ↔
      (40 ∉ s ∨ 41 ∉ s ∨
        ∃ a b c, s = a ++ 41 :: b ++ 40 :: c ∧ 41 ∉ b ++ 40 :: c ∧ 40 ∉ a ++ 41 :: b) := by
  constructor
  · intro h
    by_cases hl : 40 ∈ s
    · by_cases hr : 41 ∈ s
      · right; right
        obtain ⟨a, post, hs, hpost⟩ := exists_last_split s 41 hr
        have h0a : 0 ∉ a := fun h' => h0 (by simp [hs, h'])
        have hrr : strrchr (s ++ 0 :: j) 41 = some a.length := by
          rw [hs]; exact strrchr_last a post j 41 hpost (by decide) h0a
        obtain ⟨pre, rest, hs2, hpre⟩ := exists_first_split s 40 hl
        have h0p : 0 ∉ pre := fun h' => h0 (by simp [hs2, h'])
        have hk : strchr (s ++ 0 :: j) 40 = some pre.length := by
          rw [hs2, List.append_assoc, List.cons_append]
          exact strchr_first pre (rest ++ 0 :: j) 40 hpre h0p
        simp only [read_stat_buf, hk, hrr] at h
        split at h
        · rename_i hlt
          have heq : pre ++ 40 :: rest = a ++ 41 :: post := by rw [← hs2, hs]
          rcases List.append_eq_append_iff.mp heq with ⟨x, hx1, hx2⟩ | ⟨x, hx1, hx2⟩
          · rw [hx1] at hlt
            simp at hlt
          · cases x with
            | nil =>
              simp at hx1 hx2
            | cons y x' =>
              simp only [List.cons_append, List.cons.injEq] at hx2
              obtain ⟨hy, hx2⟩ := hx2
              subst hy
              refine ⟨a, x', rest, ?_, ?_, ?_⟩
              · rw [hs2, hx1]
              · rw [← hx2]; exact hpost
              · rw [← hx1]; exact hpre
        · cases h
      · exact Or.inr (Or.inl hr)
    · exact Or.inl hl
  · rintro (hl | hr | ⟨a, b, c, hs, h1, h2⟩)
    · simp [read_stat_buf, strchr_none s j 40 hl (by decide)]
    · simp only [read_stat_buf, strrchr_none s j 41 hr (by decide)]
      split <;> simp_all
    · have h0a : 0 ∉ a := fun h' => h0 (by simp [hs, h'])
      have h0ab : 0 ∉ a ++ 41 :: b := fun h' => h0 (by
        rw [hs]; simp only [List.mem_append, List.mem_cons] at h' ⊢; tauto)
      have hrr : strrchr (s ++ 0 :: j) 41 = some a.length := by
        have := strrchr_last a (b ++ 40 :: c) j 41 h1 (by decide) h0a
        rw [hs]
        simpa using this
      have hll : strchr (s ++ 0 :: j) 40 = some (a ++ 41 :: b).length := by
        have := strchr_first (a ++ 41 :: b) (c ++ 0 :: j) 40 h2 h0ab
        rw [hs]
        simpa using this
      simp only [read_stat_buf, hrr, hll]
      simp

theorem proc_loop_full_fail (env : ProcEnv) (es : List DirEntry) (cap : Nat)
    (list : List ProcessInfo) (hfull : list.length ≥ cap) (hfail : env.realloc_ok (cap * 2) = false) :
    proc_loop env es cap list = list := by
  induction es with
  | nil => rfl
  | cons e es ih =>
    simp only [proc_loop, hfull, hfail, if_true]
    split
    · simp
    · exact ih

theorem proc_loop_grow (env : ProcEnv) (es : List DirEntry) (cap : Nat)
    (list : List ProcessInfo) (hcap : 0 < cap) (hfull : list.length = cap)
    (hok : env.realloc_ok (cap * 2) = true) :
    proc_loop env es (cap * 2) list = proc_loop env es cap list := by
  induction es with
  | nil => rfl
  | cons e es ih =>
    have h1 : ¬ list.length ≥ cap * 2 := by omega
    have h2 : list.length ≥ cap := by omega
    simp only [proc_loop, h1, h2, hok, if_true, if_false]
    split
    · rfl
    · exact ih

theorem proc_loop_skip (env : ProcEnv) (e : DirEntry) (es : List DirEntry) (cap : Nat)
    (list : List ProcessInfo) (hcap : 0 < cap) (hle : list.length ≤ cap)
    (hnone : build_record env e = none) :
    proc_loop env (e :: es) cap list = proc_loop env es cap list := by
  simp only [proc_loop, hnone]
  split
  · split
    · rename_i hfull
      have heq : list.length = cap := by omega
      cases hok : env.realloc_ok (cap * 2) with
      | true => simpa using proc_loop_grow env es cap list hcap heq hok
      | false => simpa using (proc_loop_full_fail env es cap list hfull hok).symm
    · rfl
  · rfl

theorem proc_loop_skip_middle (env : ProcEnv) (A B : List DirEntry) (e : DirEntry) (cap : Nat)
    (list : List ProcessInfo) (hcap : 0 < cap) (hle : list.length ≤ cap)
    (hnone : build_record env e = none) :
    proc_loop env (A ++ e :: B) cap list = proc_loop env (A ++ B) cap list := by
  induction A generalizing cap list with
  | nil => simpa using proc_loop_skip env e B cap list hcap hle hnone
  | cons a A ih =>
    simp only [List.cons_append, proc_loop]
    split
    · split
      · rename_i hfull
        split
        · have h2 : 0 < cap * 2 := by omega
          split
          · exact ih (cap * 2) list h2 (by omega)
          · exact ih (cap * 2) _ h2 (by simp; omega)
        · rfl
      · rename_i hnf
        split
        · exact ih cap list hcap hle
        · exact ih cap _ hcap (by simp; omega)
    · exact ih cap list hcap hle

/-- The records of the entries that are process directories and parse. -/
theorem proc_loop_all_ok (env : ProcEnv) (es : List DirEntry) (cap : Nat)
    (list : List ProcessInfo) (hok : ∀ n, env.realloc_ok n = true) :
    proc_loop env es cap list =
      list ++ es.filterMap (fun e => if is_pid_dir e.d_name then build_record env e else none) := by
  induction es generalizing cap list with
  | nil => simp [proc_loop]
  | cons e es ih =>
    simp only [proc_loop, hok, if_true, List.filterMap_cons]
    by_cases hp : is_pid_dir e.d_name = true
    · simp only [hp, if_true]
      cases hb : build_record env e with
      | none => simp [ih]
      | some info => simp [ih]
    · simp only [hp, if_false, Bool.false_eq_true]
      exact ih cap list

theorem build_record_none_iff (env : ProcEnv) (e : DirEntry) :
    build_record env e = none ↔ read_stat e.stat e.stack = none := by
  unfold build_record
  split <;> simp_all

/-- For a stat line that `fgets` read, `read_stat` fails exactly when the line has
no `(`, or no `)`, or its last `)` precedes its first `(`; it succeeds for every
other line that was read. -/
theorem read_stat_none_iff (content line stack : List Nat)
    (hread : fgets 1024 content = some line) :
    read_stat (some content) stack = none ↔
      (40 ∉ cstr line ∨ 41 ∉ cstr line ∨
        ∃ a b c, cstr line = a ++ 41 :: b ++ 40 :: c ∧ 41 ∉ b ++ 40 :: c ∧ 40 ∉ a ++ 41 :: b) := by
  obtain ⟨j, hj⟩ := cstr_split line (stack.drop (line.length + 1))
  have := read_stat_buf_none_iff (cstr line) j (cstr_no_nul line)
  simpa only [read_stat, hread, hj] using this

/-- An entry whose `read_stat` fails leaves no record: the result is the one for
the listing without the entry, each other entry being read into the same memory. -/
theorem collect_processes_proc_skips_failed (env : ProcEnv) (A B : List DirEntry)
    (e : DirEntry) (m : Bool) (hnone : read_stat e.stat e.stack = none) :
    collect_processes_proc env (some (A ++ e :: B)) m
      = collect_processes_proc env (some (A ++ B)) m := by
  have hb : build_record env e = none := (build_record_none_iff env e).mpr hnone
  cases m with
  | false => rfl
  | true =>
    simp only [collect_processes_proc, if_true]
    rw [proc_loop_skip_middle env A B e 256 [] (by decide) (by simp) hb]

/-- With every `realloc` succeeding, the number of records is the number of
process entries whose stat line has a `(` followed later by a last `)`, whatever
the memory behind the terminators of the lines holds. -/
theorem collect_processes_proc_count (env : ProcEnv) (entries : List DirEntry)
    (hok : ∀ n, env.realloc_ok n = true) :
    (collect_processes_proc env (some entries) true).map List.length
      = some (entries.countP
          (fun e => is_pid_dir e.d_name && (read_stat e.stat []).isSome)) := by
  have hstack : ∀ (f : Option (List Nat)) (s : List Nat),
      (read_stat f s).isSome = (read_stat f []).isSome := by
    intro f s
    cases f with
    | none => rfl
    | some content =>
      cases hread : fgets 1024 content with
      | none => simp [read_stat, hread]
      | some line =>
        have h1 := read_stat_none_iff content line s hread
        have h2 := read_stat_none_iff content line [] hread
        cases ha : read_stat (some content) s with
        | none =>
          have := h2.mpr (h1.mp ha)
          simp [this]
        | some v =>
          cases hb : read_stat (some content) [] with
          | none =>
            have := h1.mpr (h2.mp hb)
            rw [this] at ha
            cases ha
          | some w => rfl
  simp only [collect_processes_proc, if_true, Option.map_some', Option.some.injEq,
    proc_loop_all_ok env _ _ _ hok, List.nil_append]
  induction entries with
  | nil => rfl
  | cons e es ih =>
    rw [List.filterMap_cons, List.countP_cons]
    by_cases hp : is_pid_dir e.d_name = true
    · simp only [hp, if_true, Bool.true_and]
      rw [← hstack e.stat e.stack]
      cases hb : build_record env e with
      | none =>
        have := (build_record_none_iff env e).mp hb
        simp [this, ih]
      | some r =>
        have hs : (read_stat e.stat e.stack).isSome = true := by
          cases hr : read_stat e.stat e.stack with
          | none =>
            have := (build_record_none_iff env e).mpr hr
            rw [this] at hb
            cases hb
          | some v => rfl
        simp [hs, ih]
    · simp only [hp, if_false, Bool.false_eq_true, Bool.false_and]
      simpa using ih

/-- When `realloc` fails the list never grows beyond its capacity: no run returns
more than the 256 records of the initial allocation. -/
theorem collect_processes_proc_length_le (env : ProcEnv) (entries : List DirEntry)
    (list : List ProcessInfo) (hfail : ∀ n, env.realloc_ok n = false)
    (h : collect_processes_proc env (some entries) true = some list) : list.length ≤ 256 := by
  have key : ∀ (es : List DirEntry) (cap : Nat) (l : List ProcessInfo), l.length ≤ cap →
      (proc_loop env es cap l).length ≤ cap := by
    intro es
    induction es with
    | nil => intro cap l hl; simpa [proc_loop] using hl
    | cons e es ih =>
      intro cap l hl
      unfold proc_loop
      split
      · split
        · rw [hfail]
          simpa using hl
        · rename_i hlt
          split
          · exact ih cap l hl
          · exact ih cap _ (by simp; omega)
      · exact ih cap l hl
  simp only [collect_processes_proc, if_true, Option.some.injEq] at h
  rw [← h]
  exact key entries 256 [] (by simp)

set_option maxRecDepth 100000 in
set_option exponentiation.threshold 2000 in
theorem demo_stale_collect :
    collect_processes_proc demo_env
        (some [demo_entry_unclosed, demo_entry_short demo_line_unclosed]) true
      = some [{ pid := 1, name := bytes "a", user := bytes "0", state := 32, vmsize_kb := 0,
                vmrss_kb := 0, cpu_percent := Dbl.fin false 6938344059820543 (-61),
                mem_percent := Dbl.zero }] ∧
    collect_processes_proc demo_env
        (some [demo_entry_closed, demo_entry_short demo_line_closed]) true
      = some [{ pid := 42, name := bytes "sh", user := bytes "0", state := 83, vmsize_kb := 0,
                vmrss_kb := 0, cpu_percent := Dbl.fin false 6938344059820543 (-61),
                mem_percent := Dbl.zero },
              { pid := 1, name := bytes "a", user := bytes "0", state := 41, vmsize_kb := 0,
                vmrss_kb := 0, cpu_percent := Dbl.zero, mem_percent := Dbl.zero }] ∧
    read_stat (some (bytes "1 (a)")) (demo_line_unclosed ++ [0])
      = some { name := bytes "a", state := 32, cpu_ticks := 12, start_ticks := 300 } ∧
    read_stat (some (bytes "1 (a)")) (demo_line_closed ++ [0])
      = some { name := bytes "a", state := 41, cpu_ticks := 0, start_ticks := 0 } := by
  decide

/-- C2 (the code at the failing input): `/proc` lists entry `42` and then entry
`1`, whose stat file holds `1 (a)`; `buf` still holds the line of entry `42` when
`read_stat` reads the file of entry `1`.  With the stat line of `42` lacking its
`)`, entry `42` leaves no record, and the record of entry `1` has the state ` `
and the CPU time of process 42 (12 ticks, started at tick 300), taken from the
bytes of that line behind the terminator.  With the line of `42` corrected the
count is one more, but the record of entry `1` is another one: state `)` and no
CPU time.  The record of the other entry is not unchanged. -/
theorem collect_processes_proc_record_from_stale_line :
    collect_processes_proc demo_env
        (some [demo_entry_unclosed, demo_entry_short demo_line_unclosed]) true
      = some [{ pid := 1, name := bytes "a", user := bytes "0", state := 32, vmsize_kb := 0,
                vmrss_kb := 0, cpu_percent := Dbl.fin false 6938344059820543 (-61),
                mem_percent := Dbl.zero }] ∧
    collect_processes_proc demo_env
        (some [demo_entry_closed, demo_entry_short demo_line_closed]) true
      = some [{ pid := 42, name := bytes "sh", user := bytes "0", state := 83, vmsize_kb := 0,
                vmrss_kb := 0, cpu_percent := Dbl.fin false 6938344059820543 (-61),
                mem_percent := Dbl.zero },
              { pid := 1, name := bytes "a", user := bytes "0", state := 41, vmsize_kb := 0,
                vmrss_kb := 0, cpu_percent := Dbl.zero, mem_percent := Dbl.zero }] ∧
    read_stat (some (bytes "1 (a)")) (demo_line_unclosed ++ [0])
      = some { name := bytes "a", state := 32, cpu_ticks := 12, start_ticks := 300 } ∧
    read_stat (some (bytes "1 (a)")) (demo_line_closed ++ [0])
      = some { name := bytes "a", state := 41, cpu_ticks := 0, start_ticks := 0 } :=
  demo_stale_collect

/-! ## Decimal numbers -/

theorem dec_value_append (l : List Nat) (d : Nat) :
    dec_value (l ++ [d]) = 10 * dec_value l + (d - 48) := by
  simp [dec_value, List.foldl_append]

theorem dec_digits_spec (fuel n : Nat) (h : n < fuel) :
    dec_digits fuel n ≠ [] ∧ (∀ d ∈ dec_digits fuel n, isdigit d = true) ∧
      dec_value (dec_digits fuel n) = n := by
  induction fuel generalizing n with
  | zero => omega
  | succ fuel ih =>
    unfold dec_digits
    split
    · refine ⟨by simp, ?_, ?_⟩
      · intro d hd
        simp only [List.mem_singleton] at hd
        subst hd
        simp [isdigit]; omega
      · simp [dec_value]
    · obtain ⟨_, h2, h3⟩ := ih (n / 10) (by omega)
      refine ⟨by simp, ?_, ?_⟩
      · intro d hd
        rcases List.mem_append.mp hd with hd | hd
        · exact h2 d hd
        · simp only [List.mem_singleton] at hd
          subst hd
          simp [isdigit]; omega
      · rw [dec_value_append, h3]
        omega

theorem dec_ne_nil (n : Nat) : dec n ≠ [] := (dec_digits_spec (n + 1) n (by omega)).1

theorem dec_isdigit (n : Nat) : ∀ d ∈ dec n, isdigit d = true :=
  (dec_digits_spec (n + 1) n (by omega)).2.1

theorem dec_value_dec (n : Nat) : dec_value (dec n) = n :=
  (dec_digits_spec (n + 1) n (by omega)).2.2

theorem takeWhile_digits (ds rest : List Nat) (hd : ∀ d ∈ ds, isdigit d = true)
    (hr : isdigit (deref rest) = false) : (ds ++ rest).takeWhile isdigit = ds := by
  induction ds with
  | nil =>
    cases rest with
    | nil => rfl
    | cons b t =>
      simp only [deref, List.headD_cons] at hr
      simp [List.takeWhile_cons, hr]
  | cons d ds ih =>
    have h1 : isdigit d = true := hd d (by simp)
    simp only [List.cons_append, List.takeWhile_cons, h1, if_true]
    rw [ih (fun x hx => hd x (by simp [hx]))]

theorem isdigit_not_space (d : Nat) (h : isdigit d = true) : isspace d = false := by
  simp only [isdigit, Bool.and_eq_true, decide_eq_true_eq] at h
  simp only [isspace, Bool.or_eq_false_iff, Bool.and_eq_false_iff, beq_eq_false_iff_ne,
    decide_eq_false_iff_not]
  omega

theorem strtoul_digits (ds rest : List Nat) (hne : ds ≠ []) (hd : ∀ d ∈ ds, isdigit d = true)
    (hr : isdigit (deref rest) = false) :
    strtoul (ds ++ rest) = some (min (dec_value ds) ULONG_MAX, rest) := by
  cases ds with
  | nil => exact absurd rfl hne
  | cons d t =>
    have h1 : isdigit d = true := hd d (by simp)
    have hsp : isspace d = false := isdigit_not_space d h1
    have hd' : 48 ≤ d ∧ d ≤ 57 := by
      simpa only [isdigit, Bool.and_eq_true, decide_eq_true_eq] using h1
    have h45 : (d == 45) = false := by simp; omega
    have h43 : (d == 43) = false := by simp; omega
    have htw := takeWhile_digits (d :: t) rest hd hr
    simp only [List.cons_append] at htw
    have hdw : List.dropWhile isspace (d :: (t ++ rest)) = d :: (t ++ rest) := by
      simp [List.dropWhile_cons, hsp]
    have hdrop : List.drop (d :: t).length (d :: (t ++ rest)) = rest := by
      simp
    unfold strtoul
    simp only [List.cons_append, hdw, deref, List.headD_cons, h45, h43, Bool.or_self,
      Bool.false_eq_true, if_false, htw, hdrop, reduceCtorEq]
    unfold ULONG_MAX
    simp only [Option.some.injEq, Prod.mk.injEq, and_true]
    split <;> omega

theorem strtoul_dec (n : Nat) (rest : List Nat) (hr : isdigit (deref rest) = false) :
    strtoul (dec n ++ rest) = some (min n ULONG_MAX, rest) := by
  have := strtoul_digits (dec n) rest (dec_ne_nil n) (dec_isdigit n) hr
  rwa [dec_value_dec] at this

theorem strtoul_fmt_int (z : Int) (rest : List Nat) (hr : isdigit (deref rest) = false) :
    ∃ v, strtoul (fmt_int z ++ rest) = some (v, rest) := by
  unfold fmt_int
  split
  · have htw := takeWhile_digits (dec z.natAbs) rest (dec_isdigit _) hr
    have hne := dec_ne_nil z.natAbs
    refine ⟨if dec_value (dec z.natAbs) > ULONG_MAX then ULONG_MAX else (2 ^ 64 - dec_value (dec z.natAbs)) % 2 ^ 64, ?_⟩
    have hdw : List.dropWhile isspace (45 :: (dec z.natAbs ++ rest)) = 45 :: (dec z.natAbs ++ rest) := by
      simp [List.dropWhile_cons, show isspace 45 = false by decide]
    unfold strtoul
    simp only [List.cons_append, hdw, deref, List.headD_cons, beq_self_eq_true, Bool.true_or,
      if_true, List.tail_cons, htw, hne, if_false, List.drop_left]
  · exact ⟨_, strtoul_dec _ rest hr⟩

/-! ## The field loop of `read_stat` -/

theorem dec_head (n : Nat) : ∃ b t, dec n = b :: t ∧ isdigit b = true := by
  cases h : dec n with
  | nil => exact absurd h (dec_ne_nil n)
  | cons b t => exact ⟨b, t, rfl, dec_isdigit n b (by simp [h])⟩

theorem fmt_int_head (z : Int) : ∃ b t, fmt_int z = b :: t ∧ b ≠ 0 ∧ b ≠ 32 := by
  unfold fmt_int
  split
  · exact ⟨45, _, rfl, by decide, by decide⟩
  · obtain ⟨b, t, h, hb⟩ := dec_head z.natAbs
    simp only [isdigit, Bool.and_eq_true, decide_eq_true_eq] at hb
    exact ⟨b, t, h, by omega, by omega⟩

theorem fmt_int_natCast (n : Nat) : fmt_int (n : Int) = dec n := by
  simp [fmt_int]

theorem scan_space (fuel : Nat) (X : List Nat) (i u s st : Nat) :
    scan_fields fuel (32 :: X) i u s st = scan_fields fuel X i u s st := by
  cases fuel with
  | zero => rfl
  | succ fuel =>
    have hdw : List.dropWhile (fun b => b == 32) (32 :: X) = List.dropWhile (fun b => b == 32) X := by
      simp [List.dropWhile_cons]
    rw [scan_fields, scan_fields]
    simp only [hdw]
    rw [if_neg (show ¬ deref (32 :: X) = 0 by simp [deref])]
    cases X with
    | nil => simp [deref]
    | cons b t =>
      by_cases hb : b = 0
      · subst hb
        simp [deref, List.dropWhile_cons]
      · rw [if_neg (show ¬ deref (b :: t) = 0 by simpa [deref] using hb)]

theorem scan_token (fuel : Nat) (b : Nat) (t e : List Nat) (val i u s st : Nat)
    (hb0 : b ≠ 0) (hb32 : b ≠ 32) (hv : strtoul (b :: t) = some (val, e)) :
    scan_fields (fuel + 1) (b :: t) i u s st =
      if i = 22 then ((if i = 14 then val else u), (if i = 15 then val else s), val)
      else scan_fields fuel e (i + 1) (if i = 14 then val else u) (if i = 15 then val else s) st := by
  have hdw : List.dropWhile (fun b => b == 32) (b :: t) = b :: t := by
    simp [List.dropWhile_cons, hb32]
  rw [scan_fields]
  simp only [deref, List.headD_cons, hdw, hb0, if_false, hv]

theorem scan_plain_fields (zs : List Int) (fuel : Nat) (X : List Nat) (i u s st : Nat)
    (hi : ∀ k, k < zs.length → i + k ≠ 14 ∧ i + k ≠ 15 ∧ i + k ≠ 22) :
    scan_fields (fuel + zs.length) (fields_text zs ++ X) i u s st
      = scan_fields fuel X (i + zs.length) u s st := by
  induction zs generalizing i with
  | nil => simp [fields_text]
  | cons z zs ih =>
    obtain ⟨b, t, hz, hb0, hb32⟩ := fmt_int_head z
    obtain ⟨v, hv⟩ := strtoul_fmt_int z (32 :: (fields_text zs ++ X)) (by simp [deref, isdigit])
    have h0 := hi 0 (by simp)
    simp only [Nat.add_zero] at h0
    have hstep := scan_token (fuel + zs.length) b (t ++ 32 :: (fields_text zs ++ X))
      (32 :: (fields_text zs ++ X)) v i u s st hb0 hb32 (by
        rw [← List.cons_append, ← hz]; exact hv)
    have htxt : fields_text (z :: zs) ++ X = b :: (t ++ 32 :: (fields_text zs ++ X)) := by
      simp [fields_text, hz]
    rw [htxt, List.length_cons, ← Nat.add_assoc, hstep]
    simp only [h0.1, h0.2.1, h0.2.2, if_false]
    rw [scan_space, ih (i + 1) (fun k hk => by
      have := hi (k + 1) (by simp; omega)
      omega)]
    congr 1
    omega

theorem scan_key_field (n : Nat) (fuel : Nat) (X : List Nat) (i u s st : Nat)
    (hn : n < 2 ^ 64) (hX : isdigit (deref X) = false) :
    scan_fields (fuel + 1) (dec n ++ X) i u s st =
      if i = 22 then ((if i = 14 then n else u), (if i = 15 then n else s), n)
      else scan_fields fuel X (i + 1) (if i = 14 then n else u) (if i = 15 then n else s) st := by
  obtain ⟨b, t, hz, hb⟩ := dec_head n
  simp only [isdigit, Bool.and_eq_true, decide_eq_true_eq] at hb
  have hv := strtoul_dec n X hX
  have hmin : min n ULONG_MAX = n := by unfold ULONG_MAX; omega
  rw [hmin, hz] at hv
  rw [hz]
  exact scan_token fuel b (t ++ X) X n i u s st (by omega) (by omega) hv

/-- The field loop on a line whose fields 4 to 22 are decimal numbers. -/
theorem scan_fields_stat (f4_13 f16_21 : List Int) (f14 f15 f22 : Nat) (t : List Nat)
    (h1 : f4_13.length = 10) (h2 : f16_21.length = 6)
    (h14 : f14 < 2 ^ 64) (h15 : f15 < 2 ^ 64) (h22 : f22 < 2 ^ 64)
    (ht : isdigit (deref t) = false) :
    scan_fields 19 (fields_text (f4_13 ++ [(f14 : Int), (f15 : Int)] ++ f16_21) ++ dec f22 ++ t)
      4 0 0 0 = (f14, f15, f22) := by
  have htext : fields_text (f4_13 ++ [(f14 : Int), (f15 : Int)] ++ f16_21) ++ dec f22 ++ t
      = fields_text f4_13 ++ (dec f14 ++ 32 :: (dec f15 ++ 32 :: (fields_text f16_21 ++ (dec f22 ++ t)))) := by
    have happ : ∀ (a b : List Int), fields_text (a ++ b) = fields_text a ++ fields_text b := by
      intro a b
      induction a with
      | nil => rfl
      | cons z zs ih => simp [fields_text, ih]
    simp [happ, fields_text, fmt_int_natCast]
  rw [htext]
  have e1 := scan_plain_fields f4_13 9 (dec f14 ++ 32 :: (dec f15 ++ 32 :: (fields_text f16_21 ++ (dec f22 ++ t))))
    4 0 0 0 (by intro k hk; omega)
  rw [h1] at e1
  have e2 := scan_key_field f14 8 (32 :: (dec f15 ++ 32 :: (fields_text f16_21 ++ (dec f22 ++ t))))
    14 0 0 0 h14 (by simp [deref, isdigit])
  have e3 := scan_key_field f15 7 (32 :: (fields_text f16_21 ++ (dec f22 ++ t)))
    15 f14 0 0 h15 (by simp [deref, isdigit])
  have e4 := scan_plain_fields f16_21 1 (dec f22 ++ t) 16 f14 f15 0 (by intro k hk; omega)
  rw [h2] at e4
  have e5 := scan_key_field f22 0 t 22 f14 f15 0 h22 ht
  simp only [Nat.reduceAdd, Nat.reduceEqDiff, if_true, if_false, scan_space] at e1 e2 e3 e4 e5
  rw [e1, e2, e3, e4, e5]

/-- The bound on the passes of the field loop is never reached: from
`field_index <= 22` every bound of at least `23 - field_index` passes gives the
same result, so the 19 passes `read_stat_buf` allows from `field_index = 4` are
what the unbounded loop computes. -/
theorem scan_fields_bound_irrelevant (fuel fuel' : Nat) (p : List Nat) (i u s st : Nat)
    (hi : i ≤ 22) (h1 : 23 - i ≤ fuel) (h2 : 23 - i ≤ fuel') :
    scan_fields fuel p i u s st = scan_fields fuel' p i u s st := by
  induction fuel generalizing fuel' p i u s st with
  | zero => omega
  | succ fuel ih =>
    cases fuel' with
    | zero => omega
    | succ fuel' =>
      rw [scan_fields, scan_fields]
      split
      · rfl
      · simp only
        split
        · rfl
        · split
          · rfl
          · split
            · rfl
            · rename_i hne
              exact ih fuel' _ (i + 1) _ _ _ (by omega) (by omega) (by omega)

/-! ## `read_stat` on a well-formed line -/

theorem strrchr_none_cstr (rest : List Nat) (c : Nat) (hc0 : c ≠ 0) (hc : c ∉ cstr rest) :
    strrchr rest c = none := by
  induction rest with
  | nil => simp [strrchr, hc0]
  | cons b t ih =>
    by_cases hb0 : b = 0
    · simp [strrchr, hb0, hc0]
    · have hcs : cstr (b :: t) = b :: cstr t := by simp [cstr, List.takeWhile_cons, hb0]
      rw [hcs] at hc
      simp only [List.mem_cons, not_or] at hc
      have hb : ¬ b = c := fun h => hc.1 h.symm
      simp [strrchr, hb0, hb, ih hc.2]

theorem strrchr_last_cstr (a rest : List Nat) (c : Nat) (hc0 : c ≠ 0) (ha : 0 ∉ a)
    (hc : c ∉ cstr rest) : strrchr (a ++ c :: rest) c = some a.length := by
  induction a with
  | nil => simp [strrchr, hc0, strrchr_none_cstr rest c hc0 hc]
  | cons b t ih =>
    simp only [List.mem_cons, not_or] at ha
    have hb0 : ¬ b = 0 := fun h => ha.1 h.symm
    simp [strrchr, hb0, ih ha.2]

theorem mem_cstr_append (x : Nat) (A B : List Nat) (h : x ∈ cstr (A ++ B)) :
    x ∈ A ∨ x ∈ cstr B := by
  induction A with
  | nil => exact Or.inr h
  | cons b t ih =>
    by_cases hb0 : b = 0
    · subst hb0
      simp [cstr] at h
    · have hcs : cstr (b :: t ++ B) = b :: cstr (t ++ B) := by
        simp [cstr, List.takeWhile_cons, hb0]
      rw [hcs] at h
      rcases List.mem_cons.mp h with h | h
      · exact Or.inl (by simp [h])
      · rcases ih h with h | h
        · exact Or.inl (by simp [h])
        · exact Or.inr h

theorem dec_no_rparen (n : Nat) : 41 ∉ dec n := fun h => by
  have := dec_isdigit n 41 h
  simp [isdigit] at this

theorem fmt_int_no_rparen (z : Int) : 41 ∉ fmt_int z := by
  unfold fmt_int
  split
  · simp only [List.mem_cons, not_or]
    exact ⟨by decide, dec_no_rparen _⟩
  · exact dec_no_rparen _

theorem fields_text_no_rparen (zs : List Int) : 41 ∉ fields_text zs := by
  induction zs with
  | nil => simp [fields_text]
  | cons z zs ih =>
    simp only [fields_text, List.mem_append, List.mem_cons, not_or]
    exact ⟨fmt_int_no_rparen z, by decide, ih⟩

/-- The body of `read_stat` on memory that holds a well-formed line. -/
theorem read_stat_buf_fields (pre name t : List Nat) (st : Nat) (f4_13 f16_21 : List Int)
    (f14 f15 f22 : Nat)
    (hpre : 40 ∉ pre) (hpre0 : 0 ∉ pre) (hname0 : 0 ∉ name) (hlen : name.length < 2 ^ 64)
    (hst : st ≠ 41)
    (h1 : f4_13.length = 10) (h2 : f16_21.length = 6)
    (h14 : f14 < 2 ^ 64) (h15 : f15 < 2 ^ 64) (h22 : f22 < 2 ^ 64)
    (ht : isdigit (deref t) = false) (ht41 : 41 ∉ cstr t) :
    read_stat_buf (pre ++ 40 :: name ++ [41, 32, st, 32]
        ++ fields_text (f4_13 ++ [(f14 : Int), (f15 : Int)] ++ f16_21) ++ dec f22 ++ t)
      = some { name := name.take 255, state := st, cpu_ticks := (f14 + f15) % 2 ^ 64,
               start_ticks := f22 } := by
  generalize hF : fields_text (f4_13 ++ [(f14 : Int), (f15 : Int)] ++ f16_21) ++ dec f22 ++ t = F
  have hscan : scan_fields 19 F 4 0 0 0 = (f14, f15, f22) := by
    rw [← hF]; exact scan_fields_stat f4_13 f16_21 f14 f15 f22 t h1 h2 h14 h15 h22 ht
  have hbuf : pre ++ 40 :: name ++ [41, 32, st, 32]
      ++ fields_text (f4_13 ++ [(f14 : Int), (f15 : Int)] ++ f16_21) ++ dec f22 ++ t
      = pre ++ 40 :: (name ++ 41 :: 32 :: st :: 32 :: F) := by
    rw [← hF]; simp
  rw [hbuf]
  have hF41 : 41 ∉ cstr (32 :: st :: 32 :: F) := by
    intro h
    have h' : 41 ∈ cstr ([32, st, 32] ++ F) := h
    rcases mem_cstr_append 41 _ _ h' with h | h
    · simp only [List.mem_cons, List.mem_singleton, List.not_mem_nil, or_false] at h
      rcases h with h | h | h
      · exact absurd h (by decide)
      · exact hst h.symm
      · exact absurd h (by decide)
    · rw [← hF, List.append_assoc] at h
      rcases mem_cstr_append 41 _ _ h with h | h
      · exact fields_text_no_rparen _ h
      · rcases mem_cstr_append 41 _ _ h with h | h
        · exact dec_no_rparen _ h
        · exact ht41 h
  have hl : strchr (pre ++ 40 :: (name ++ 41 :: 32 :: st :: 32 :: F)) 40 = some pre.length :=
    strchr_first pre _ 40 hpre hpre0
  have hr : strrchr (pre ++ 40 :: (name ++ 41 :: 32 :: st :: 32 :: F)) 41
      = some (pre.length + 1 + name.length) := by
    have := strrchr_last_cstr (pre ++ 40 :: name) (32 :: st :: 32 :: F) 41 (by decide)
      (by simp only [List.mem_append, List.mem_cons]; rintro (h | h | h)
          · exact hpre0 h
          · exact absurd h (by decide)
          · exact hname0 h) hF41
    have e : pre.length + 1 + name.length = (pre ++ 40 :: name).length := by simp; omega
    rw [e]
    simpa using this
  simp only [read_stat_buf, hl, hr]
  have hlt : ¬ (pre.length + 1 + name.length < pre.length) := by omega
  simp only [hlt, if_false]
  have hnl : ((((pre.length + 1 + name.length : Nat) : Int) - (pre.length : Int) - 1) % 2 ^ 64).toNat
      = name.length := by
    omega
  have hdrop : List.drop (pre.length + 1) (pre ++ 40 :: (name ++ 41 :: 32 :: st :: 32 :: F))
      = name ++ 41 :: 32 :: st :: 32 :: F := by
    simp [List.drop_append_eq_append_drop, List.drop_of_length_le]
  have hdrop2 : List.drop (pre.length + 1 + name.length + 2)
      (pre ++ 40 :: (name ++ 41 :: 32 :: st :: 32 :: F)) = st :: 32 :: F := by
    have e : pre.length + 1 + name.length + 2 = (pre ++ 40 :: name ++ [41, 32]).length := by
      simp; omega
    have e2 : pre ++ 40 :: (name ++ 41 :: 32 :: st :: 32 :: F)
        = (pre ++ 40 :: name ++ [41, 32]) ++ st :: 32 :: F := by simp
    rw [e, e2, List.drop_left]
  simp only [hnl, hdrop, hdrop2, List.drop_succ_cons, List.drop_zero, hscan, deref,
    List.headD_cons]
  congr 2
  split
  · rw [List.take_append_of_le_length (by omega)]
  · rw [List.take_append_of_le_length (by omega),
      List.take_of_length_le (by omega), List.take_of_length_le (by omega)]

/-- C3 (as amended): for a stat line that `fgets` reads completely, of the form
`<pre>(<name>) <state> f4 ... f22<tail>` with a state other than `)`, whose fields
4 to 22 are decimal numbers each followed by one space (fields other than 14, 15
and 22 may carry a minus sign; fields 14, 15 and 22 are values of
`unsigned long`), and whose `tail`, the text after field 22, does not begin with
a digit and has no `)`, `read_stat` returns the state character,
`cpu_ticks = f14 + f15` modulo `2^64` and `start_ticks = f22`; the result does not
mention `tail` nor the former content of the buffer. -/
theorem read_stat_fields_14_15_22 (content stack pre name tail : List Nat) (st : Nat)
    (f4_13 f16_21 : List Int) (f14 f15 f22 : Nat)
    (hread : fgets 1024 content = some (pre ++ 40 :: name ++ [41, 32, st, 32]
        ++ fields_text (f4_13 ++ [(f14 : Int), (f15 : Int)] ++ f16_21) ++ dec f22 ++ tail))
    (hpre : 40 ∉ pre) (hpre0 : 0 ∉ pre) (hname0 : 0 ∉ name) (hst : st ≠ 41)
    (h1 : f4_13.length = 10) (h2 : f16_21.length = 6)
    (h14 : f14 < 2 ^ 64) (h15 : f15 < 2 ^ 64) (h22 : f22 < 2 ^ 64)
    (htail : isdigit (deref tail) = false) (htail41 : 41 ∉ tail) :
    read_stat (some content) stack
      = some { name := name.take 255, state := st, cpu_ticks := (f14 + f15) % 2 ^ 64,
               start_ticks := f22 } := by
  have hlen := fgets_length 1024 content _ hread
  have hnl : name.length < 2 ^ 64 := by
    simp only [List.length_append, List.length_cons] at hlen
    omega
  simp only [read_stat, hread]
  generalize hj : List.drop _ stack = junk
  have ht : isdigit (deref (tail ++ 0 :: junk)) = false := by
    cases tail with
    | nil => rfl
    | cons b t => simpa [deref] using htail
  have ht41 : 41 ∉ cstr (tail ++ 0 :: junk) := by
    intro h
    rcases mem_cstr_append 41 _ _ h with h | h
    · exact htail41 h
    · simp [cstr] at h
  have := read_stat_buf_fields pre name (tail ++ 0 :: junk) st f4_13 f16_21 f14 f15 f22
    hpre hpre0 hname0 hnl hst h1 h2 h14 h15 h22 ht ht41
  simpa only [List.append_assoc] using this

/-- Witness for C3: the line of `demo_stat_line`, with `tpgid = -1` in field 8. -/
theorem read_stat_fields_14_15_22_witness :
    read_stat (some demo_stat_line) (bytes "stale 1 2 3")
      = some { name := (bytes "a (copy) b").take 255, state := 83,
               cpu_ticks := (300 + 200) % 2 ^ 64, start_ticks := 5000 } :=
  read_stat_fields_14_15_22 demo_stat_line (bytes "stale 1 2 3") (bytes "7 ") (bytes "a (copy) b")
    (bytes " 1000 50\n") 83 [1, 7, 7, 0, -1, 4194304, 10, 0, 0, 0] [0, 0, 20, 0, 1, 0] 300 200 5000
    (by decide) (by decide) (by decide) (by decide) (by decide) (by decide) (by decide)
    (by decide) (by decide) (by decide) (by decide) (by decide)

/-- C3 as stated fails.  The first two lines agree up to field 22 and differ in the
text after it: with ` x) y` there, `strrchr` finds the `)` behind field 22, the
name runs up to it, the state is `y` and both tick counts are 0.  In the third and
fourth line field 14 and field 22 are `2^64`: `strtoul` yields `ULONG_MAX`, so
`cpu_ticks` is 199, not 200, and `start_ticks` is `ULONG_MAX`. -/
theorem read_stat_depends_on_text_after_field_22 :
    read_stat (some (bytes "7 (a) S 1 7 7 0 -1 0 0 0 0 0 300 200 0 0 20 0 1 0 5000 0 0\n")) []
      = some { name := bytes "a", state := 83, cpu_ticks := 500, start_ticks := 5000 } ∧
    read_stat (some (bytes "7 (a) S 1 7 7 0 -1 0 0 0 0 0 300 200 0 0 20 0 1 0 5000 x) y\n")) []
      = some { name := bytes "a) S 1 7 7 0 -1 0 0 0 0 0 300 200 0 0 20 0 1 0 5000 x",
               state := 121, cpu_ticks := 0, start_ticks := 0 } ∧
    read_stat (some (bytes
        "7 (a) S 1 7 7 0 -1 0 0 0 0 0 18446744073709551616 200 0 0 20 0 1 0 5000 0 0\n")) []
      = some { name := bytes "a", state := 83, cpu_ticks := 199, start_ticks := 5000 } ∧
    read_stat (some (bytes
        "7 (a) S 1 7 7 0 -1 0 0 0 0 0 300 200 0 0 20 0 1 0 18446744073709551616 0 0\n")) []
      = some { name := bytes "a", state := 83, cpu_ticks := 500,
               start_ticks := 18446744073709551615 } := by
  decide

/-! ## `StrBuf` with succeeding allocation -/

theorem take_set_self (l : List Nat) (n b : Nat) (h : n < l.length) :
    (l.set n b).take (n + 1) = l.take n ++ [b] ∧ (l.set n b).take n = l.take n := by
  have hs : l.set n b = l.take n ++ b :: l.drop (n + 1) := by
    rw [List.set_eq_take_append_cons_drop]; simp [h]
  have hl : (l.take n).length = n := by simp; omega
  constructor
  · rw [hs]
    have : l.take n ++ b :: l.drop (n + 1) = (l.take n ++ [b]) ++ l.drop (n + 1) := by simp
    rw [this, List.take_left' (by simp [hl])]
  · rw [hs, List.take_left' hl]

theorem StrBuf.push_room (sb : StrBuf) (b k : Nat) (h : sb.room (k + 1)) :
    (sb.push b).room k ∧ (sb.push b).content = sb.content ++ [b] ∧
      (sb.push b).len = sb.len + 1 ∧ (sb.push b).cap = sb.cap := by
  obtain ⟨h1, h2, h3⟩ := h
  have hlt : sb.len < sb.data.length := by omega
  have e : sb.push b = { sb with data := sb.data.set sb.len b, len := sb.len + 1 } := by
    simp [StrBuf.push, StrBuf.store, hlt]
  rw [e]
  refine ⟨⟨?_, ?_, h3⟩, (take_set_self sb.data sb.len b hlt).1, rfl, rfl⟩
  · simpa using h1
  · show sb.len + 1 + k + 1 ≤ sb.cap
    omega

theorem sb_ensure_room (alloc : Nat → Option Nat) (sb : StrBuf) (extra k : Nat)
    (hok : ∀ n, alloc n ≠ none) (h : sb.room k) :
    (sb_ensure alloc sb extra).room extra ∧ (sb_ensure alloc sb extra).content = sb.content ∧
      (sb_ensure alloc sb extra).len = sb.len := by
  obtain ⟨h1, h2, h3⟩ := h
  unfold sb_ensure
  by_cases hfit : sb.len + extra + 1 ≤ sb.cap
  · rw [if_pos hfit]
    exact ⟨⟨h1, hfit, h3⟩, rfl, rfl⟩
  · cases ha : alloc (sb.cap * 2 + extra + 1) with
    | none => exact absurd ha (hok _)
    | some fill =>
      rw [if_neg hfit]
      simp only [ha, StrBuf.room, StrBuf.content]
      have ht : sb.data.take (sb.cap * 2 + extra + 1) = sb.data :=
        List.take_of_length_le (by omega)
      refine ⟨⟨?_, by omega, h3⟩, ?_, trivial⟩
      · simp [ht]; omega
      · rw [ht, List.take_append_of_le_length (by omega)]

theorem sb_escape_loop_room (alloc : Nat → Option Nat) (s : List Nat) (sb : StrBuf)
    (hok : ∀ n, alloc n ≠ none) (h : sb.room 0) :
    (sb_escape_loop alloc sb s).room 0 ∧
      (sb_escape_loop alloc sb s).content = sb.content ++ escape_bytes s := by
  induction s generalizing sb with
  | nil => simpa [sb_escape_loop, escape_bytes] using h
  | cons c t ih =>
    unfold sb_escape_loop escape_bytes
    split
    · simpa using h
    · split
      · obtain ⟨r1, c1, _⟩ := sb_ensure_room alloc sb 2 0 hok h
        obtain ⟨r2, c2, _⟩ := StrBuf.push_room _ 92 1 r1
        obtain ⟨r3, c3, _⟩ := StrBuf.push_room _ c 0 r2
        obtain ⟨r4, c4⟩ := ih _ r3
        exact ⟨r4, by rw [c4, c3, c2, c1]; simp⟩
      · split
        · obtain ⟨r1, c1, _⟩ := sb_ensure_room alloc sb 2 0 hok h
          obtain ⟨r2, c2, _⟩ := StrBuf.push_room _ 92 1 r1
          obtain ⟨r3, c3, _⟩ := StrBuf.push_room _ 110 0 r2
          obtain ⟨r4, c4⟩ := ih _ r3
          exact ⟨r4, by rw [c4, c3, c2, c1]; simp⟩
        · obtain ⟨r1, c1, _⟩ := sb_ensure_room alloc sb 1 0 hok h
          obtain ⟨r2, c2, _⟩ := StrBuf.push_room _ c 0 r1
          obtain ⟨r4, c4⟩ := ih _ r2
          exact ⟨r4, by rw [c4, c2, c1]; simp⟩

theorem StrBuf.store_terminator (sb : StrBuf) (h : sb.room 0) :
    (sb.store sb.len 0).room 0 ∧ (sb.store sb.len 0).content = sb.content ∧
      (sb.store sb.len 0).len = sb.len ∧ (sb.store sb.len 0).data[sb.len]? = some 0 := by
  obtain ⟨h1, h2, h3⟩ := h
  have hlt : sb.len < sb.data.length := by omega
  have e : sb.store sb.len 0 = { sb with data := sb.data.set sb.len 0 } := by
    simp [StrBuf.store, hlt]
  rw [e]
  refine ⟨⟨?_, h2, h3⟩, (take_set_self sb.data sb.len 0 hlt).2, rfl, ?_⟩
  · simpa using h1
  · simp [hlt]

theorem sb_append_escaped_room (alloc : Nat → Option Nat) (s : List Nat) (sb : StrBuf)
    (hok : ∀ n, alloc n ≠ none) (h : sb.room 0) :
    (sb_append_escaped alloc sb s).room 0 ∧
      (sb_append_escaped alloc sb s).content = sb.content ++ escape_bytes s ∧
      (sb_append_escaped alloc sb s).len = sb.len + (escape_bytes s).length := by
  obtain ⟨r1, c1⟩ := sb_escape_loop_room alloc s sb hok h
  obtain ⟨r2, c2, l2, _⟩ := StrBuf.store_terminator _ r1
  unfold sb_append_escaped
  refine ⟨r2, by rw [c2, c1], ?_⟩
  have hlen := congrArg List.length c1
  have hA : (sb_escape_loop alloc sb s).len ≤ (sb_escape_loop alloc sb s).data.length := by
    have := r1.1; have := r1.2.1; omega
  have hB : sb.len ≤ sb.data.length := by
    have := h.1; have := h.2.1; omega
  simp only [StrBuf.content, List.length_append, List.length_take, Nat.min_eq_left hA,
    Nat.min_eq_left hB] at hlen
  rw [l2, hlen]

theorem unescape_escape_bytes (s : List Nat) (hs : 0 ∉ s) : unescape (escape_bytes s) = s := by
  induction s with
  | nil => rfl
  | cons c t ih =>
    simp only [List.mem_cons, not_or] at hs
    have hc0 : ¬ c = 0 := fun h => hs.1 h.symm
    have iht := ih hs.2
    unfold escape_bytes
    simp only [hc0, if_false]
    split
    · rename_i hq
      rcases hq with hq | hq
      · subst hq; simp [unescape, iht]
      · subst hq; simp [unescape, iht]
    · rename_i hq
      simp only [not_or] at hq
      split
      · rename_i h10
        subst h10; simp [unescape, iht]
      · cases hE : escape_bytes t with
        | nil =>
          rw [hE] at iht
          simp [unescape] at iht ⊢
          exact iht
        | cons e E =>
          rw [hE] at iht
          simp only [unescape, hq.2, false_and, if_false]
          rw [iht]

/-- C4: from a consistent buffer and with succeeding allocation, the bytes
`sb_append_escaped` appends for a NUL-free string `s` (those from the old `len` to
the new `len`, the earlier bytes staying as they were) give back `s` when they are
read by the documented rules. -/
theorem sb_append_escaped_unescape (alloc : Nat → Option Nat) (sb : StrBuf) (s : List Nat)
    (hroom : sb.room 0) (hok : ∀ n, alloc n ≠ none) (hs : 0 ∉ s) :
    ((sb_append_escaped alloc sb s).content).take sb.len = sb.content ∧
    unescape (((sb_append_escaped alloc sb s).content).drop sb.len) = s := by
  obtain ⟨_, c, _⟩ := sb_append_escaped_room alloc s sb hok hroom
  have hl : sb.content.length = sb.len := by
    have := hroom.1; have := hroom.2.1
    simp [StrBuf.content]; omega
  rw [c]
  exact ⟨List.take_left' hl, by rw [List.drop_left' hl]; exact unescape_escape_bytes s hs⟩

/-- Witness for C4: a name with a quote, a backslash and a newline, appended to a
fresh buffer of 4 bytes. -/
theorem sb_append_escaped_unescape_witness :
    ((sb_append_escaped (fun _ => some 0) (sb_init (fun _ => some 0) 4)
        (bytes "a\"b\\c\nd")).content).take 0 = [] ∧
    unescape (((sb_append_escaped (fun _ => some 0) (sb_init (fun _ => some 0) 4)
        (bytes "a\"b\\c\nd")).content).drop 0) = bytes "a\"b\\c\nd" :=
  sb_append_escaped_unescape (fun _ => some 0) (sb_init (fun _ => some 0) 4)
    (bytes "a\"b\\c\nd") ⟨by decide, by decide, by decide⟩ (by intro n; simp) (by decide)

/-! ## Sorting by pid -/

theorem compare_pid_le_iff (a b : ProcessInfo) (ha : 0 ≤ a.pid ∧ a.pid < 2 ^ 31)
    (hb : 0 ≤ b.pid ∧ b.pid < 2 ^ 31) : compare_pid a b ≤ 0 ↔ a.pid ≤ b.pid := by
  unfold compare_pid to_int32
  omega

theorem qsort_insert_perm (cmp : ProcessInfo → ProcessInfo → Int) (x : ProcessInfo)
    (l : List ProcessInfo) : (qsort_insert cmp x l).Perm (x :: l) := by
  induction l with
  | nil => exact List.Perm.refl _
  | cons y ys ih =>
    unfold qsort_insert
    split
    · exact List.Perm.refl _
    · exact (List.Perm.cons y ih).trans (List.Perm.swap x y ys)

theorem qsort_perm (cmp : ProcessInfo → ProcessInfo → Int) (l : List ProcessInfo) :
    (qsort cmp l).Perm l := by
  induction l with
  | nil => exact List.Perm.refl _
  | cons x xs ih =>
    unfold qsort
    exact (qsort_insert_perm cmp x _).trans (List.Perm.cons x ih)

theorem qsort_insert_sorted (x : ProcessInfo) (l : List ProcessInfo)
    (hx : 0 ≤ x.pid ∧ x.pid < 2 ^ 31) (hl : ∀ p ∈ l, 0 ≤ p.pid ∧ p.pid < 2 ^ 31)
    (hne : ∀ p ∈ l, x.pid ≠ p.pid) (hs : l.Pairwise (fun a b => a.pid < b.pid)) :
    (qsort_insert compare_pid x l).Pairwise (fun a b => a.pid < b.pid) := by
  induction l with
  | nil => simp [qsort_insert]
  | cons y ys ih =>
    have hy := hl y (by simp)
    have hxy := hne y (by simp)
    rw [List.pairwise_cons] at hs
    unfold qsort_insert
    split
    · rename_i hc
      have hle := (compare_pid_le_iff x y hx hy).mp hc
      have hlt : x.pid < y.pid := lt_of_le_of_ne hle hxy
      refine List.Pairwise.cons ?_ (List.Pairwise.cons hs.1 hs.2)
      intro p hp
      rcases List.mem_cons.mp hp with hp | hp
      · subst hp; exact hlt
      · exact lt_trans hlt (hs.1 p hp)
    · rename_i hc
      have hgt : y.pid < x.pid := by
        have := (compare_pid_le_iff x y hx hy).not.mp hc
        omega
      refine List.Pairwise.cons ?_
        (ih (fun p hp => hl p (by simp [hp])) (fun p hp => hne p (by simp [hp])) hs.2)
      intro p hp
      have := (qsort_insert_perm compare_pid x ys).mem_iff.mp hp
      rcases List.mem_cons.mp this with hp | hp
      · subst hp; exact hgt
      · exact hs.1 p hp

theorem qsort_sorted (l : List ProcessInfo) (hl : ∀ p ∈ l, 0 ≤ p.pid ∧ p.pid < 2 ^ 31)
    (hd : l.Pairwise (fun a b => a.pid ≠ b.pid)) :
    (qsort compare_pid l).Pairwise (fun a b => a.pid < b.pid) := by
  induction l with
  | nil => simp [qsort]
  | cons x xs ih =>
    rw [List.pairwise_cons] at hd
    unfold qsort
    have hperm := qsort_perm compare_pid xs
    exact qsort_insert_sorted x _ (hl x (by simp))
      (fun p hp => hl p (by simp [hperm.mem_iff.mp hp]))
      (fun p hp => hd.1 p (hperm.mem_iff.mp hp))
      (ih (fun p hp => hl p (by simp [hp])) hd.2)

/-! ## `sb_appendf` with succeeding allocation -/

theorem sb_memcpy_data (src : List Nat) (sb : StrBuf) (i : Nat) (hoob : sb.oob = [])
    (hfit : i + src.length ≤ sb.data.length) :
    (sb_memcpy sb i src).data = sb.data.take i ++ src ++ sb.data.drop (i + src.length) ∧
      (sb_memcpy sb i src).len = sb.len ∧ (sb_memcpy sb i src).cap = sb.cap ∧
      (sb_memcpy sb i src).oob = [] := by
  induction src generalizing sb i with
  | nil => simp [sb_memcpy, hoob]
  | cons b t ih =>
    simp only [List.length_cons] at hfit
    have hlt : i < sb.data.length := by omega
    have e : sb.store i b = { sb with data := sb.data.set i b } := by
      simp [StrBuf.store, hlt]
    unfold sb_memcpy
    rw [e]
    obtain ⟨d, l, c, o⟩ := ih { sb with data := sb.data.set i b } (i + 1) hoob
      (by simp; omega)
    refine ⟨?_, l, c, o⟩
    rw [d]
    simp only [(take_set_self sb.data i b hlt).1, List.length_cons]
    have hd : List.drop (i + 1 + t.length) (sb.data.set i b) = List.drop (i + 1 + t.length) sb.data := by
      apply List.ext_getElem?
      intro k
      simp only [List.getElem?_drop]
      rw [List.getElem?_set_ne (by omega)]
    rw [hd]
    have : i + (t.length + 1) = i + 1 + t.length := by omega
    rw [this]
    simp

theorem tmp_image (text : List Nat) (h : text.length ≤ 1023) :
    (List.range text.length).map (fun i => (text.take 1023).getD i 0) = text := by
  rw [List.take_of_length_le h]
  apply List.ext_getElem
  · simp
  · intro k h1 h2
    simp [List.getD_eq_getElem?_getD, List.getElem?_eq_getElem h2]

theorem sb_appendf_room (alloc : Nat → Option Nat) (sb : StrBuf) (text : List Nat)
    (hok : ∀ n, alloc n ≠ none) (h : sb.room 0) (ht : text.length ≤ 1023) :
    (sb_appendf alloc sb text).room 0 ∧ (sb_appendf alloc sb text).content = sb.content ++ text := by
  unfold sb_appendf
  by_cases he : text.length = 0
  · have : text = [] := List.length_eq_zero.mp he
    subst this
    simpa using h
  · simp only [he, if_false, tmp_image text ht]
    obtain ⟨⟨r1, r2, r3⟩, c1, l1⟩ := sb_ensure_room alloc sb text.length 0 hok h
    generalize sb_ensure alloc sb text.length = sb1 at r1 r2 r3 c1 l1 ⊢
    obtain ⟨d, l, c, o⟩ := sb_memcpy_data text sb1 sb1.len r3 (by omega)
    generalize sb_memcpy sb1 sb1.len text = sb2 at d l c o ⊢
    have hlen2 : sb2.data.length = sb1.data.length := by
      rw [d]
      simp only [List.length_append, List.length_take, List.length_drop]
      omega
    have hlt : sb2.len + text.length < sb2.data.length := by omega
    have e : StrBuf.store { sb2 with len := sb2.len + text.length } (sb2.len + text.length) 0
        = { sb2 with data := sb2.data.set (sb2.len + text.length) 0,
                     len := sb2.len + text.length } := by
      simp [StrBuf.store, hlt]
    rw [e]
    refine ⟨⟨?_, ?_, o⟩, ?_⟩
    · simp only [List.length_set]; omega
    · show sb2.len + text.length + 0 + 1 ≤ sb2.cap
      omega
    · show (sb2.data.set (sb2.len + text.length) 0).take (sb2.len + text.length) = sb.content ++ text
      rw [(take_set_self sb2.data _ 0 hlt).2, d, l, ← c1]
      have hl : (List.take sb1.len sb1.data ++ text).length = sb1.len + text.length := by
        simp only [List.length_append, List.length_take]; omega
      rw [List.take_left' hl]
      rfl

/-! ## The payload of `build_process_json` -/

theorem dec_digits_length (fuel n k : Nat) (hk : 1 ≤ k) (hn : n < 10 ^ k) :
    (dec_digits fuel n).length ≤ k := by
  induction fuel generalizing n k with
  | zero => simp [dec_digits]
  | succ fuel ih =>
    unfold dec_digits
    split
    · simpa using hk
    · rename_i h10
      have hk2 : 2 ≤ k := by
        by_contra hlt
        have : k = 1 := by omega
        subst this
        omega
      have hdiv : n / 10 < 10 ^ (k - 1) := by
        have e : 10 ^ k = 10 ^ (k - 1) * 10 := by
          rw [← Nat.pow_succ]; congr 1; omega
        rw [e] at hn
        exact Nat.div_lt_of_lt_mul (by omega)
      have := ih (n / 10) (k - 1) (by omega) hdiv
      simp only [List.length_append, List.length_singleton]
      omega

theorem fmt_int_length (z : Int) (k : Nat) (hk : 1 ≤ k) (hz : z.natAbs < 10 ^ k) :
    (fmt_int z).length ≤ k + 1 := by
  have := dec_digits_length (z.natAbs + 1) z.natAbs k hk hz
  unfold fmt_int dec
  split
  · simp only [List.length_cons]; omega
  · omega

theorem process_head_text_length (p : ProcessInfo) (hp : -(2 ^ 31) ≤ p.pid ∧ p.pid < 2 ^ 31) :
    (process_head_text p).length ≤ 1023 := by
  have := fmt_int_length p.pid 10 (by decide) (by omega)
  have h1 : (bytes "\x7b\"pid\":").length = 7 := by decide
  have h2 : (bytes ",\"name\":\"").length = 9 := by decide
  simp only [process_head_text, List.length_append, h1, h2]
  omega

theorem process_tail_text_length (fmt_double : Dbl → List Nat) (p : ProcessInfo)
    (hfmt : ∀ q, (fmt_double q).length ≤ 400)
    (h1 : LONG_MIN ≤ p.vmsize_kb ∧ p.vmsize_kb ≤ LONG_MAX)
    (h2 : LONG_MIN ≤ p.vmrss_kb ∧ p.vmrss_kb ≤ LONG_MAX) :
    (process_tail_text fmt_double p).length ≤ 1023 := by
  unfold LONG_MIN LONG_MAX at h1 h2
  have a1 := fmt_int_length p.vmsize_kb 19 (by decide) (by omega)
  have a2 := fmt_int_length p.vmrss_kb 19 (by decide) (by omega)
  have a3 := hfmt p.cpu_percent
  have a4 := hfmt p.mem_percent
  have b1 : (bytes "\",\"state\":\"").length = 11 := by decide
  have b2 : (bytes "\",\"vmsize_kb\":").length = 14 := by decide
  have b3 : (bytes ",\"vmrss_kb\":").length = 12 := by decide
  have b4 : (bytes ",\"cpu_percent\":").length = 15 := by decide
  have b5 : (bytes ",\"mem_percent\":").length = 15 := by decide
  have b6 : (bytes "\x7d").length = 1 := by decide
  simp only [process_tail_text, List.length_append, List.length_singleton, b1, b2, b3, b4, b5, b6]
  omega

theorem append_process_room (alloc : Nat → Option Nat) (fmt_double : Dbl → List Nat)
    (sb : StrBuf) (first : Bool) (p : ProcessInfo)
    (hok : ∀ n, alloc n ≠ none) (h : sb.room 0)
    (hhead : (process_head_text p).length ≤ 1023)
    (htail : (process_tail_text fmt_double p).length ≤ 1023) :
    (append_process alloc fmt_double sb first p).room 0 ∧
      (append_process alloc fmt_double sb first p).content
        = sb.content ++ ((if first then [] else bytes ",") ++ object_text fmt_double p) := by
  unfold append_process
  have s1 : (if first = true then sb else sb_appendf alloc sb (bytes ",")).room 0 ∧
      (if first = true then sb else sb_appendf alloc sb (bytes ",")).content
        = sb.content ++ (if first = true then [] else bytes ",") := by
    cases first with
    | true => simpa using h
    | false => simpa using sb_appendf_room alloc sb (bytes ",") hok h (by decide)
  obtain ⟨r1, c1⟩ := s1
  obtain ⟨r2, c2⟩ := sb_appendf_room alloc _ (process_head_text p) hok r1 hhead
  obtain ⟨r3, c3, _⟩ := sb_append_escaped_room alloc p.name _ hok r2
  obtain ⟨r4, c4⟩ := sb_appendf_room alloc _ (bytes "\",\"user\":\"") hok r3 (by decide)
  obtain ⟨r5, c5, _⟩ := sb_append_escaped_room alloc p.user _ hok r4
  obtain ⟨r6, c6⟩ := sb_appendf_room alloc _ (process_tail_text fmt_double p) hok r5 htail
  refine ⟨r6, ?_⟩
  rw [c6, c5, c4, c3, c2, c1]
  simp [object_text]

theorem append_processes_room (alloc : Nat → Option Nat) (fmt_double : Dbl → List Nat)
    (ps : List ProcessInfo) (sb : StrBuf) (first : Bool)
    (hok : ∀ n, alloc n ≠ none) (h : sb.room 0)
    (hhead : ∀ p ∈ ps, (process_head_text p).length ≤ 1023)
    (htail : ∀ p ∈ ps, (process_tail_text fmt_double p).length ≤ 1023) :
    (append_processes alloc fmt_double sb first ps).room 0 ∧
      (append_processes alloc fmt_double sb first ps).content
        = sb.content ++ objects_text fmt_double first ps := by
  induction ps generalizing sb first with
  | nil => simpa [append_processes, objects_text] using h
  | cons p ps ih =>
    obtain ⟨r1, c1⟩ := append_process_room alloc fmt_double sb first p hok h
      (hhead p (by simp)) (htail p (by simp))
    obtain ⟨r2, c2⟩ := ih _ false r1 (fun q hq => hhead q (by simp [hq]))
      (fun q hq => htail q (by simp [hq]))
    simp only [append_processes]
    refine ⟨r2, ?_⟩
    rw [c2, c1, objects_text]
    simp only [List.append_assoc]

theorem sb_init_room (alloc : Nat → Option Nat) (cap : Nat) (hok : ∀ n, alloc n ≠ none)
    (hcap : 1 ≤ cap) : (sb_init alloc cap).room 0 ∧ (sb_init alloc cap).content = [] := by
  unfold sb_init
  cases ha : alloc cap with
  | none => exact absurd ha (hok _)
  | some fill =>
    have hlt : 0 < (List.replicate cap fill).length := by simp; omega
    simp only [StrBuf.store, hlt, if_true, StrBuf.room, StrBuf.content]
    simp
    omega

theorem intercalate_cons (sep x : List Nat) (xs : List (List Nat)) :
    List.intercalate sep (x :: xs) = x ++ (xs.map (fun t => sep ++ t)).flatten := by
  induction xs generalizing x with
  | nil => simp [List.intercalate]
  | cons y ys ih =>
    have h := ih y
    simp only [List.intercalate, List.intersperse_cons₂, List.flatten_cons, List.map_cons] at h ⊢
    rw [h]
    simp

theorem object_text_eq (fmt_double : Dbl → List Nat) (p : ProcessInfo) :
    object_text fmt_double p = json_object fmt_double p := by
  simp [object_text, json_object, process_head_text, process_tail_text]

theorem objects_text_rest (fmt_double : Dbl → List Nat) (ps : List ProcessInfo) :
    objects_text fmt_double false ps
      = ((ps.map (json_object fmt_double)).map (fun t => bytes "," ++ t)).flatten := by
  induction ps with
  | nil => rfl
  | cons p ps ih =>
    simp only [objects_text, ih, object_text_eq, List.map_cons, List.flatten_cons]
    simp

theorem objects_text_eq (fmt_double : Dbl → List Nat) (ps : List ProcessInfo) :
    objects_text fmt_double true ps
      = List.intercalate (bytes ",") (ps.map (json_object fmt_double)) := by
  cases ps with
  | nil => rfl
  | cons p ps =>
    rw [List.map_cons, intercalate_cons]
    simp only [objects_text, objects_text_rest, object_text_eq]
    simp

/-- With allocation succeeding the payload of `build_process_json` is the text
`json_payload` of the sorted list. -/
theorem build_process_json_content (alloc : Nat → Option Nat) (fmt_double : Dbl → List Nat)
    (current_user : List Nat) (list0 : List ProcessInfo)
    (hpid : ∀ p ∈ list0, -(2 ^ 31) ≤ p.pid ∧ p.pid < 2 ^ 31)
    (hok : ∀ n, alloc n ≠ none)
    (hvm : ∀ p ∈ list0, (LONG_MIN ≤ p.vmsize_kb ∧ p.vmsize_kb ≤ LONG_MAX) ∧
      (LONG_MIN ≤ p.vmrss_kb ∧ p.vmrss_kb ≤ LONG_MAX))
    (hcount : list0.length < 2 ^ 64)
    (hfmt : ∀ q, (fmt_double q).length ≤ 400) :
    ∃ sb, build_process_json alloc fmt_double current_user (some list0) = some sb ∧
      sb.content = json_payload fmt_double current_user (qsort compare_pid list0) := by
  have hperm := qsort_perm compare_pid list0
  refine ⟨_, rfl, ?_⟩
  obtain ⟨r0, c0⟩ := sb_init_room alloc 8192 hok (by decide)
  obtain ⟨r1, c1⟩ := sb_appendf_room alloc _ (bytes "\x7b\"current_user\":\"") hok r0 (by decide)
  obtain ⟨r2, c2, _⟩ := sb_append_escaped_room alloc current_user _ hok r1
  have hlen : (bytes "\",\"count\":" ++ dec (qsort compare_pid list0).length
      ++ bytes ",\"processes\":[").length ≤ 1023 := by
    have := dec_digits_length ((qsort compare_pid list0).length + 1)
      (qsort compare_pid list0).length 20 (by decide) (by rw [hperm.length_eq]; omega)
    have b1 : (bytes "\",\"count\":").length = 10 := by decide
    have b2 : (bytes ",\"processes\":[").length = 14 := by decide
    simp only [List.length_append, b1, b2]
    unfold dec
    omega
  obtain ⟨r3, c3⟩ := sb_appendf_room alloc _ _ hok r2 hlen
  obtain ⟨r4, c4⟩ := append_processes_room alloc fmt_double (qsort compare_pid list0) _ true
    hok r3
    (fun p hp => process_head_text_length p (hpid p (hperm.mem_iff.mp hp)))
    (fun p hp => process_tail_text_length fmt_double p hfmt
      (hvm p (hperm.mem_iff.mp hp)).1 (hvm p (hperm.mem_iff.mp hp)).2)
  obtain ⟨_, c5⟩ := sb_appendf_room alloc _ (bytes "]\x7d") hok r4 (by decide)
  rw [c5, c4, c3, c2, c1, c0, objects_text_eq, json_payload]
  simp

set_option maxRecDepth 100000 in
set_option exponentiation.threshold 2000 in
theorem demo_wrap_collect (ps_result : Option (List ProcessInfo)) :
    collect_processes demo_env (some [demo_entry_wrap, demo_entry_one]) true ps_result
      = some demo_records_wrap := by
  have h : collect_processes_proc demo_env (some [demo_entry_wrap, demo_entry_one]) true
      = some demo_records_wrap := by decide
  simp [collect_processes, h]

set_option maxRecDepth 100000 in
theorem demo_wrap_payload :
    json_payload (fun _ => bytes "0.00") (bytes "root") (qsort compare_pid demo_records_wrap)
      = bytes ("\x7b\"current_user\":\"root\",\"count\":2,\"processes\":["
          ++ "\x7b\"pid\":1,\"name\":\"init\",\"user\":\"0\",\"state\":\"S\","
          ++ "\"vmsize_kb\":0,\"vmrss_kb\":0,\"cpu_percent\":0.00,\"mem_percent\":0.00\x7d,"
          ++ "\x7b\"pid\":-2147483648,\"name\":\"big\",\"user\":\"0\",\"state\":\"S\","
          ++ "\"vmsize_kb\":0,\"vmrss_kb\":0,\"cpu_percent\":0.00,\"mem_percent\":0.00\x7d]\x7d") := by
  decide

/-- C5 as stated fails: for a `/proc` listing with the entries `2147483648` and
`1`, `atoi` yields the pids `INT_MIN` and 1, which are distinct; the subtraction
of `compare_pid` wraps to `INT_MAX` for this pair, `qsort` leaves pid 1 in front
of pid `INT_MIN`, and the payload lists the objects in this order, which is not
ascending. -/
theorem build_process_json_order_wraps :
    collect_processes demo_env (some [demo_entry_wrap, demo_entry_one]) true none
      = some demo_records_wrap ∧
    demo_records_wrap.map (fun p => p.pid) = [-2147483648, 1] ∧
    compare_pid (demo_records_wrap.getD 0 (record_with_pid 0))
      (demo_records_wrap.getD 1 (record_with_pid 0)) = 2147483647 ∧
    (qsort compare_pid demo_records_wrap).map (fun p => p.pid) = [1, -2147483648] ∧
    ∃ sb, build_process_json (fun _ => some 0) (fun _ => bytes "0.00") (bytes "root")
        (some demo_records_wrap) = some sb ∧
      sb.content
        = bytes ("\x7b\"current_user\":\"root\",\"count\":2,\"processes\":["
          ++ "\x7b\"pid\":1,\"name\":\"init\",\"user\":\"0\",\"state\":\"S\","
          ++ "\"vmsize_kb\":0,\"vmrss_kb\":0,\"cpu_percent\":0.00,\"mem_percent\":0.00\x7d,"
          ++ "\x7b\"pid\":-2147483648,\"name\":\"big\",\"user\":\"0\",\"state\":\"S\","
          ++ "\"vmsize_kb\":0,\"vmrss_kb\":0,\"cpu_percent\":0.00,\"mem_percent\":0.00\x7d]\x7d") := by
  refine ⟨demo_wrap_collect none, by decide, by decide, by decide, ?_⟩
  obtain ⟨sb, h1, h2⟩ := build_process_json_content (fun _ => some 0) (fun _ => bytes "0.00")
    (bytes "root") demo_records_wrap (by decide) (by intro n; simp) (by decide) (by decide)
    (fun _ => (by decide : (bytes "0.00").length ≤ 400))
  exact ⟨sb, h1, by rw [h2, demo_wrap_payload]⟩

/-- C5 (as amended): for records with pairwise distinct pids that are non-negative
`int`s, `qsort` with `compare_pid` yields a permutation in strictly ascending pid
order, and (with allocation succeeding, sizes in the range of `long`, a count in
the range of `size_t` and `%.2f` output of at most 400 bytes) the payload of
`build_process_json` is the header, the process objects of exactly this sequence
in this order, separated by commas, and the closing brackets. -/
theorem build_process_json_sorted_by_pid (alloc : Nat → Option Nat) (fmt_double : Dbl → List Nat)
    (current_user : List Nat) (list0 : List ProcessInfo)
    (hd : list0.Pairwise (fun a b => a.pid ≠ b.pid))
    (hpid : ∀ p ∈ list0, 0 ≤ p.pid ∧ p.pid < 2 ^ 31)
    (hok : ∀ n, alloc n ≠ none)
    (hvm : ∀ p ∈ list0, (LONG_MIN ≤ p.vmsize_kb ∧ p.vmsize_kb ≤ LONG_MAX) ∧
      (LONG_MIN ≤ p.vmrss_kb ∧ p.vmrss_kb ≤ LONG_MAX))
    (hcount : list0.length < 2 ^ 64)
    (hfmt : ∀ q, (fmt_double q).length ≤ 400) :
    (qsort compare_pid list0).Perm list0 ∧
    (qsort compare_pid list0).Pairwise (fun a b => a.pid < b.pid) ∧
    ∃ sb, build_process_json alloc fmt_double current_user (some list0) = some sb ∧
      sb.content
        = bytes "\x7b\"current_user\":\"" ++ escape_bytes current_user
          ++ bytes "\",\"count\":" ++ dec list0.length ++ bytes ",\"processes\":["
          ++ List.intercalate (bytes ",") ((qsort compare_pid list0).map (fun p =>
              bytes "\x7b\"pid\":" ++ fmt_int p.pid
                ++ bytes ",\"name\":\"" ++ escape_bytes p.name
                ++ bytes "\",\"user\":\"" ++ escape_bytes p.user
                ++ bytes "\",\"state\":\"" ++ [p.state]
                ++ bytes "\",\"vmsize_kb\":" ++ fmt_int p.vmsize_kb
                ++ bytes ",\"vmrss_kb\":" ++ fmt_int p.vmrss_kb
                ++ bytes ",\"cpu_percent\":" ++ fmt_double p.cpu_percent
                ++ bytes ",\"mem_percent\":" ++ fmt_double p.mem_percent ++ bytes "\x7d"))
          ++ bytes "]\x7d" := by
  have hperm := qsort_perm compare_pid list0
  refine ⟨hperm, qsort_sorted list0 hpid hd, ?_⟩
  obtain ⟨sb, h1, h2⟩ := build_process_json_content alloc fmt_double current_user list0
    (fun p hp => ⟨by have := (hpid p hp).1; omega, (hpid p hp).2⟩) hok hvm hcount hfmt
  refine ⟨sb, h1, ?_⟩
  rw [h2, json_payload, hperm.length_eq]
  rfl

set_option maxRecDepth 100000 in
theorem demo_payload :
    json_payload (fun _ => bytes "0.00") (bytes "root") (qsort compare_pid demo_records)
      = bytes ("\x7b\"current_user\":\"root\",\"count\":4,\"processes\":["
          ++ "\x7b\"pid\":3,\"name\":\"sh\",\"user\":\"root\",\"state\":\"S\","
          ++ "\"vmsize_kb\":2000,\"vmrss_kb\":800,\"cpu_percent\":0.00,\"mem_percent\":0.00\x7d,"
          ++ "\x7b\"pid\":7,\"name\":\"sh\",\"user\":\"root\",\"state\":\"S\","
          ++ "\"vmsize_kb\":2000,\"vmrss_kb\":800,\"cpu_percent\":0.00,\"mem_percent\":0.00\x7d,"
          ++ "\x7b\"pid\":42,\"name\":\"sh\",\"user\":\"root\",\"state\":\"S\","
          ++ "\"vmsize_kb\":2000,\"vmrss_kb\":800,\"cpu_percent\":0.00,\"mem_percent\":0.00\x7d,"
          ++ "\x7b\"pid\":1000,\"name\":\"sh\",\"user\":\"root\",\"state\":\"S\","
          ++ "\"vmsize_kb\":2000,\"vmrss_kb\":800,\"cpu_percent\":0.00,\"mem_percent\":0.00\x7d]\x7d") := by
  decide

/-- Witness for C5: the pids 42, 7, 1000, 3 are emitted in the order 3, 7, 42, 1000. -/
theorem build_process_json_sorted_by_pid_witness :
    (qsort compare_pid demo_records).map (fun p => p.pid) = [3, 7, 42, 1000] ∧
    (qsort compare_pid demo_records).Pairwise (fun a b => a.pid < b.pid) ∧
    ∃ sb, build_process_json (fun _ => some 0) (fun _ => bytes "0.00") (bytes "root")
        (some demo_records) = some sb ∧
      sb.content
        = bytes ("\x7b\"current_user\":\"root\",\"count\":4,\"processes\":["
          ++ "\x7b\"pid\":3,\"name\":\"sh\",\"user\":\"root\",\"state\":\"S\","
          ++ "\"vmsize_kb\":2000,\"vmrss_kb\":800,\"cpu_percent\":0.00,\"mem_percent\":0.00\x7d,"
          ++ "\x7b\"pid\":7,\"name\":\"sh\",\"user\":\"root\",\"state\":\"S\","
          ++ "\"vmsize_kb\":2000,\"vmrss_kb\":800,\"cpu_percent\":0.00,\"mem_percent\":0.00\x7d,"
          ++ "\x7b\"pid\":42,\"name\":\"sh\",\"user\":\"root\",\"state\":\"S\","
          ++ "\"vmsize_kb\":2000,\"vmrss_kb\":800,\"cpu_percent\":0.00,\"mem_percent\":0.00\x7d,"
          ++ "\x7b\"pid\":1000,\"name\":\"sh\",\"user\":\"root\",\"state\":\"S\","
          ++ "\"vmsize_kb\":2000,\"vmrss_kb\":800,\"cpu_percent\":0.00,\"mem_percent\":0.00\x7d]\x7d") := by
  have h := build_process_json_sorted_by_pid (fun _ => some 0) (fun _ => bytes "0.00")
    (bytes "root") demo_records (by decide) (by decide) (by intro n; simp) (by decide)
    (by decide) (fun _ => (by decide : (bytes "0.00").length ≤ 400))
  refine ⟨by decide, h.2.1, ?_⟩
  obtain ⟨sb, h1, h2⟩ := h.2.2
  refine ⟨sb, h1, ?_⟩
  rw [h2, ← demo_payload, json_payload, (qsort_perm compare_pid demo_records).length_eq]
  rfl

/-! ## The percentages of a record -/

theorem proc_loop_mem (env : ProcEnv) (es : List DirEntry) (cap : Nat) (list : List ProcessInfo)
    (r : ProcessInfo) (h : r ∈ proc_loop env es cap list) :
    r ∈ list ∨ ∃ e ∈ es, is_pid_dir e.d_name = true ∧ build_record env e = some r := by
  induction es generalizing cap list with
  | nil => exact Or.inl h
  | cons e es ih =>
    have lift : ∀ cap' list', r ∈ proc_loop env es cap' list' →
        (r ∈ list' → r ∈ list ∨ ∃ e' ∈ e :: es, is_pid_dir e'.d_name = true ∧
          build_record env e' = some r) →
        r ∈ list ∨ ∃ e' ∈ e :: es, is_pid_dir e'.d_name = true ∧ build_record env e' = some r := by
      intro cap' list' hm hl
      rcases ih cap' list' hm with h1 | ⟨e', he', hp, hb⟩
      · exact hl h1
      · exact Or.inr ⟨e', by simp [he'], hp, hb⟩
    unfold proc_loop at h
    by_cases hp : is_pid_dir e.d_name = true
    · have step : ∀ cap', (r ∈ match build_record env e with
            | none => proc_loop env es cap' list
            | some info => proc_loop env es cap' (list ++ [info])) →
          r ∈ list ∨ ∃ e' ∈ e :: es, is_pid_dir e'.d_name = true ∧
            build_record env e' = some r := by
        intro cap' hm
        cases hb : build_record env e with
        | none =>
          rw [hb] at hm
          exact lift _ _ hm Or.inl
        | some info =>
          rw [hb] at hm
          refine lift _ _ hm (fun hl => ?_)
          rcases List.mem_append.mp hl with hl | hl
          · exact Or.inl hl
          · simp only [List.mem_singleton] at hl
            subst hl
            exact Or.inr ⟨e, by simp, hp, hb⟩
      simp only [hp, if_true] at h
      split at h
      · split at h
        · exact step _ h
        · exact Or.inl h
      · exact step _ h
    · simp only [hp, if_false, Bool.false_eq_true] at h
      exact lift _ _ h Or.inl

theorem collect_processes_proc_mem (env : ProcEnv) (entries : List DirEntry) (m : Bool)
    (list : List ProcessInfo) (r : ProcessInfo)
    (hcol : collect_processes_proc env (some entries) m = some list) (hr : r ∈ list) :
    ∃ e ∈ entries, is_pid_dir e.d_name = true ∧ build_record env e = some r := by
  unfold collect_processes_proc at hcol
  simp only at hcol
  split at hcol
  · cases hcol
    rcases proc_loop_mem env entries 256 [] r hr with h | h
    · cases h
    · exact h
  · cases hcol

theorem ticks_per_sec_pos (env : ProcEnv) : 0 < ticks_per_sec env := by
  unfold ticks_per_sec
  split <;> omega

theorem cpu_count_pos (env : ProcEnv) : 0 < cpu_count env := by
  unfold cpu_count
  split <;> omega


/-! ## Rounding to `double` -/

theorem bit_length_spec (fuel n : Nat) (h : n ≤ fuel) :
    n < 2 ^ bit_length fuel n ∧ (n ≠ 0 → 2 ^ (bit_length fuel n - 1) ≤ n) := by
  induction fuel generalizing n with
  | zero =>
    have : n = 0 := by omega
    subst this
    simp [bit_length]
  | succ fuel ih =>
    unfold bit_length
    by_cases h0 : n = 0
    · subst h0
      simp
    · rw [if_neg h0]
      obtain ⟨h1, h2⟩ := ih (n / 2) (by omega)
      constructor
      · rw [pow_succ]
        omega
      · intro _
        simp only [Nat.add_sub_cancel]
        by_cases h3 : n / 2 = 0
        · have hb : bit_length fuel (n / 2) = 0 := by
            rw [h3]
            cases fuel <;> simp [bit_length]
          rw [hb]
          simp
          omega
        · have h4 := h2 h3
          have hpos : 1 ≤ bit_length fuel (n / 2) := by
            rcases Nat.eq_zero_or_pos (bit_length fuel (n / 2)) with h5 | h5
            · rw [h5] at h1
              simp at h1
              exact absurd h1 h3
            · exact h5
          have e : bit_length fuel (n / 2) = (bit_length fuel (n / 2) - 1) + 1 := by omega
          rw [e, pow_succ]
          omega

theorem bit_length_le (n k : Nat) (h : n < 2 ^ k) : bit_length n n ≤ k := by
  by_cases h0 : n = 0
  · subst h0
    simp [bit_length]
  · have h2 := (bit_length_spec n n (le_refl _)).2 h0
    by_contra hc
    have : 2 ^ k ≤ 2 ^ (bit_length n n - 1) := Nat.pow_le_pow_right (by decide) (by omega)
    omega

theorem bit_length_ge (n k : Nat) (h : 2 ^ k ≤ n) : k + 1 ≤ bit_length n n := by
  have h1 := (bit_length_spec n n (le_refl _)).1
  by_contra hc
  have : 2 ^ bit_length n n ≤ 2 ^ k := Nat.pow_le_pow_right (by decide) (by omega)
  omega

theorem ilog2_le (n d : Nat) : ilog2 n d ≤ (bit_length n n : Int) - (bit_length d d : Int) := by
  unfold ilog2
  simp only
  split <;> omega

theorem ilog2_one (n : Nat) (h : n ≠ 0) : ilog2 n 1 = (bit_length n n : Int) - 1 := by
  have h2 := (bit_length_spec n n (le_refl _)).2 h
  have h1 := (bit_length_spec n n (le_refl _)).1
  have hpos : 1 ≤ bit_length n n := by
    rcases Nat.eq_zero_or_pos (bit_length n n) with h5 | h5
    · rw [h5] at h1
      simp at h1
      exact absurd h1 h
    · exact h5
  have hb1 : bit_length 1 1 = 1 := by decide
  unfold ilog2
  simp only [hb1]
  have e1 : (-((bit_length n n : Int) - ((1 : Nat) : Int))).toNat = 0 := by omega
  have e2 : ((bit_length n n : Int) - ((1 : Nat) : Int)).toNat = bit_length n n - 1 := by omega
  rw [e1, e2, if_neg (by simpa using h2)]
  rfl

theorem round_even_bounds (n d : Nat) : n / d ≤ round_even n d ∧ round_even n d ≤ n / d + 1 := by
  unfold round_even
  simp only
  split
  · omega
  · split
    · omega
    · split <;> omega

theorem round_even_one (n : Nat) : round_even n 1 = n := by
  unfold round_even
  simp [Nat.mod_one]

theorem round_cases (neg : Bool) (n d : Nat) (s : Int) :
    Dbl.round neg n d s = Dbl.inf neg ∨ ∃ m e, Dbl.round neg n d s = Dbl.fin neg m e := by
  unfold Dbl.round
  simp only
  split_ifs <;> first | exact Or.inl rfl | exact Or.inr ⟨_, _, rfl⟩

theorem round_fin_of_exp (neg : Bool) (n d : Nat) (s : Int) (h : ilog2 n d + s - 52 ≤ 970) :
    ∃ m e, Dbl.round neg n d s = Dbl.fin neg m e := by
  unfold Dbl.round
  simp only
  split_ifs <;> first | exact ⟨_, _, rfl⟩ | omega

theorem round_int (neg : Bool) (n : Nat) (hn : n ≠ 0) :
    (Dbl.round neg n 1 0 = Dbl.inf neg ∧ 2 ^ 64 ≤ n) ∨
      ∃ m e, Dbl.round neg n 1 0 = Dbl.fin neg m e ∧ 2 ^ 52 ≤ m ∧ m < 2 ^ 53 ∧ -52 ≤ e ∧
        (n < 2 ^ 64 → e ≤ 12) := by
  have h1 := (bit_length_spec n n (le_refl _)).1
  have h2 := (bit_length_spec n n (le_refl _)).2 hn
  have hL64 : n < 2 ^ 64 → bit_length n n ≤ 64 := fun h => bit_length_le n 64 h
  have hpos : 1 ≤ bit_length n n := bit_length_ge n 0 (by simpa using Nat.pos_of_ne_zero hn)
  generalize hL : bit_length n n = L at h1 h2 hL64 hpos
  have hlog : ilog2 n 1 = (L : Int) - 1 := by rw [ilog2_one n hn, hL]
  have he0 : max (ilog2 n 1 + 0 - 52) (-1074) = (L : Int) - 53 := by
    rw [hlog]
    omega
  have hm0 : 2 ^ 52 ≤ round_even (n * 2 ^ (0 - ((L : Int) - 53)).toNat)
        (1 * 2 ^ ((L : Int) - 53 - 0).toNat) ∧
      round_even (n * 2 ^ (0 - ((L : Int) - 53)).toNat)
        (1 * 2 ^ ((L : Int) - 53 - 0).toNat) ≤ 2 ^ 53 := by
    by_cases hc : L ≤ 53
    · have e1 : (0 - ((L : Int) - 53)).toNat = 53 - L := by omega
      have e2 : ((L : Int) - 53 - 0).toNat = 0 := by omega
      rw [e1, e2]
      simp only [pow_zero, mul_one, round_even_one]
      have e3 : (2 : Nat) ^ 52 = 2 ^ (L - 1) * 2 ^ (53 - L) := by
        rw [← pow_add]
        congr 1
        omega
      have e4 : (2 : Nat) ^ 53 = 2 ^ L * 2 ^ (53 - L) := by
        rw [← pow_add]
        congr 1
        omega
      constructor
      · rw [e3]
        exact Nat.mul_le_mul_right _ h2
      · rw [e4]
        exact Nat.mul_le_mul_right _ (Nat.le_of_lt h1)
    · have e1 : (0 - ((L : Int) - 53)).toNat = 0 := by omega
      have e2 : ((L : Int) - 53 - 0).toNat = L - 53 := by omega
      rw [e1, e2]
      simp only [pow_zero, mul_one, one_mul]
      have hb := round_even_bounds n (2 ^ (L - 53))
      have hp : 0 < 2 ^ (L - 53) := by positivity
      have e3 : (2 : Nat) ^ (L - 1) = 2 ^ 52 * 2 ^ (L - 53) := by
        rw [← pow_add]
        congr 1
        omega
      have e4 : (2 : Nat) ^ L = 2 ^ 53 * 2 ^ (L - 53) := by
        rw [← pow_add]
        congr 1
        omega
      have lo : 2 ^ 52 ≤ n / 2 ^ (L - 53) := by
        rw [Nat.le_div_iff_mul_le hp, ← e3]
        exact h2
      have hi : n / 2 ^ (L - 53) < 2 ^ 53 := by
        rw [Nat.div_lt_iff_lt_mul hp, ← e4]
        exact h1
      omega
  unfold Dbl.round
  simp only [he0]
  rw [if_neg hn]
  by_cases hcarry : round_even (n * 2 ^ (0 - ((L : Int) - 53)).toNat)
        (1 * 2 ^ ((L : Int) - 53 - 0).toNat) = 2 ^ 53
  · simp only [hcarry, if_true]
    by_cases hbig : (L : Int) - 53 + 1 > 971
    · left
      rw [if_pos hbig]
      refine ⟨rfl, ?_⟩
      by_contra hlt
      have := hL64 (by omega)
      omega
    · right
      rw [if_neg hbig]
      refine ⟨_, _, rfl, by decide, by decide, by omega, ?_⟩
      intro h64
      have := hL64 h64
      omega
  · simp only [hcarry, if_false]
    by_cases hbig : (L : Int) - 53 > 971
    · left
      rw [if_pos hbig]
      refine ⟨rfl, ?_⟩
      by_contra hlt
      have := hL64 (by omega)
      omega
    · right
      rw [if_neg hbig]
      refine ⟨_, _, rfl, hm0.1, by omega, by omega, ?_⟩
      intro h64
      have := hL64 h64
      omega

theorem of_int_zero : Dbl.of_int 0 = Dbl.zero := by decide

theorem of_int_hundred : Dbl.of_int 100 = Dbl.fin false (100 * 2 ^ 46) (-46) := by decide

theorem of_int_pos (z : Int) (hz : 1 ≤ z) :
    (Dbl.of_int z = Dbl.inf false ∧ 2 ^ 64 ≤ z) ∨
      ∃ m e, Dbl.of_int z = Dbl.fin false m e ∧ 2 ^ 52 ≤ m ∧ m < 2 ^ 53 ∧ -52 ≤ e ∧
        (z < 2 ^ 64 → e ≤ 12) := by
  have hneg : decide (z < 0) = false := by simp; omega
  have hn : z.natAbs ≠ 0 := by omega
  unfold Dbl.of_int
  rw [hneg]
  rcases round_int false z.natAbs hn with ⟨h1, h2⟩ | ⟨m, e, h1, h2, h3, h4, h5⟩
  · exact Or.inl ⟨h1, by omega⟩
  · exact Or.inr ⟨m, e, h1, h2, h3, h4, fun h => h5 (by omega)⟩

theorem of_nat_fin (n : Nat) (h : n < 2 ^ 64) :
    ∃ m e, Dbl.of_int (n : Int) = Dbl.fin false m e ∧ m < 2 ^ 53 ∧ e ≤ 12 := by
  by_cases h0 : n = 0
  · subst h0
    exact ⟨0, -1074, by decide, by decide, by decide⟩
  · rcases of_int_pos (n : Int) (by omega) with ⟨_, h2⟩ | ⟨m, e, h1, _, h3, _, h5⟩
    · omega
    · exact ⟨m, e, h1, h3, h5 (by omega)⟩

/-! ## Signs of quotients and products -/

theorem scaled_zero (neg : Bool) (k : Nat) : Dbl.scaled neg 0 k = 0 := by
  unfold Dbl.scaled
  cases neg <;> simp

theorem scaled_pos (m k : Nat) : 0 ≤ Dbl.scaled false m k := by
  unfold Dbl.scaled
  simp

theorem scaled_pos_iff (neg : Bool) (m k : Nat) :
    0 < Dbl.scaled neg m k ↔ neg = false ∧ m ≠ 0 := by
  unfold Dbl.scaled
  have hp : 0 < 2 ^ k := by positivity
  cases neg
  · simp only [Bool.false_eq_true, if_false, true_and]
    constructor
    · intro h h0
      subst h0
      simp at h
    · intro h
      have : 0 < m * 2 ^ k := Nat.mul_pos (Nat.pos_of_ne_zero h) hp
      exact_mod_cast this
  · simp only [if_true]
    constructor
    · intro h
      have : (0 : Int) ≤ ((m * 2 ^ k : Nat) : Int) := Int.natCast_nonneg _
      omega
    · rintro ⟨h, _⟩
      cases h

theorem scaled_nonpos_iff (neg : Bool) (m k : Nat) :
    Dbl.scaled neg m k ≤ 0 ↔ neg = true ∨ m = 0 := by
  have := scaled_pos_iff neg m k
  constructor
  · intro h
    by_contra hc
    simp only [not_or] at hc
    have h2 := this.mpr ⟨by simpa using hc.1, hc.2⟩
    omega
  · intro h
    by_contra hc
    have h2 := this.mp (by omega)
    rcases h with h | h
    · rw [h2.1] at h
      cases h
    · exact h2.2 h

theorem lt_zero_iff (x : Dbl) :
    Dbl.lt Dbl.zero x = true ↔ x = Dbl.inf false ∨ ∃ m e, x = Dbl.fin false m e ∧ m ≠ 0 := by
  cases x with
  | nan => simp [Dbl.lt, Dbl.zero]
  | inf b => cases b <;> simp [Dbl.lt, Dbl.zero]
  | fin b m e =>
    simp only [Dbl.lt, Dbl.zero, scaled_zero, decide_eq_true_eq, scaled_pos_iff, false_or,
      Dbl.fin.injEq, reduceCtorEq]
    constructor
    · rintro ⟨h1, h2⟩
      exact ⟨m, e, ⟨h1, rfl, rfl⟩, h2⟩
    · rintro ⟨m', e', ⟨h1, h2, _⟩, h4⟩
      subst h2
      exact ⟨h1, h4⟩

theorem le_zero_iff (x : Dbl) :
    Dbl.le x Dbl.zero = true ↔
      x = Dbl.inf true ∨ ∃ b m e, x = Dbl.fin b m e ∧ (b = true ∨ m = 0) := by
  cases x with
  | nan => simp [Dbl.le, Dbl.zero]
  | inf b => cases b <;> simp [Dbl.le, Dbl.zero]
  | fin b m e =>
    simp only [Dbl.le, Dbl.zero, scaled_zero, decide_eq_true_eq, scaled_nonpos_iff, false_or,
      Dbl.fin.injEq, reduceCtorEq]
    constructor
    · intro h
      exact ⟨b, m, e, ⟨rfl, rfl, rfl⟩, h⟩
    · rintro ⟨b', m', e', ⟨h1, h2, _⟩, h4⟩
      subst h1 h2
      exact h4

/-- The test `seconds > 0` fails exactly when `seconds <= 0` holds or `seconds`
is a NaN. -/
theorem not_lt_zero_iff (x : Dbl) :
    Dbl.lt Dbl.zero x = false ↔ (Dbl.le x Dbl.zero = true ∨ x = Dbl.nan) := by
  rw [le_zero_iff]
  have h := lt_zero_iff x
  cases x with
  | nan => simp [Dbl.lt, Dbl.zero]
  | inf b => cases b <;> simp [Dbl.lt, Dbl.zero]
  | fin b m e =>
    constructor
    · intro hf
      left; right
      refine ⟨b, m, e, rfl, ?_⟩
      by_contra hc
      simp only [not_or] at hc
      have : Dbl.lt Dbl.zero (Dbl.fin b m e) = true :=
        h.mpr (Or.inr ⟨m, e, by simp [hc.1], hc.2⟩)
      rw [this] at hf
      cases hf
    · rintro (h1 | h1)
      · rcases h1 with h1 | ⟨b', m', e', h1, h2⟩
        · cases h1
        · simp only [Dbl.fin.injEq] at h1
          obtain ⟨hb, hm, _⟩ := h1
          subst hb hm
          cases hlt : Dbl.lt Dbl.zero (Dbl.fin b m e) with
          | false => rfl
          | true =>
            rcases h.mp hlt with h3 | ⟨m2, e2, h3, h4⟩
            · cases h3
            · simp only [Dbl.fin.injEq] at h3
              obtain ⟨hb, hm, _⟩ := h3
              subst hm
              rcases h2 with h2 | h2
              · rw [hb] at h2
                cases h2
              · exact absurd h2 h4
      · cases h1

theorem le_zero_of_nonneg (x : Dbl) (h : x = Dbl.inf false ∨ ∃ m e, x = Dbl.fin false m e) :
    Dbl.le Dbl.zero x = true := by
  rcases h with h | ⟨m, e, h⟩
  · subst h
    rfl
  · subst h
    simp only [Dbl.le, Dbl.zero, scaled_zero, decide_eq_true_eq]
    exact scaled_pos _ _

theorem div_nonneg_pos (x : Dbl) (m2 : Nat) (e2 : Int)
    (hx : x = Dbl.inf false ∨ ∃ m e, x = Dbl.fin false m e) (h2 : m2 ≠ 0) :
    Dbl.div x (Dbl.fin false m2 e2) = Dbl.inf false ∨
      ∃ m e, Dbl.div x (Dbl.fin false m2 e2) = Dbl.fin false m e := by
  rcases hx with h | ⟨m, e, h⟩
  · subst h
    exact Or.inl rfl
  · subst h
    simp only [Dbl.div, if_neg h2]
    exact round_cases _ _ _ _

theorem mul_nonneg_pos (x : Dbl) (m2 : Nat) (e2 : Int)
    (hx : x = Dbl.inf false ∨ ∃ m e, x = Dbl.fin false m e) (h2 : m2 ≠ 0) :
    Dbl.mul x (Dbl.fin false m2 e2) = Dbl.inf false ∨
      ∃ m e, Dbl.mul x (Dbl.fin false m2 e2) = Dbl.fin false m e := by
  rcases hx with h | ⟨m, e, h⟩
  · subst h
    left
    simp [Dbl.mul, h2]
  · subst h
    simp only [Dbl.mul]
    exact round_cases _ _ _ _

/-- The quotient `(double)cpu_ticks / (double)ticks_per_sec` is finite and not
negative. -/
theorem total_time_fin (ct : Nat) (tps : Int) (hct : ct < 2 ^ 64) (htps : 1 ≤ tps) :
    ∃ m e, Dbl.div (Dbl.of_int ct) (Dbl.of_int tps) = Dbl.fin false m e := by
  obtain ⟨ma, ea, hA, hma, hea⟩ := of_nat_fin ct hct
  rw [hA]
  rcases of_int_pos tps htps with ⟨hB, _⟩ | ⟨mb, eb, hB, hmb, _, heb, _⟩
  · rw [hB]
    exact ⟨0, -1074, rfl⟩
  · rw [hB]
    have h2 : mb ≠ 0 := by
      have : 0 < 2 ^ 52 := by positivity
      omega
    simp only [Dbl.div, if_neg h2]
    apply round_fin_of_exp
    have h1 := ilog2_le ma mb
    have h3 := bit_length_le ma 53 hma
    have h4 := bit_length_ge mb 52 hmb
    omega

theorem cpu_percent_of_nonneg (env : ProcEnv) (cpu_ticks start_ticks : Nat)
    (hct : cpu_ticks < 2 ^ 64) (hlong : env.nprocessors ≤ LONG_MAX) :
    Dbl.le Dbl.zero (cpu_percent_of env cpu_ticks start_ticks) = true := by
  unfold cpu_percent_of
  simp only [of_int_zero]
  split
  · rename_i hlt
    apply le_zero_of_nonneg
    obtain ⟨mt, et, hT⟩ := total_time_fin cpu_ticks (ticks_per_sec env) hct
      (by have := ticks_per_sec_pos env; omega)
    rw [hT]
    have hQ : Dbl.div (Dbl.fin false mt et) (elapsed_seconds env start_ticks) = Dbl.inf false ∨
        ∃ m e, Dbl.div (Dbl.fin false mt et) (elapsed_seconds env start_ticks)
          = Dbl.fin false m e := by
      rcases (lt_zero_iff _).mp hlt with hS | ⟨ms, es, hS, hms⟩
      · rw [hS]
        exact Or.inr ⟨0, -1074, rfl⟩
      · rw [hS]
        exact div_nonneg_pos _ ms es (Or.inr ⟨mt, et, rfl⟩) hms
    have hY := mul_nonneg_pos _ (100 * 2 ^ 46) (-46) hQ (by decide)
    rw [← of_int_hundred] at hY
    have hcc : 1 ≤ cpu_count env := by have := cpu_count_pos env; omega
    have hcc2 : cpu_count env < 2 ^ 64 := by
      unfold cpu_count
      unfold LONG_MAX at hlong
      split <;> omega
    rcases of_int_pos (cpu_count env) hcc with ⟨_, h2⟩ | ⟨mc, ec, hC, hmc, _, _, _⟩
    · omega
    · rw [hC]
      refine div_nonneg_pos _ mc ec hY ?_
      have : 0 < 2 ^ 52 := by positivity
      omega
  · rfl

theorem read_stat_cpu_ticks_lt (file : Option (List Nat)) (stack : List Nat) (st : StatResult)
    (h : read_stat file stack = some st) : st.cpu_ticks < 2 ^ 64 := by
  unfold read_stat at h
  split at h
  · cases h
  · split at h
    · cases h
    · unfold read_stat_buf at h
      split at h
      · split at h
        · cases h
        · simp only [Option.some.injEq] at h
          rw [← h]
          exact Nat.mod_lt _ (by positivity)
      · cases h

/-! ## The percentages of a record -/

set_option maxRecDepth 100000 in
set_option exponentiation.threshold 2000 in
theorem demo_collect :
    collect_processes_proc demo_env (some [demo_entry]) true = some [demo_record] := by
  decide

set_option maxRecDepth 100000 in
set_option exponentiation.threshold 2000 in
theorem demo_skew_collect :
    collect_processes_proc demo_env (some [demo_entry_skew]) true = some [demo_record_skew] := by
  decide

set_option maxRecDepth 100000 in
set_option exponentiation.threshold 2000 in
/-- Rounding decides the branch: with an uptime of `0.1` and a start 10 ticks
after boot, `10.0 / 100.0` rounds to the `double` of `0.1`, `seconds` is `0.0`
although `0.1` exceeds one tenth, and `cpu_percent` is `0.0`. -/
theorem cpu_percent_rounded_elapsed :
    elapsed_seconds demo_env_tenth 10 = Dbl.zero ∧
    (collect_processes_proc demo_env_tenth (some [demo_entry_early]) true).map
      (fun list => list.map (fun r => r.cpu_percent)) = some [Dbl.zero] := by
  decide

set_option maxRecDepth 100000 in
set_option exponentiation.threshold 2000 in
theorem demo_nan_collect :
    collect_processes_proc demo_env_nan (some [demo_entry]) true
      = some [{ demo_record with cpu_percent := Dbl.zero }] ∧
    read_stat demo_entry.stat demo_entry.stack
      = some { name := bytes "a (copy) b", state := 83, cpu_ticks := 500, start_ticks := 5000 } ∧
    Dbl.sub demo_env_nan.uptime (Dbl.div (Dbl.of_int 5000) (Dbl.of_int (ticks_per_sec demo_env_nan)))
      = Dbl.nan ∧
    Dbl.le (Dbl.sub demo_env_nan.uptime
      (Dbl.div (Dbl.of_int 5000) (Dbl.of_int (ticks_per_sec demo_env_nan)))) Dbl.zero = false ∧
    Dbl.div (Dbl.mul (Dbl.div (Dbl.div (Dbl.of_int 500) (Dbl.of_int (ticks_per_sec demo_env_nan)))
        (Dbl.sub demo_env_nan.uptime
          (Dbl.div (Dbl.of_int 5000) (Dbl.of_int (ticks_per_sec demo_env_nan)))))
      (Dbl.of_int 100)) (Dbl.of_int (cpu_count demo_env_nan)) = Dbl.nan := by
  decide

/-- C6 as stated fails: when `/proc/uptime` reads `nan`, `elapsed` is a NaN, so
`elapsed <= 0` is false; the formula of the other case yields a NaN, but the
record of entry `7` has `cpu_percent = 0.0`, because the test `seconds > 0` of
line 255 is false as well. -/
theorem cpu_percent_zero_for_nan_uptime :
    collect_processes_proc demo_env_nan (some [demo_entry]) true
      = some [{ demo_record with cpu_percent := Dbl.zero }] ∧
    read_stat demo_entry.stat demo_entry.stack
      = some { name := bytes "a (copy) b", state := 83, cpu_ticks := 500, start_ticks := 5000 } ∧
    Dbl.sub demo_env_nan.uptime (Dbl.div (Dbl.of_int 5000) (Dbl.of_int (ticks_per_sec demo_env_nan)))
      = Dbl.nan ∧
    Dbl.le (Dbl.sub demo_env_nan.uptime
      (Dbl.div (Dbl.of_int 5000) (Dbl.of_int (ticks_per_sec demo_env_nan)))) Dbl.zero = false ∧
    Dbl.div (Dbl.mul (Dbl.div (Dbl.div (Dbl.of_int 500) (Dbl.of_int (ticks_per_sec demo_env_nan)))
        (Dbl.sub demo_env_nan.uptime
          (Dbl.div (Dbl.of_int 5000) (Dbl.of_int (ticks_per_sec demo_env_nan)))))
      (Dbl.of_int 100)) (Dbl.of_int (cpu_count demo_env_nan)) = Dbl.nan :=
  demo_nan_collect

/-- C6 (as amended): every record `r` that `collect_processes_proc` returns belongs
to an entry whose stat file parsed.  With all operations those of `double` and
`elapsed = uptime - start_ticks / ticks_per_sec` (`ticks_per_sec > 0` and
`cpu_count > 0` after defaulting), `cpu_percent` is `0.0` when `elapsed <= 0` or
`elapsed` is a NaN, and `(cpu_ticks / ticks_per_sec) / elapsed * 100 / cpu_count`
otherwise; with the processor count a value of `long`, `cpu_percent >= 0` in
every case, so it is neither negative nor a NaN. -/
theorem cpu_percent_guarded_formula (env : ProcEnv) (entries : List DirEntry) (m : Bool)
    (list : List ProcessInfo) (r : ProcessInfo)
    (hcol : collect_processes_proc env (some entries) m = some list) (hr : r ∈ list) :
    ∃ e ∈ entries, ∃ st elapsed, read_stat e.stat e.stack = some st ∧
      r.pid = atoi e.d_name ∧ r.name = st.name ∧ r.state = st.state ∧
      0 < ticks_per_sec env ∧ 0 < cpu_count env ∧
      elapsed = Dbl.sub env.uptime
        (Dbl.div (Dbl.of_int st.start_ticks) (Dbl.of_int (ticks_per_sec env))) ∧
      (Dbl.le elapsed Dbl.zero = true ∨ elapsed = Dbl.nan → r.cpu_percent = Dbl.zero) ∧
      (¬ (Dbl.le elapsed Dbl.zero = true ∨ elapsed = Dbl.nan) →
        r.cpu_percent = Dbl.div (Dbl.mul (Dbl.div
            (Dbl.div (Dbl.of_int st.cpu_ticks) (Dbl.of_int (ticks_per_sec env))) elapsed)
          (Dbl.of_int 100)) (Dbl.of_int (cpu_count env))) ∧
      (env.nprocessors ≤ LONG_MAX → Dbl.le Dbl.zero r.cpu_percent = true) := by
  obtain ⟨e, he, _, hb⟩ := collect_processes_proc_mem env entries m list r hcol hr
  unfold build_record at hb
  cases hst : read_stat e.stat e.stack with
  | none => simp [hst] at hb
  | some st =>
    simp only [hst, Option.some.injEq] at hb
    have hcpu : r.cpu_percent = cpu_percent_of env st.cpu_ticks st.start_ticks := by
      rw [← hb]
    refine ⟨e, he, st, _, hst, by rw [← hb], by rw [← hb], by rw [← hb],
      ticks_per_sec_pos env, cpu_count_pos env, rfl, ?_, ?_, ?_⟩
    · intro hle
      have hlt := (not_lt_zero_iff _).mpr hle
      rw [hcpu]
      simp only [cpu_percent_of, elapsed_seconds, of_int_zero, hlt]
      rfl
    · intro hn
      have hlt : Dbl.lt Dbl.zero (Dbl.sub env.uptime
          (Dbl.div (Dbl.of_int st.start_ticks) (Dbl.of_int (ticks_per_sec env)))) = true := by
        cases h : Dbl.lt Dbl.zero (Dbl.sub env.uptime
          (Dbl.div (Dbl.of_int st.start_ticks) (Dbl.of_int (ticks_per_sec env)))) with
        | true => rfl
        | false => exact absurd ((not_lt_zero_iff _).mp h) hn
      rw [hcpu]
      simp only [cpu_percent_of, elapsed_seconds, of_int_zero, hlt, if_true]
    · intro hlong
      rw [hcpu]
      exact cpu_percent_of_nonneg env _ _ (read_stat_cpu_ticks_lt _ _ _ hst) hlong

/-- Witness for C6: the record of `demo_entry`, 5 s of CPU time in 950 s on 4
processors, has `cpu_percent = 0.13157894736842105`. -/
theorem cpu_percent_guarded_formula_witness :
    demo_record.cpu_percent = Dbl.fin false 4740631186705785 (-55) ∧
    ∃ e ∈ [demo_entry], ∃ st elapsed, read_stat e.stat e.stack = some st ∧
      demo_record.pid = atoi e.d_name ∧ demo_record.name = st.name ∧
      demo_record.state = st.state ∧
      0 < ticks_per_sec demo_env ∧ 0 < cpu_count demo_env ∧
      elapsed = Dbl.sub demo_env.uptime
        (Dbl.div (Dbl.of_int st.start_ticks) (Dbl.of_int (ticks_per_sec demo_env))) ∧
      (Dbl.le elapsed Dbl.zero = true ∨ elapsed = Dbl.nan →
        demo_record.cpu_percent = Dbl.zero) ∧
      (¬ (Dbl.le elapsed Dbl.zero = true ∨ elapsed = Dbl.nan) →
        demo_record.cpu_percent = Dbl.div (Dbl.mul (Dbl.div
            (Dbl.div (Dbl.of_int st.cpu_ticks) (Dbl.of_int (ticks_per_sec demo_env))) elapsed)
          (Dbl.of_int 100)) (Dbl.of_int (cpu_count demo_env))) ∧
      (demo_env.nprocessors ≤ LONG_MAX → Dbl.le Dbl.zero demo_record.cpu_percent = true) :=
  ⟨rfl, cpu_percent_guarded_formula demo_env [demo_entry] true [demo_record] demo_record
    demo_collect (List.mem_singleton.mpr rfl)⟩

/-- C7: every record that `collect_processes_proc` returns has `mem_percent = 0.0`
when the value of `read_mem_total_kb` is 0 or negative, and when it is positive
`mem_percent` is the `double` that line 263 computes,
`vmrss_kb * 100.0 / mem_total_kb` with both integers converted to `double`. -/
theorem mem_percent_formula (env : ProcEnv) (entries : List DirEntry) (m : Bool)
    (list : List ProcessInfo) (r : ProcessInfo)
    (hcol : collect_processes_proc env (some entries) m = some list) (hr : r ∈ list) :
    (read_mem_total_kb env.meminfo ≤ 0 → r.mem_percent = Dbl.zero) ∧
    (0 < read_mem_total_kb env.meminfo →
      r.mem_percent = Dbl.div (Dbl.mul (Dbl.of_int r.vmrss_kb) (Dbl.of_int 100))
        (Dbl.of_int (read_mem_total_kb env.meminfo))) := by
  obtain ⟨e, _, _, hb⟩ := collect_processes_proc_mem env entries m list r hcol hr
  unfold build_record at hb
  cases hst : read_stat e.stat e.stack with
  | none => simp [hst] at hb
  | some st =>
    simp only [hst, Option.some.injEq] at hb
    subst hb
    simp only [mem_percent_of]
    constructor
    · intro hle
      rw [if_neg (by omega)]
    · intro hpos
      rw [if_pos (by omega)]

set_option maxRecDepth 100000 in
set_option exponentiation.threshold 2000 in
theorem demo_mem_quotient :
    Dbl.div (Dbl.mul (Dbl.of_int 800) (Dbl.of_int 100)) (Dbl.of_int 8000000)
      = Dbl.fin false 5764607523034235 (-59) := by
  decide

theorem demo_mem_total : read_mem_total_kb demo_env.meminfo = 8000000 := by decide

/-- Witness for C7: the record of `demo_entry`, 800 kB resident of 8000000 kB, has
`mem_percent = 0.01`, the `double` `5764607523034235 * 2^-59`. -/
theorem mem_percent_formula_witness :
    read_mem_total_kb demo_env.meminfo = 8000000 ∧ demo_record.vmrss_kb = 800 ∧
    Dbl.div (Dbl.mul (Dbl.of_int 800) (Dbl.of_int 100)) (Dbl.of_int 8000000)
      = Dbl.fin false 5764607523034235 (-59) ∧
    ((read_mem_total_kb demo_env.meminfo ≤ 0 → demo_record.mem_percent = Dbl.zero) ∧
     (0 < read_mem_total_kb demo_env.meminfo →
       demo_record.mem_percent = Dbl.div (Dbl.mul (Dbl.of_int demo_record.vmrss_kb) (Dbl.of_int 100))
         (Dbl.of_int (read_mem_total_kb demo_env.meminfo)))) :=
  ⟨demo_mem_total, rfl, demo_mem_quotient, mem_percent_formula demo_env [demo_entry] true
    [demo_record] demo_record demo_collect (List.mem_singleton.mpr rfl)⟩

set_option maxRecDepth 100000 in
set_option exponentiation.threshold 2000 in
/-- Without the guard of line 262 a baseline of 0 would not give `0.0`: the
quotient of line 263 by `0.0` is an infinity, and a NaN for `vmrss_kb = 0`. -/
theorem mem_percent_zero_baseline :
    mem_percent_of 0 800 = Dbl.zero ∧
    Dbl.div (Dbl.mul (Dbl.of_int 800) (Dbl.of_int 100)) (Dbl.of_int 0) = Dbl.inf false ∧
    Dbl.div (Dbl.mul (Dbl.of_int 0) (Dbl.of_int 100)) (Dbl.of_int 0) = Dbl.nan := by
  decide

set_option maxRecDepth 100000 in
set_option exponentiation.threshold 4000 in
/-- The quotient by a tiny positive `seconds` overflows: with an uptime of
`2^-1074`, a start at tick 0 and 300 ticks of CPU time, `cpu_percent` is `+inf`. -/
theorem cpu_percent_overflow :
    cpu_percent_of { demo_env with uptime := Dbl.fin false 1 (-1074) } 300 0 = Dbl.inf false := by
  decide

/-! ## Records with a pid that is not positive -/

/-- C8 (the code at the failing input): for a `/proc` listing with an entry named
`0` whose stat file parses, `collect_processes` returns the list of
`collect_processes_proc`, which has one record, and the pid of this record is 0;
the test `pid <= 0` of `collect_processes_ps` has no counterpart on this path. -/
theorem collect_processes_emits_pid_zero (ps_result : Option (List ProcessInfo)) :
    (collect_processes demo_env (some [demo_entry_zero]) true ps_result).map
      (fun list => list.map (fun r => r.pid)) = some [0] := by
  have hp : is_pid_dir demo_entry_zero.d_name = true := by decide
  have hs : read_stat demo_entry_zero.stat demo_entry_zero.stack
      = some { name := bytes "idle", state := 82, cpu_ticks := 0, start_ticks := 0 } := by
    decide
  have ha : atoi demo_entry_zero.d_name = 0 := by decide
  simp [collect_processes, collect_processes_proc, proc_loop, hp, build_record, hs, ha]

/-! ## Appending when `realloc` fails -/

/-- C10 (the code at the failing input): a buffer of capacity 4 that holds `ab`,
and an append while `realloc` fails.  Neither call is a no-op.  After `sb_appendf`
of `hello`, `len` is 7 with `cap` still 4, and `llo` and the terminator are stored
at the indices 4 to 7, outside the block.  After `sb_append_escaped` of `x"y`,
`len` is 6 with `cap` still 4, and the bytes from index 4 on are stored outside
the block. -/
theorem sb_append_realloc_failure_overflows :
    sb_appendf (fun _ => none) { data := [97, 98, 0, 0], len := 2, cap := 4, oob := [] }
        (bytes "hello")
      = { data := [97, 98, 104, 101], len := 7, cap := 4,
          oob := [(4, 108), (5, 108), (6, 111), (7, 0)] } ∧
    sb_append_escaped (fun _ => none) { data := [97, 98, 0, 0], len := 2, cap := 4, oob := [] }
        (bytes "x\"y")
      = { data := [97, 98, 120, 92], len := 6, cap := 4,
          oob := [(4, 34), (5, 121), (6, 0)] } := by
  decide

/-! ## `extract_int_field` and the kill request -/

theorem cstr_eq_self (l : List Nat) (h : 0 ∉ l) : cstr l = l := by
  unfold cstr
  rw [List.takeWhile_eq_self_iff]
  intro x hx
  simp only [bne_iff_ne, ne_eq]
  intro h0
  exact h (h0 ▸ hx)

theorem cstr_append_left (a b : List Nat) (h : 0 ∉ a) : cstr (a ++ b) = a ++ cstr b := by
  induction a with
  | nil => rfl
  | cons x t ih =>
    simp only [List.mem_cons, not_or] at h
    have hx : ¬ x = 0 := fun e => h.1 e.symm
    simp only [cstr, List.cons_append, List.takeWhile_cons, bne_iff_ne, ne_eq, hx,
      not_false_eq_true, decide_True, if_true, List.cons.injEq, true_and]
    exact ih h.2

theorem cstr_cons_suffix (b : Nat) (t : List Nat) (hb : b ≠ 0) : cstr (b :: t) = b :: cstr t := by
  simp [cstr, List.takeWhile_cons, hb]

theorem starts_with_iff (key line : List Nat) :
    starts_with key line = true ↔ ∃ r, line = key ++ r := by
  unfold starts_with
  simp only [beq_iff_eq]
  constructor
  · intro h
    refine ⟨line.drop key.length, ?_⟩
    conv_lhs => rw [← List.take_append_drop key.length line]
    rw [h]
  · rintro ⟨r, rfl⟩
    simp

/-- No occurrence of the key in the C string: `strstr` returns `NULL`. -/
theorem strstr_none_of_not_infix (key b : List Nat) (hk : 0 ∉ key)
    (h : ¬ key <:+: cstr b) : strstr b key = none := by
  rw [← cstr_eq_self key hk] at h
  induction b with
  | nil =>
    have hne : cstr key ≠ [] := by
      intro he
      apply h
      rw [he]
      exact List.nil_infix
    simp [strstr, hne]
  | cons x t ih =>
    unfold strstr
    have h1 : starts_with (cstr key) (cstr (x :: t)) = false := by
      rw [Bool.eq_false_iff]
      intro hs
      obtain ⟨r, hr⟩ := (starts_with_iff _ _).mp hs
      exact h ⟨[], r, by simp [hr]⟩
    simp only [h1, Bool.false_eq_true, if_false]
    by_cases hx : x = 0
    · simp [hx]
    · simp only [hx, if_false]
      apply ih
      intro hin
      apply h
      rw [cstr_cons_suffix x t hx]
      obtain ⟨a, c, hac⟩ := hin
      exact ⟨x :: a, c, by simp [← hac]⟩

/-- The first occurrence of the key: `strstr` returns the pointer to it. -/
theorem strstr_first (key pre rest : List Nat) (hk : 0 ∉ key) (hkne : key ≠ [])
    (hpre : 0 ∉ pre) (hfirst : ¬ key <:+: pre ++ key.dropLast) :
    strstr (pre ++ key ++ rest) key = some (key ++ rest) := by
  have hck := cstr_eq_self key hk
  induction pre with
  | nil =>
    cases hkr : key ++ rest with
    | nil => simp at hkr; exact absurd hkr.1 hkne
    | cons x t =>
      simp only [List.nil_append, hkr]
      unfold strstr
      have : starts_with (cstr key) (cstr (x :: t)) = true := by
        rw [← hkr, hck, cstr_append_left key rest hk]
        exact (starts_with_iff _ _).mpr ⟨_, rfl⟩
      simp [this]
  | cons x t ih =>
    simp only [List.mem_cons, not_or] at hpre
    have hx : ¬ x = 0 := fun e => hpre.1 e.symm
    simp only [List.cons_append]
    unfold strstr
    have h1 : starts_with (cstr key) (cstr (x :: (t ++ key ++ rest))) = false := by
      rw [Bool.eq_false_iff]
      intro hs
      obtain ⟨r, hr⟩ := (starts_with_iff _ _).mp hs
      rw [hck] at hr
      have hpfx : key <+: x :: (t ++ key ++ rest) := by
        have h2 : cstr (x :: (t ++ key ++ rest)) <+: x :: (t ++ key ++ rest) :=
          List.takeWhile_prefix _
        exact List.IsPrefix.trans ⟨r, hr.symm⟩ h2
      apply hfirst
      have hlen : key.length ≤ (x :: t ++ key.dropLast).length := by
        have : key.length ≠ 0 := fun e => hkne (List.length_eq_zero.mp e)
        simp only [List.cons_append, List.length_cons, List.length_append, List.length_dropLast]
        omega
      have hp2 : x :: t ++ key.dropLast <+: x :: (t ++ key ++ rest) := by
        refine ⟨[key.getLast hkne] ++ rest, ?_⟩
        have := List.dropLast_append_getLast hkne
        simp only [List.cons_append, List.append_assoc, List.cons.injEq, true_and,
          List.append_cancel_left_eq]
        conv_rhs => rw [← this]
        simp
      exact (List.prefix_of_prefix_length_le hpfx hp2 hlen).isInfix
    simp only [h1, Bool.false_eq_true, if_false, hx]
    have := ih hpre.2 (fun hin => hfirst (by
      obtain ⟨a, c, hac⟩ := hin
      exact ⟨x :: a, c, by simp [← hac]⟩))
    simpa using this

theorem strtol_value_fmt_int (N : Int) (post : List Nat) (hpost : isdigit (deref post) = false)
    (hN : LONG_MIN ≤ N ∧ N ≤ LONG_MAX) : strtol_value (fmt_int N ++ post) = N := by
  unfold LONG_MIN LONG_MAX at hN
  have htw := takeWhile_digits (dec N.natAbs) post (dec_isdigit _) hpost
  have hv := dec_value_dec N.natAbs
  unfold fmt_int
  split
  · rename_i hneg
    have hdw : List.dropWhile isspace (45 :: (dec N.natAbs ++ post)) = 45 :: (dec N.natAbs ++ post) := by
      simp [List.dropWhile_cons, show isspace 45 = false by decide]
    unfold strtol_value
    simp only [List.cons_append, hdw, deref, List.headD_cons, beq_self_eq_true, Bool.true_or,
      if_true, List.tail_cons, htw, hv]
    unfold LONG_MIN LONG_MAX
    split
    · omega
    · split <;> omega
  · rename_i hnn
    obtain ⟨d, t, hd, hdig⟩ := dec_head N.natAbs
    have hsp : isspace d = false := isdigit_not_space d hdig
    have hd' : 48 ≤ d ∧ d ≤ 57 := by
      simpa only [isdigit, Bool.and_eq_true, decide_eq_true_eq] using hdig
    have h45 : (d == 45) = false := by simp; omega
    have h43 : (d == 43) = false := by simp; omega
    rw [hd] at htw
    have hdw : List.dropWhile isspace (d :: (t ++ post)) = d :: (t ++ post) := by
      simp [List.dropWhile_cons, hsp]
    unfold strtol_value
    rw [hd]
    simp only [List.cons_append, hdw, deref, List.headD_cons, h45, h43, Bool.or_self,
      Bool.false_eq_true, if_false]
    simp only [List.cons_append] at htw
    rw [htw, ← hd, hv]
    unfold LONG_MIN LONG_MAX
    split
    · omega
    · split <;> omega

theorem atoi_fmt_int (N : Int) (post : List Nat) (hpost : isdigit (deref post) = false)
    (hN : -(2 ^ 31) ≤ N ∧ N < 2 ^ 31) : atoi (fmt_int N ++ post) = N := by
  unfold atoi
  rw [strtol_value_fmt_int N post hpost (by unfold LONG_MIN LONG_MAX; omega)]
  unfold to_int32
  omega

theorem dropWhile_append_all (f : Nat → Bool) (l1 l2 : List Nat) (h : ∀ x ∈ l1, f x = true) :
    (l1 ++ l2).dropWhile f = l2.dropWhile f := by
  induction l1 with
  | nil => rfl
  | cons x t ih =>
    simp only [List.cons_append, List.dropWhile_cons, h x (by simp), if_true]
    exact ih (fun y hy => h y (by simp [hy]))

/-- The integer that `extract_int_field` returns when the first occurrence of the
key in the body is followed by a colon and a decimal number. -/
theorem extract_int_field_first_occurrence (key pre mid skip post : List Nat) (N : Int)
    (hk0 : 0 ∉ key) (hkne : key ≠ []) (hk58 : 58 ∉ key)
    (hpre : 0 ∉ pre) (hfirst : ¬ key <:+: pre ++ key.dropLast)
    (hmid : 58 ∉ mid ∧ 0 ∉ mid)
    (hskip : ∀ c ∈ skip, c ≠ 0 ∧ isdigit c = false ∧ c ≠ 45)
    (hpost : isdigit (deref post) = false) (hN : -(2 ^ 31) ≤ N ∧ N < 2 ^ 31) :
    extract_int_field (some (pre ++ key ++ mid ++ 58 :: skip ++ fmt_int N ++ post)) key = N := by
  have e1 : pre ++ key ++ mid ++ 58 :: skip ++ fmt_int N ++ post
      = pre ++ key ++ (mid ++ 58 :: (skip ++ (fmt_int N ++ post))) := by simp
  have hs := strstr_first key pre (mid ++ 58 :: (skip ++ (fmt_int N ++ post))) hk0 hkne hpre hfirst
  have e2 : key ++ (mid ++ 58 :: (skip ++ (fmt_int N ++ post)))
      = (key ++ mid) ++ 58 :: (skip ++ (fmt_int N ++ post)) := by simp
  have hc := strchr_first (key ++ mid) (skip ++ (fmt_int N ++ post)) 58
    (by simp only [List.mem_append, not_or]; exact ⟨hk58, hmid.1⟩)
    (by simp only [List.mem_append, not_or]; exact ⟨hk0, hmid.2⟩)
  obtain ⟨b, t, hb, hb0, _⟩ := fmt_int_head N
  have hbf : (b != 0 && !isdigit b && b != 45) = false := by
    have : b = 45 ∨ isdigit b = true := by
      unfold fmt_int at hb
      split at hb
      · left; simp only [List.cons.injEq] at hb; exact hb.1.symm
      · right
        exact dec_isdigit N.natAbs b (by rw [hb]; simp)
    rcases this with h | h
    · subst h; decide
    · simp [h]
  have hdw : List.dropWhile (fun c => c != 0 && !isdigit c && c != 45)
      (skip ++ (fmt_int N ++ post)) = fmt_int N ++ post := by
    rw [dropWhile_append_all _ _ _ (fun c hc => by
      obtain ⟨h1, h2, h3⟩ := hskip c hc
      simp [h1, h2, h3])]
    rw [hb]
    simp only [List.cons_append, List.dropWhile_cons, hbf, Bool.false_eq_true, if_false]
  unfold extract_int_field
  simp only [e1, hs, e2, hc]
  have hdrop : List.drop ((key ++ mid).length + 1) (key ++ mid ++ 58 :: (skip ++ (fmt_int N ++ post)))
      = skip ++ (fmt_int N ++ post) := by
    have : key ++ mid ++ 58 :: (skip ++ (fmt_int N ++ post))
        = (key ++ mid ++ [58]) ++ (skip ++ (fmt_int N ++ post)) := by simp
    rw [this]
    exact List.drop_left' (by simp; omega)
  rw [hdrop, hdw]
  have hd : ¬ deref (fmt_int N ++ post) = 0 := by
    rw [hb]; simpa [deref] using hb0
  rw [if_neg hd]
  exact atoi_fmt_int N post hpost hN

/-- What holds of every request: every `kill` call of `handle_request` has the pid that
`extract_int_field` returned, and this pid is positive; a request to POST
`/api/kill` for which `extract_int_field` returns a value `<= 0` is answered with
the 400 "Invalid PID" response alone.  `extract_int_field` returns -1 for an absent
body and for a body in which the text `pid` does not occur, and it returns `N` when
the first occurrence of the text `pid` is followed by a colon and the decimal `int`
`N` (so a body such as `{"pid": -5}` is rejected). -/
theorem kill_request_validates_pid (env : ReqEnv) (method path : List Nat)
    (body : Option (List Nat)) :
    (∀ pid sig, Effect.kill pid sig ∈ handle_request env method path body →
      0 < pid ∧ pid = extract_int_field body (bytes "pid") ∧ sig = SIGTERM) ∧
    (cstr method = bytes "POST" → cstr path = bytes "/api/kill" →
      extract_int_field body (bytes "pid") ≤ 0 →
      handle_request env method path body
        = [Effect.respond (bytes "400 Bad Request") (bytes "application/json")
            (bytes "\x7b\"error\":\"Invalid PID\"\x7d")]) ∧
    (body = none → extract_int_field body (bytes "pid") = -1) ∧
    (∀ b, body = some b → ¬ bytes "pid" <:+: cstr b →
      extract_int_field body (bytes "pid") = -1) ∧
    (∀ (pre mid skip post : List Nat) (N : Int),
      body = some (pre ++ bytes "pid" ++ mid ++ 58 :: skip ++ fmt_int N ++ post) →
      0 ∉ pre → ¬ bytes "pid" <:+: pre ++ bytes "pi" →
      58 ∉ mid ∧ 0 ∉ mid →
      (∀ c ∈ skip, c ≠ 0 ∧ isdigit c = false ∧ c ≠ 45) →
      isdigit (deref post) = false → -(2 ^ 31) ≤ N ∧ N < 2 ^ 31 →
      extract_int_field body (bytes "pid") = N) := by
  refine ⟨?_, ?_, ?_, ?_, ?_⟩
  · intro pid sig hmem
    unfold handle_request at hmem
    split at hmem
    · simp at hmem
    · split at hmem
      · split at hmem <;> simp at hmem
      · split at hmem
        · simp only at hmem
          split at hmem
          · simp at hmem
          · rename_i hpos
            split at hmem
            · simp only [List.mem_cons, Effect.kill.injEq, reduceCtorEq, List.mem_nil_iff,
                or_false] at hmem
              exact ⟨by omega, hmem.1, hmem.2⟩
            · simp only [List.mem_cons, Effect.kill.injEq, reduceCtorEq, List.mem_nil_iff,
                or_false] at hmem
              exact ⟨by omega, hmem.1, hmem.2⟩
        · simp at hmem
  · intro hm hp hle
    have h1 : ¬ bytes "POST" = bytes "OPTIONS" := by decide
    have h2 : ¬ bytes "POST" = bytes "GET" := by decide
    unfold handle_request
    simp only [hm, hp, h1, h2, if_false, false_and, true_and, if_true, hle]
  · intro hb
    subst hb
    rfl
  · intro b hb hno
    subst hb
    have := strstr_none_of_not_infix (bytes "pid") b (by decide) hno
    simp [extract_int_field, this]
  · intro pre mid skip post N hb hpre hfirst hmid hskip hpost hN
    subst hb
    exact extract_int_field_first_occurrence (bytes "pid") pre mid skip post N (by decide)
      (by decide) (by decide) hpre hfirst hmid hskip hpost hN

/-- The body `{"pid": -5}` is answered with 400 and no `kill`. -/
theorem kill_request_rejects_negative_pid :
    extract_int_field (some (bytes "\x7b\"pid\": -5\x7d")) (bytes "pid") = -5 ∧
    handle_request demo_req_env (bytes "POST") (bytes "/api/kill")
        (some (bytes "\x7b\"pid\": -5\x7d"))
      = [Effect.respond (bytes "400 Bad Request") (bytes "application/json")
          (bytes "\x7b\"error\":\"Invalid PID\"\x7d")] :=
  have h := kill_request_validates_pid demo_req_env (bytes "POST") (bytes "/api/kill")
    (some (bytes "\x7b\"pid\": -5\x7d"))
  have hx : extract_int_field (some (bytes "\x7b\"pid\": -5\x7d")) (bytes "pid") = -5 :=
    h.2.2.2.2 (bytes "\x7b\"") (bytes "\"") (bytes " ") (bytes "\x7d") (-5) (by decide)
      (by decide) (by decide) (by decide) (by decide) (by decide) (by decide)
  ⟨hx, h.2.1 (by decide) (by decide) (by rw [hx]; decide)⟩

/-- C9 (the code at the failing input): the body `{"ppid": 5}` has no member
named `pid`; `strstr` finds the text `pid` inside `ppid`, `extract_int_field`
returns 5, and `handle_request` calls `kill(5, SIGTERM)` and answers 200 instead
of answering 400 without a `kill` call. -/
theorem kill_issued_without_pid_member :
    ¬ (bytes "\"pid\"" <:+: bytes "\x7b\"ppid\": 5\x7d") ∧
    strstr (bytes "\x7b\"ppid\": 5\x7d") (bytes "pid") = some (bytes "pid\": 5\x7d") ∧
    extract_int_field (some (bytes "\x7b\"ppid\": 5\x7d")) (bytes "pid") = 5 ∧
    handle_request demo_req_env (bytes "POST") (bytes "/api/kill")
        (some (bytes "\x7b\"ppid\": 5\x7d"))
      = [Effect.kill 5 SIGTERM,
         Effect.respond (bytes "200 OK") (bytes "application/json")
           (bytes "\x7b\"status\":\"terminated\",\"pid\":5\x7d")] := by
  decide


/-! ## `is_pid_dir` -/

theorem all_digits_iff (name : List Nat) :
    all_digits name = true ↔ ∀ b ∈ cstr name, 48 ≤ b ∧ b ≤ 57 := by
  induction name with
  | nil => simp [all_digits, cstr]
  | cons b t ih =>
    by_cases hb : b = 0
    · subst hb
      simp [all_digits, cstr]
    · have hcs : cstr (b :: t) = b :: cstr t := by simp [cstr, List.takeWhile_cons, hb]
      rw [hcs]
      unfold all_digits
      simp only [hb, if_false, List.mem_cons, forall_eq_or_imp]
      by_cases hd : isdigit b = true
      · have hd' : 48 ≤ b ∧ b ≤ 57 := by
          simpa only [isdigit, Bool.and_eq_true, decide_eq_true_eq] using hd
        simp only [hd, if_true, ih]
        exact ⟨fun h => ⟨hd', h⟩, fun h => h.2⟩
      · have hd' : ¬ (48 ≤ b ∧ b ≤ 57) := by
          simpa only [isdigit, Bool.and_eq_true, decide_eq_true_eq] using hd
        simp only [hd, if_false, Bool.false_eq_true, false_iff]
        exact fun h => hd' h.1

theorem is_pid_dir_iff (name : List Nat) :
    is_pid_dir name = true ↔ cstr name ≠ [] ∧ ∀ b ∈ cstr name, 48 ≤ b ∧ b ≤ 57 := by
  unfold is_pid_dir
  cases name with
  | nil => simp [deref, cstr]
  | cons b t =>
    by_cases hb : b = 0
    · subst hb
      simp [deref, cstr]
    · have hcs : cstr (b :: t) = b :: cstr t := by simp [cstr, List.takeWhile_cons, hb]
      simp only [deref, List.headD_cons, hb, if_false, all_digits_iff, hcs]
      simp

theorem proc_loop_skip_no_pid_dir (env : ProcEnv) (A B : List DirEntry) (e : DirEntry)
    (cap : Nat) (list : List ProcessInfo) (h : is_pid_dir e.d_name = false) :
    proc_loop env (A ++ e :: B) cap list = proc_loop env (A ++ B) cap list := by
  induction A generalizing cap list with
  | nil => simp [proc_loop, h]
  | cons a A ih =>
    simp only [List.cons_append, proc_loop]
    split
    · split
      · split
        · split
          · exact ih _ _
          · exact ih _ _
        · rfl
      · split
        · exact ih _ _
        · exact ih _ _
    · exact ih _ _

/-- C13: `is_pid_dir` is true exactly when the name is non-empty and each of its
bytes is a decimal digit.  `collect_processes_proc` looks at an entry only then:
an entry for which `is_pid_dir` is false leaves the result as it is without the
entry, whatever its files hold, and every record returned belongs to an entry of
the listing for which `is_pid_dir` is true. -/
theorem is_pid_dir_digits_only (env : ProcEnv) (A B : List DirEntry) (e : DirEntry) (m : Bool) :
    (is_pid_dir e.d_name = true ↔
      cstr e.d_name ≠ [] ∧ ∀ b ∈ cstr e.d_name, 48 ≤ b ∧ b ≤ 57) ∧
    (is_pid_dir e.d_name = false →
      collect_processes_proc env (some (A ++ e :: B)) m
        = collect_processes_proc env (some (A ++ B)) m) ∧
    (∀ list r, collect_processes_proc env (some (A ++ e :: B)) m = some list → r ∈ list →
      ∃ e' ∈ A ++ e :: B, is_pid_dir e'.d_name = true ∧ build_record env e' = some r) := by
  refine ⟨is_pid_dir_iff e.d_name, ?_, ?_⟩
  · intro h
    cases m with
    | false => rfl
    | true =>
      simp only [collect_processes_proc, if_true]
      rw [proc_loop_skip_no_pid_dir env A B e 256 [] h]
  · intro list r hcol hr
    exact collect_processes_proc_mem env _ m list r hcol hr

/-- Witness for C13: the entry `self` between the entries `7` and `9`. -/
theorem is_pid_dir_digits_only_witness :
    is_pid_dir (bytes "self") = false ∧ is_pid_dir (bytes "7") = true ∧
    collect_processes_proc demo_env
        (some ([demo_entry] ++ { demo_entry with d_name := bytes "self" } :: [demo_entry_skew])) true
      = collect_processes_proc demo_env (some ([demo_entry] ++ [demo_entry_skew])) true :=
  have h := is_pid_dir_digits_only demo_env [demo_entry] [demo_entry_skew]
    { demo_entry with d_name := bytes "self" } true
  ⟨by decide, by decide, h.2.1 (by decide)⟩

/-! ## Growth of the buffer -/

/-- C11: for a buffer whose block has `cap` bytes and `len < cap`, `sb_ensure`
makes no allocation request and returns the buffer as it is when
`len + extra + 1 <= cap`; otherwise it makes exactly one request, for
`cap * 2 + extra + 1` bytes.  When that request fails the buffer stays as it is;
when it succeeds the new capacity is the requested one, which is at least twice
the old capacity and at least `len + extra + 1`, and `len` and the first `len`
bytes are unchanged. -/
theorem sb_ensure_growth (alloc : Nat → Option Nat) (sb : StrBuf) (extra : Nat)
    (hlen : sb.len < sb.cap) (hdata : sb.data.length = sb.cap) :
    (sb.len + extra + 1 ≤ sb.cap →
      sb_ensure_requests sb extra = [] ∧ sb_ensure alloc sb extra = sb) ∧
    (¬ sb.len + extra + 1 ≤ sb.cap →
      sb_ensure_requests sb extra = [sb.cap * 2 + extra + 1] ∧
      (alloc (sb.cap * 2 + extra + 1) = none → sb_ensure alloc sb extra = sb) ∧
      (alloc (sb.cap * 2 + extra + 1) ≠ none →
        (sb_ensure alloc sb extra).cap = sb.cap * 2 + extra + 1 ∧
        2 * sb.cap ≤ (sb_ensure alloc sb extra).cap ∧
        sb.len + extra + 1 ≤ (sb_ensure alloc sb extra).cap ∧
        (sb_ensure alloc sb extra).data.length = (sb_ensure alloc sb extra).cap ∧
        (sb_ensure alloc sb extra).len = sb.len ∧
        (sb_ensure alloc sb extra).data.take sb.len = sb.data.take sb.len)) := by
  constructor
  · intro hfit
    simp [sb_ensure_requests, sb_ensure, hfit]
  · intro hfit
    refine ⟨by simp [sb_ensure_requests, hfit], ?_, ?_⟩
    · intro hnone
      simp [sb_ensure, hfit, hnone]
    · intro hsome
      cases ha : alloc (sb.cap * 2 + extra + 1) with
      | none => exact absurd ha hsome
      | some fill =>
        have ht : sb.data.take (sb.cap * 2 + extra + 1) = sb.data :=
          List.take_of_length_le (by omega)
        unfold sb_ensure
        rw [if_neg hfit]
        simp only [ha, ht]
        refine ⟨trivial, by omega, by omega, ?_, trivial, ?_⟩
        · simp only [List.length_append, List.length_replicate]; omega
        · rw [List.take_append_of_le_length (by omega)]

/-- Witness for C11: a buffer of capacity 4 that holds `ab`, and 5 more bytes. -/
theorem sb_ensure_growth_witness :
    sb_ensure_requests { data := [97, 98, 0, 0], len := 2, cap := 4, oob := [] } 5 = [14] ∧
    (sb_ensure (fun _ => some 0) { data := [97, 98, 0, 0], len := 2, cap := 4, oob := [] } 5).cap
      = 14 :=
  have h := sb_ensure_growth (fun _ => some 0)
    { data := [97, 98, 0, 0], len := 2, cap := 4, oob := [] } 5 (by decide) (by decide)
  ⟨(h.2 (by decide)).1, ((h.2 (by decide)).2.2 (by simp)).1⟩

/-! ## The invariant of the buffer -/

theorem StrBuf.store_get (sb : StrBuf) (i b : Nat) (h : i < (sb.store i b).data.length) :
    (sb.store i b).data[i]? = some b ∧ (sb.store i b).len = sb.len := by
  unfold StrBuf.store at h ⊢
  split
  · rename_i hlt
    simp [hlt]
  · rename_i hlt
    simp only [hlt, if_false] at h

theorem sb_appendf_terminated (alloc : Nat → Option Nat) (sb : StrBuf) (text : List Nat)
    (hok : ∀ n, alloc n ≠ none) (h : sb.room 0) (ht : text.length ≤ 1023)
    (hz : sb.data[sb.len]? = some 0) :
    (sb_appendf alloc sb text).data[(sb_appendf alloc sb text).len]? = some 0 := by
  obtain ⟨⟨r1, r2, _⟩, _⟩ := sb_appendf_room alloc sb text hok h ht
  by_cases he : text.length = 0
  · have : sb_appendf alloc sb text = sb := by simp [sb_appendf, he]
    rw [this]; exact hz
  · have hdef : sb_appendf alloc sb text
        = StrBuf.store
            { sb_memcpy (sb_ensure alloc sb text.length) (sb_ensure alloc sb text.length).len
                ((List.range text.length).map (fun i => (text.take 1023).getD i 0)) with
              len := (sb_memcpy (sb_ensure alloc sb text.length)
                (sb_ensure alloc sb text.length).len
                ((List.range text.length).map (fun i => (text.take 1023).getD i 0))).len
                  + text.length }
            ((sb_memcpy (sb_ensure alloc sb text.length) (sb_ensure alloc sb text.length).len
                ((List.range text.length).map (fun i => (text.take 1023).getD i 0))).len
                  + text.length) 0 := by
      simp [sb_appendf, he]
    rw [hdef] at r1 r2 ⊢
    generalize hX : ({ sb_memcpy (sb_ensure alloc sb text.length)
        (sb_ensure alloc sb text.length).len
        ((List.range text.length).map (fun i => (text.take 1023).getD i 0)) with
      len := (sb_memcpy (sb_ensure alloc sb text.length)
        (sb_ensure alloc sb text.length).len
        ((List.range text.length).map (fun i => (text.take 1023).getD i 0))).len
          + text.length } : StrBuf) = X at r1 r2 ⊢
    have hlenX : X.len = (sb_memcpy (sb_ensure alloc sb text.length)
        (sb_ensure alloc sb text.length).len
        ((List.range text.length).map (fun i => (text.take 1023).getD i 0))).len
          + text.length := by rw [← hX]
    rw [← hlenX] at r1 r2 ⊢
    have hlt : X.len < (X.store X.len 0).data.length := by
      have e := (congrArg StrBuf.len (rfl : X.store X.len 0 = X.store X.len 0))
      have hl : (X.store X.len 0).len = X.len := by
        unfold StrBuf.store; split <;> rfl
      rw [hl] at r2
      omega
    obtain ⟨g, l⟩ := StrBuf.store_get X X.len 0 hlt
    rw [l]; exact g

theorem sb_append_escaped_terminated (alloc : Nat → Option Nat) (sb : StrBuf) (s : List Nat)
    (hok : ∀ n, alloc n ≠ none) (h : sb.room 0) :
    (sb_append_escaped alloc sb s).data[(sb_append_escaped alloc sb s).len]? = some 0 := by
  obtain ⟨r1, _⟩ := sb_escape_loop_room alloc s sb hok h
  obtain ⟨_, _, l2, g⟩ := StrBuf.store_terminator _ r1
  unfold sb_append_escaped
  simp only
  rw [l2]; exact g

theorem sb_calls_invariant (alloc : Nat → Option Nat) (calls : List SbCall) (sb : StrBuf)
    (hok : ∀ n, alloc n ≠ none) (hfit : formats_fit calls) (h : sb.room 0)
    (hz : sb.data[sb.len]? = some 0) :
    (sb_calls alloc sb calls).room 0 ∧
      (sb_calls alloc sb calls).data[(sb_calls alloc sb calls).len]? = some 0 ∧
      (sb_calls alloc sb calls).content = sb.content ++ appended_bytes calls := by
  induction calls generalizing sb with
  | nil => simpa [sb_calls, appended_bytes] using ⟨h, hz⟩
  | cons c cs ih =>
    cases c with
    | appendf text =>
      obtain ⟨hft, hfc⟩ := hfit
      obtain ⟨r, ct⟩ := sb_appendf_room alloc sb text hok h hft
      have z := sb_appendf_terminated alloc sb text hok h hft hz
      obtain ⟨r', z', c'⟩ := ih (sb_appendf alloc sb text) hfc r z
      refine ⟨r', z', ?_⟩
      simp only [sb_calls, sb_call] at c' ⊢
      rw [c', ct]
      simp [appended_bytes, SbCall.appended]
    | append_escaped s =>
      obtain ⟨r, ct, _⟩ := sb_append_escaped_room alloc s sb hok h
      have z := sb_append_escaped_terminated alloc sb s hok h
      obtain ⟨r', z', c'⟩ := ih (sb_append_escaped alloc sb s) hfit r z
      refine ⟨r', z', ?_⟩
      simp only [sb_calls, sb_call] at c' ⊢
      rw [c', ct]
      simp [appended_bytes, SbCall.appended]

theorem sb_init_terminated (alloc : Nat → Option Nat) (cap : Nat) (hok : ∀ n, alloc n ≠ none)
    (hcap : 1 ≤ cap) : (sb_init alloc cap).data[(sb_init alloc cap).len]? = some 0 := by
  unfold sb_init
  cases ha : alloc cap with
  | none => exact absurd ha (hok _)
  | some fill =>
    have hlt : 0 < (List.replicate cap fill).length := by simp; omega
    simp only [StrBuf.store, hlt, if_true]
    rw [List.getElem?_set_self (by simpa using hlt)]

/-- C19: from `sb_init` with a capacity of at least 1 and with every allocation
succeeding, after any sequence of `sb_appendf` calls (each formatting to at most
1023 bytes) and `sb_append_escaped` calls the buffer has `len + 1 <= cap`, a block
of `cap` bytes with no store outside it, the NUL byte at `data[len]`, and
`data[0 .. len)` equal to the concatenation, in call order, of the bytes appended
(the escaped form for `sb_append_escaped`). -/
theorem sb_invariant_after_appends (alloc : Nat → Option Nat) (cap : Nat) (calls : List SbCall)
    (hcap : 1 ≤ cap) (hok : ∀ n, alloc n ≠ none) (hfit : formats_fit calls) :
    (sb_calls alloc (sb_init alloc cap) calls).len + 1
        ≤ (sb_calls alloc (sb_init alloc cap) calls).cap ∧
    (sb_calls alloc (sb_init alloc cap) calls).data.length
        = (sb_calls alloc (sb_init alloc cap) calls).cap ∧
    (sb_calls alloc (sb_init alloc cap) calls).oob = [] ∧
    (sb_calls alloc (sb_init alloc cap) calls).data[
        (sb_calls alloc (sb_init alloc cap) calls).len]? = some 0 ∧
    (sb_calls alloc (sb_init alloc cap) calls).data.take
        (sb_calls alloc (sb_init alloc cap) calls).len = appended_bytes calls := by
  obtain ⟨r0, c0⟩ := sb_init_room alloc cap hok hcap
  have z0 := sb_init_terminated alloc cap hok hcap
  obtain ⟨⟨r1, r2, r3⟩, z, c⟩ := sb_calls_invariant alloc calls _ hok hfit r0 z0
  refine ⟨by omega, r1, r3, z, ?_⟩
  have : (sb_calls alloc (sb_init alloc cap) calls).content = appended_bytes calls := by
    rw [c, c0]; rfl
  exact this

/-- Witness for C19: from capacity 1, a formatted text, an escaped string with a
quote and a newline, and another formatted text. -/
theorem sb_invariant_after_appends_witness :
    (sb_calls (fun _ => some 7) (sb_init (fun _ => some 7) 1)
        [SbCall.appendf (bytes "ab"), SbCall.append_escaped (bytes "c\"\nd"),
         SbCall.appendf (bytes "]")]).data.take
      (sb_calls (fun _ => some 7) (sb_init (fun _ => some 7) 1)
        [SbCall.appendf (bytes "ab"), SbCall.append_escaped (bytes "c\"\nd"),
         SbCall.appendf (bytes "]")]).len
      = appended_bytes [SbCall.appendf (bytes "ab"), SbCall.append_escaped (bytes "c\"\nd"),
          SbCall.appendf (bytes "]")] ∧
    appended_bytes [SbCall.appendf (bytes "ab"), SbCall.append_escaped (bytes "c\"\nd"),
        SbCall.appendf (bytes "]")] = bytes "abc\\\"\\nd]" :=
  ⟨(sb_invariant_after_appends (fun _ => some 7) 1
      [SbCall.appendf (bytes "ab"), SbCall.append_escaped (bytes "c\"\nd"),
       SbCall.appendf (bytes "]")] (by decide) (by intro n; simp)
      ⟨by decide, by decide, trivial⟩).2.2.2.2, by decide⟩

/-! ## The comparison of pids -/

/-- C18 as stated fails: for the pids `INT_MIN` and 1 the subtraction wraps to
`INT_MAX`, so `compare_pid` is positive although the first pid is the smaller. -/
theorem compare_pid_wraps :
    compare_pid (record_with_pid (-2147483648)) (record_with_pid 1) = 2147483647 ∧
    (record_with_pid (-2147483648)).pid < (record_with_pid 1).pid := by
  decide

/-- C18 as amended: for records `a` and `b` whose pids differ by a value of `int`,
`-2^31 <= a.pid - b.pid < 2^31`, the result of `compare_pid` is negative, zero or
positive exactly when `a.pid` is less than, equal to or greater than `b.pid`. -/
theorem compare_pid_sign (a b : ProcessInfo)
    (h : -(2 ^ 31) ≤ a.pid - b.pid ∧ a.pid - b.pid < 2 ^ 31) :
    (compare_pid a b < 0 ↔ a.pid < b.pid) ∧
    (compare_pid a b = 0 ↔ a.pid = b.pid) ∧
    (0 < compare_pid a b ↔ b.pid < a.pid) := by
  unfold compare_pid to_int32
  refine ⟨?_, ?_, ?_⟩ <;> constructor <;> intro h' <;> omega

/-- Witness for C18: the pids 7 and 42. -/
theorem compare_pid_sign_witness :
    (compare_pid (record_with_pid 7) (record_with_pid 42) < 0 ↔
      (record_with_pid 7).pid < (record_with_pid 42).pid) ∧
    (compare_pid (record_with_pid 7) (record_with_pid 42) = 0 ↔
      (record_with_pid 7).pid = (record_with_pid 42).pid) ∧
    (0 < compare_pid (record_with_pid 7) (record_with_pid 42) ↔
      (record_with_pid 42).pid < (record_with_pid 7).pid) :=
  compare_pid_sign (record_with_pid 7) (record_with_pid 42) (by decide)

/-! ## The pid member behind another occurrence of the text -/

/-- C17 (the code at the failing input): in the body `{"ppid": 1, "pid": 5}` the
integer member `pid` is 5, but `extract_int_field` returns 1, the number after the
text `pid` inside `ppid`, and `handle_request` calls `kill(1, SIGTERM)`. -/
theorem extract_int_field_takes_ppid :
    extract_int_field (some (bytes "\x7b\"ppid\": 1, \"pid\": 5\x7d")) (bytes "pid") = 1 ∧
    handle_request demo_req_env (bytes "POST") (bytes "/api/kill")
        (some (bytes "\x7b\"ppid\": 1, \"pid\": 5\x7d"))
      = [Effect.kill 1 SIGTERM,
         Effect.respond (bytes "200 OK") (bytes "application/json")
           (bytes "\x7b\"status\":\"terminated\",\"pid\":1\x7d")] := by
  decide

/-! ## Reads behind the terminator of the stat line -/

/-- C16 (the code at the failing input): the stat file holds `1 (a)` and ends
there, so the terminator is at index 5 of `buf`.  `read_stat` succeeds, and its
state and tick counts are those of the stale bytes behind the terminator: with
`buf` formerly holding `9 (b) R 1 2 ... 19` the state is `R` (index 6) and the
ticks are 23 and 19; with `buf` formerly zero they are 0.  The bytes at the indices
6 and 8 and beyond, which are not bytes of the line, decide the result. -/
theorem read_stat_reads_behind_terminator :
    strrchr (bytes "1 (a)" ++ [0]) 41 = some 4 ∧ (bytes "1 (a)").length = 5 ∧
    read_stat (some (bytes "1 (a)"))
        (bytes "9 (b) R 1 2 3 4 5 6 7 8 9 10 11 12 13 14 15 16 17 18 19\n")
      = some { name := bytes "a", state := 82, cpu_ticks := 23, start_ticks := 19 } ∧
    read_stat (some (bytes "1 (a)")) (List.replicate 70 0)
      = some { name := bytes "a", state := 0, cpu_ticks := 0, start_ticks := 0 } := by
  decide

/-! ## The field loop on a line that stops early -/

theorem strtoul_none_of_no_number (p : List Nat)
    (h : begins_with_number (p.dropWhile isspace) = false) : strtoul p = none := by
  unfold strtoul
  generalize p.dropWhile isspace = s at h
  cases s with
  | nil => simp [deref]
  | cons b t =>
    simp only [begins_with_number, Bool.or_eq_false_iff, Bool.and_eq_false_iff] at h
    obtain ⟨hb, hsign⟩ := h
    simp only [deref, List.headD_cons, List.tail_cons]
    by_cases hs : (b == 45 || b == 43) = true
    · have ht : isdigit (deref t) = false := by
        rcases hsign with h1 | h1
        · simp [h1.1, h1.2] at hs
        · exact h1
      have htw : t.takeWhile isdigit = [] := by
        cases t with
        | nil => rfl
        | cons c t' =>
          simp only [deref, List.headD_cons] at ht
          simp [List.takeWhile_cons, ht]
      simp [hs, htw]
    · have htw : (b :: t).takeWhile isdigit = [] := by
        simp [List.takeWhile_cons, hb]
      simp only [hs, Bool.false_eq_true, if_false, htw, if_true]

theorem take_line_full (n : Nat) (l rest : List Nat) (h10 : 10 ∉ l) (hlen : l.length < n) :
    take_line n (l ++ 10 :: rest) = l ++ [10] := by
  induction l generalizing n with
  | nil =>
    cases n with
    | zero => omega
    | succ n => simp [take_line]
  | cons b t ih =>
    cases n with
    | zero => simp at hlen
    | succ n =>
      simp only [List.mem_cons, not_or] at h10
      have hb : ¬ b = 10 := fun e => h10.1 e.symm
      simp only [List.cons_append, take_line, hb, if_false, List.cons.injEq, true_and]
      exact ih n h10.2 (by simpa using hlen)

theorem take_line_rest (n : Nat) (l : List Nat) (h10 : 10 ∉ l) (hlen : l.length ≤ n) :
    take_line n l = l := by
  induction l generalizing n with
  | nil => cases n <;> rfl
  | cons b t ih =>
    cases n with
    | zero => simp at hlen
    | succ n =>
      simp only [List.mem_cons, not_or] at h10
      have hb : ¬ b = 10 := fun e => h10.1 e.symm
      simp only [take_line, hb, if_false, List.cons.injEq, true_and]
      exact ih n h10.2 (by simpa using hlen)

theorem fgets_line (size : Nat) (l rest : List Nat) (h10 : 10 ∉ l) (hlen : l.length + 1 < size) :
    fgets size (l ++ 10 :: rest) = some (l ++ [10]) := by
  unfold fgets
  have hne : l ++ 10 :: rest ≠ [] := by simp
  rw [if_neg hne, take_line_full (size - 1) l rest h10 (by omega)]

theorem fgets_rest (size : Nat) (l : List Nat) (hne : l ≠ []) (h10 : 10 ∉ l)
    (hlen : l.length < size) : fgets size l = some l := by
  unfold fgets
  rw [if_neg hne, take_line_rest (size - 1) l h10 (by omega)]

theorem read_status_loop_chunks (lines : List (List Nat)) (last : List Nat) (fuel : Nat)
    (o : StatusOut)
    (hlines : ∀ l ∈ lines, 10 ∉ l ∧ l.length + 1 < 256)
    (hlast : 10 ∉ last ∧ last.length < 256)
    (hfuel : (join_lines lines ++ last).length ≤ fuel) :
    read_status_loop fuel (join_lines lines ++ last) o
      = (line_chunks lines last).foldl (fun o c => status_line c o) o := by
  induction lines generalizing fuel o with
  | nil =>
    simp only [join_lines, List.nil_append, line_chunks, List.map_nil] at hfuel ⊢
    by_cases hl : last = []
    · subst hl
      cases fuel with
      | zero => rfl
      | succ f => simp [read_status_loop, fgets]
    · cases fuel with
      | zero =>
        have : last.length = 0 := by omega
        exact absurd (List.length_eq_zero.mp this) hl
      | succ f =>
        simp only [read_status_loop, fgets_rest 256 last hl hlast.1 hlast.2, hl, if_false,
          List.drop_length, List.foldl_cons, List.foldl_nil]
        cases f with
        | zero => rfl
        | succ f' => simp [read_status_loop, fgets]
  | cons l ls ih =>
    obtain ⟨h10, hlen⟩ := hlines l (by simp)
    have hstream : join_lines (l :: ls) ++ last = l ++ 10 :: (join_lines ls ++ last) := by
      simp [join_lines]
    rw [hstream] at hfuel ⊢
    cases fuel with
    | zero => simp at hfuel
    | succ f =>
      have hdrop : List.drop (l ++ [10]).length (l ++ 10 :: (join_lines ls ++ last))
          = join_lines ls ++ last := by
        have : l ++ 10 :: (join_lines ls ++ last) = (l ++ [10]) ++ (join_lines ls ++ last) := by
          simp
        rw [this, List.drop_left]
      simp only [read_status_loop, fgets_line 256 l _ h10 hlen, hdrop]
      rw [ih f _ (fun l' hl' => hlines l' (by simp [hl'])) (by
        simp only [List.length_append, List.length_cons] at hfuel ⊢
        omega)]
      simp [line_chunks]

theorem starts_with_newline (key l : List Nat) (hk : 10 ∉ key)
    (h : starts_with key l = false) : starts_with key (l ++ [10]) = false := by
  rw [Bool.eq_false_iff] at h ⊢
  intro hs
  apply h
  obtain ⟨r, hr⟩ := (starts_with_iff _ _).mp hs
  rw [starts_with_iff]
  rcases List.eq_nil_or_concat r with hr0 | ⟨r', x, hrx⟩
  · subst hr0
    exfalso
    apply hk
    have : key = l ++ [10] := by simpa using hr.symm
    rw [this]; simp
  · subst hrx
    have : l ++ [10] = (key ++ r') ++ [x] := by rw [hr]; simp
    have h2 := List.append_inj_left' this rfl
    exact ⟨r', h2⟩

theorem status_line_frame (c : List Nat) (o : StatusOut) :
    (starts_with (bytes "VmSize:") c = false → (status_line c o).vmsize_kb = o.vmsize_kb) ∧
    (starts_with (bytes "VmRSS:") c = false → (status_line c o).vmrss_kb = o.vmrss_kb) ∧
    (starts_with (bytes "Uid:") c = false → (status_line c o).uid = o.uid) := by
  unfold status_line
  refine ⟨?_, ?_, ?_⟩
  · intro h
    rw [h]
    simp only [Bool.false_eq_true, if_false]
    split
    · split <;> rfl
    · split <;> rfl
  · intro h
    rw [h]
    split
    · split <;> rfl
    · simp only [Bool.false_eq_true, if_false]
      split <;> rfl
  · intro h
    rw [h]
    split
    · split <;> rfl
    · split
      · split <;> rfl
      · rfl

theorem status_fold_frame (chunks : List (List Nat)) (o : StatusOut) :
    ((∀ c ∈ chunks, starts_with (bytes "VmSize:") c = false) →
      (chunks.foldl (fun o c => status_line c o) o).vmsize_kb = o.vmsize_kb) ∧
    ((∀ c ∈ chunks, starts_with (bytes "VmRSS:") c = false) →
      (chunks.foldl (fun o c => status_line c o) o).vmrss_kb = o.vmrss_kb) ∧
    ((∀ c ∈ chunks, starts_with (bytes "Uid:") c = false) →
      (chunks.foldl (fun o c => status_line c o) o).uid = o.uid) := by
  induction chunks generalizing o with
  | nil => simp
  | cons c cs ih =>
    obtain ⟨i1, i2, i3⟩ := ih (status_line c o)
    obtain ⟨f1, f2, f3⟩ := status_line_frame c o
    refine ⟨?_, ?_, ?_⟩
    · intro h
      rw [List.foldl_cons, i1 (fun c' hc' => h c' (by simp [hc'])), f1 (h c (by simp))]
    · intro h
      rw [List.foldl_cons, i2 (fun c' hc' => h c' (by simp [hc'])), f2 (h c (by simp))]
    · intro h
      rw [List.foldl_cons, i3 (fun c' hc' => h c' (by simp [hc'])), f3 (h c (by simp))]

theorem line_chunks_no_key (key : List Nat) (hk : 10 ∉ key) (lines : List (List Nat))
    (last : List Nat) (h : ∀ l ∈ lines ++ [last], starts_with key l = false) :
    ∀ c ∈ line_chunks lines last, starts_with key c = false := by
  intro c hc
  unfold line_chunks at hc
  rcases List.mem_append.mp hc with hc | hc
  · obtain ⟨l, hl, rfl⟩ := List.mem_map.mp hc
    exact starts_with_newline key l hk (h l (by simp [hl]))
  · split at hc
    · cases hc
    · simp only [List.mem_singleton] at hc
      subst hc
      exact h c (by simp)

theorem strtoul_skip_space (ws p : List Nat) (hws : ∀ b ∈ ws, isspace b = true) :
    strtoul (ws ++ p) = strtoul p := by
  unfold strtoul
  rw [dropWhile_append_all isspace ws p hws]

theorem status_line_uid (ws rest : List Nat) (n : Nat) (o : StatusOut)
    (hws : ∀ b ∈ ws, isspace b = true) (hrest : isdigit (deref rest) = false)
    (hn : n < 2 ^ 64) :
    status_line (bytes "Uid:" ++ ws ++ dec n ++ rest ++ [10]) o
      = { o with uid := n % 2 ^ 32 } := by
  have hb : bytes "Uid:" = [85, 105, 100, 58] := by decide
  have h1 : starts_with (bytes "VmSize:") (bytes "Uid:" ++ ws ++ dec n ++ rest ++ [10]) = false := by
    have : bytes "VmSize:" = [86, 109, 83, 105, 122, 101, 58] := by decide
    simp [starts_with, hb, this]
  have h2 : starts_with (bytes "VmRSS:") (bytes "Uid:" ++ ws ++ dec n ++ rest ++ [10]) = false := by
    have : bytes "VmRSS:" = [86, 109, 82, 83, 83, 58] := by decide
    simp [starts_with, hb, this]
  have h3 : starts_with (bytes "Uid:") (bytes "Uid:" ++ ws ++ dec n ++ rest ++ [10]) = true := by
    rw [starts_with_iff]
    exact ⟨ws ++ dec n ++ rest ++ [10], by simp⟩
  have hdrop : List.drop 4 (bytes "Uid:" ++ ws ++ dec n ++ rest ++ [10])
      = ws ++ (dec n ++ (rest ++ [10])) := by
    simp [hb]
  have hr : isdigit (deref (rest ++ [10])) = false := by
    cases rest with
    | nil => decide
    | cons b t => simpa [deref] using hrest
  have hv : scan_ulong (ws ++ (dec n ++ (rest ++ [10]))) = some n := by
    unfold scan_ulong
    rw [strtoul_skip_space ws _ hws, strtoul_dec n _ hr]
    have hmin : min n ULONG_MAX = n := by unfold ULONG_MAX; omega
    simp [hmin]
  unfold status_line
  simp only [h1, h2, h3, Bool.false_eq_true, if_false, if_true, hdrop, hv, Option.getD_some]

/-- C14: for a status text whose lines are shorter than 256 bytes,
`read_status_info` leaves the virtual size as it was unless a line begins with
`VmSize:`, the resident size unless a line begins with `VmRSS:`, and the owner id
unless a line begins with `Uid:`; a text without these keys changes nothing.  The
owner id after a line `Uid:`, white space, a decimal number and further text (with
no later `Uid:` line) is that first number, as `uid_t`. -/
theorem read_status_info_frame (lines : List (List Nat)) (last : List Nat) (o : StatusOut)
    (hlines : ∀ l ∈ lines, 10 ∉ l ∧ l.length + 1 < 256)
    (hlast : 10 ∉ last ∧ last.length < 256) :
    ((∀ l ∈ lines ++ [last], starts_with (bytes "VmSize:") l = false) →
      (read_status_info (some (join_lines lines ++ last)) o).vmsize_kb = o.vmsize_kb) ∧
    ((∀ l ∈ lines ++ [last], starts_with (bytes "VmRSS:") l = false) →
      (read_status_info (some (join_lines lines ++ last)) o).vmrss_kb = o.vmrss_kb) ∧
    ((∀ l ∈ lines ++ [last], starts_with (bytes "Uid:") l = false) →
      (read_status_info (some (join_lines lines ++ last)) o).uid = o.uid) ∧
    ((∀ l ∈ lines ++ [last], starts_with (bytes "VmSize:") l = false ∧
        starts_with (bytes "VmRSS:") l = false ∧ starts_with (bytes "Uid:") l = false) →
      read_status_info (some (join_lines lines ++ last)) o = o) ∧
    (∀ (A B : List (List Nat)) (ws rest : List Nat) (n : Nat),
      lines = A ++ (bytes "Uid:" ++ ws ++ dec n ++ rest) :: B →
      (∀ b ∈ ws, isspace b = true) → isdigit (deref rest) = false → n < 2 ^ 64 →
      (∀ l ∈ B ++ [last], starts_with (bytes "Uid:") l = false) →
      (read_status_info (some (join_lines lines ++ last)) o).uid = n % 2 ^ 32) := by
  have hloop : read_status_info (some (join_lines lines ++ last)) o
      = (line_chunks lines last).foldl (fun o c => status_line c o) o := by
    unfold read_status_info
    exact read_status_loop_chunks lines last _ o hlines hlast (le_refl _)
  rw [hloop]
  obtain ⟨f1, f2, f3⟩ := status_fold_frame (line_chunks lines last) o
  have k1 : 10 ∉ bytes "VmSize:" := by decide
  have k2 : 10 ∉ bytes "VmRSS:" := by decide
  have k3 : 10 ∉ bytes "Uid:" := by decide
  refine ⟨fun h => f1 (line_chunks_no_key _ k1 lines last h),
    fun h => f2 (line_chunks_no_key _ k2 lines last h),
    fun h => f3 (line_chunks_no_key _ k3 lines last h), ?_, ?_⟩
  · intro h
    have e1 := f1 (line_chunks_no_key _ k1 lines last (fun l hl => (h l hl).1))
    have e2 := f2 (line_chunks_no_key _ k2 lines last (fun l hl => (h l hl).2.1))
    have e3 := f3 (line_chunks_no_key _ k3 lines last (fun l hl => (h l hl).2.2))
    generalize (line_chunks lines last).foldl (fun o c => status_line c o) o = r at e1 e2 e3
    cases r; cases o
    simp only at e1 e2 e3
    simp [e1, e2, e3]
  · intro A B ws rest n hl hws hrest hn hB
    have hchunks : line_chunks lines last
        = line_chunks A [] ++ (bytes "Uid:" ++ ws ++ dec n ++ rest ++ [10]) :: line_chunks B last := by
      simp [line_chunks, hl]
    rw [hchunks, List.foldl_append, List.foldl_cons, status_line_uid ws rest n _ hws hrest hn]
    obtain ⟨_, _, g3⟩ := status_fold_frame (line_chunks B last)
      { (line_chunks A []).foldl (fun o c => status_line c o) o with uid := n % 2 ^ 32 }
    rw [g3 (line_chunks_no_key _ k3 B last hB)]

/-- Witness for C14: a text with a `Name:` and a `Uid:` line; the sizes stay, the
owner id is the first number of the `Uid:` line. -/
theorem read_status_info_frame_witness :
    (read_status_info (some (join_lines [bytes "Name:\tsh", bytes "Uid:\t1000\t1001"] ++ []))
        { vmsize_kb := 5, vmrss_kb := 6, uid := 7 }).vmsize_kb = 5 ∧
    (read_status_info (some (join_lines [bytes "Name:\tsh", bytes "Uid:\t1000\t1001"] ++ []))
        { vmsize_kb := 5, vmrss_kb := 6, uid := 7 }).uid = 1000 % 2 ^ 32 :=
  have h := read_status_info_frame [bytes "Name:\tsh", bytes "Uid:\t1000\t1001"] []
    { vmsize_kb := 5, vmrss_kb := 6, uid := 7 } (by decide) (by decide)
  ⟨h.1 (by decide),
   h.2.2.2.2 [bytes "Name:\tsh"] [] (bytes "\t") (bytes "\t1001") 1000 (by decide) (by decide)
     (by decide) (by decide) (by decide)⟩

/-! ## Fields and the conversions of `sscanf` -/

theorem tokch_iff (b : Nat) : tokch b = true ↔ b ≠ 0 ∧ isspace b = false := by
  simp [tokch]

theorem split_ws_token (b : Nat) (t : List Nat) (hb : tokch b = true) :
    split_ws (b :: t) = (b :: t.takeWhile tokch) :: split_ws (t.dropWhile tokch) := by
  obtain ⟨hb0, hbs⟩ := (tokch_iff b).mp hb
  induction t generalizing b with
  | nil => simp [split_ws, hb0, hbs]
  | cons c t' ih =>
    by_cases hc : tokch c = true
    · obtain ⟨hc0, hcs⟩ := (tokch_iff c).mp hc
      have := ih c hc hc0 hcs
      rw [split_ws]
      simp only [hb0, hbs, if_false, Bool.false_eq_true, this, deref, List.headD_cons, hc, if_true,
        List.takeWhile_cons, List.dropWhile_cons]
    · have hcf : tokch c = false := by simpa using hc
      rw [split_ws]
      simp only [hb0, hbs, if_false, Bool.false_eq_true, deref, List.headD_cons, hcf,
        List.takeWhile_cons, List.dropWhile_cons]
      cases split_ws (c :: t') <;> rfl

theorem split_ws_skip (p : List Nat) : split_ws (p.dropWhile isspace) = split_ws p := by
  induction p with
  | nil => rfl
  | cons b t ih =>
    by_cases hs : isspace b = true
    · have hb0 : b ≠ 0 := by
        intro h; subst h; exact absurd hs (by decide)
      simp only [List.dropWhile_cons, hs, if_true, split_ws, hb0, if_false, ih]
    · simp [List.dropWhile_cons, hs]

/-- The first field of the input: the input without its leading white space is the
field followed by a rest that does not continue it. -/
theorem first_field (p t : List Nat) (ts : List (List Nat)) (h : split_ws p = t :: ts) :
    ∃ q, p.dropWhile isspace = t ++ q ∧ t ≠ [] ∧ (∀ b ∈ t, tokch b = true) ∧
      tokch (deref q) = false ∧ split_ws q = ts := by
  rw [← split_ws_skip] at h
  have hhead : ∀ b r, p.dropWhile isspace = b :: r → isspace b = false := by
    intro b r hbr
    have := List.head_dropWhile_not isspace p (by rw [hbr]; simp)
    simpa [hbr] using this
  cases hs : p.dropWhile isspace with
  | nil => rw [hs] at h; simp [split_ws] at h
  | cons b r =>
    rw [hs] at h
    have hbs := hhead b r hs
    by_cases hb0 : b = 0
    · subst hb0; simp [split_ws] at h
    · have hb : tokch b = true := (tokch_iff b).mpr ⟨hb0, hbs⟩
      rw [split_ws_token b r hb] at h
      simp only [List.cons.injEq] at h
      obtain ⟨ht, hts⟩ := h
      refine ⟨r.dropWhile tokch, ?_, ?_, ?_, ?_, hts⟩
      · rw [← ht]; simp [List.takeWhile_append_dropWhile]
      · rw [← ht]; simp
      · intro x hx
        rw [← ht] at hx
        rcases List.mem_cons.mp hx with hx | hx
        · rw [hx]; exact hb
        · exact (List.mem_takeWhile_imp hx)
      · cases hd : r.dropWhile tokch with
        | nil => rfl
        | cons c r' =>
          have := List.head_dropWhile_not tokch r (by rw [hd]; simp)
          simpa [hd, deref] using this

theorem no_field (p : List Nat) (h : split_ws p = []) :
    tokch (deref (p.dropWhile isspace)) = false := by
  rw [← split_ws_skip] at h
  cases hs : p.dropWhile isspace with
  | nil => rfl
  | cons b r =>
    rw [hs] at h
    by_cases hb : tokch b = true
    · rw [split_ws_token b r hb] at h; cases h
    · simpa [deref] using hb

theorem takeWhile_field (t q : List Nat) (ht : ∀ b ∈ t, tokch b = true)
    (hq : tokch (deref q) = false) :
    (t ++ q).takeWhile (fun b => b != 0 && !isspace b) = t := by
  induction t with
  | nil =>
    cases q with
    | nil => rfl
    | cons c q' =>
      have : (c != 0 && !isspace c) = false := by simpa [deref, tokch] using hq
      simp [List.takeWhile_cons, this]
  | cons b t ih =>
    have hb : (b != 0 && !isspace b) = true := by simpa [tokch] using ht b (by simp)
    simp only [List.cons_append, List.takeWhile_cons, hb, if_true]
    rw [ih (fun x hx => ht x (by simp [hx]))]

theorem scan_str_none (w : Nat) (p : List Nat) (h : split_ws p = []) : scan_str w p = none := by
  have hq := no_field p h
  have := takeWhile_field [] (p.dropWhile isspace) (by simp) hq
  simp only [List.nil_append] at this
  simp [scan_str, this]

theorem scan_str_field (w : Nat) (p t : List Nat) (ts : List (List Nat))
    (h : split_ws p = t :: ts) (hw : 1 ≤ w) :
    ∃ p', scan_str w p = some (t.take w, p') ∧ (t.length ≤ w → split_ws p' = ts) := by
  obtain ⟨q, hs, hne, htok, hq, hts⟩ := first_field p t ts h
  have htw := takeWhile_field t q htok hq
  have hne' : t.take w ≠ [] := by
    cases t with
    | nil => exact absurd rfl hne
    | cons b t' =>
      cases w with
      | zero => omega
      | succ w' => simp
  refine ⟨(t ++ q).drop (t.take w).length, ?_, ?_⟩
  · simp [scan_str, hs, htw, hne']
  · intro hl
    rw [List.take_of_length_le hl, List.drop_left]
    exact hts

theorem tokch_false_not_digit (b : Nat) (h : tokch b = false) : isdigit b = false := by
  by_contra hd
  have hd' : isdigit b = true := by simpa using hd
  have hsp := isdigit_not_space b hd'
  have hb : 48 ≤ b := by
    simp only [isdigit, Bool.and_eq_true, decide_eq_true_eq] at hd'
    exact hd'.1
  have : tokch b = true := (tokch_iff b).mpr ⟨by omega, hsp⟩
  rw [this] at h; cases h

theorem scan_long_rest_none (p : List Nat)
    (h : begins_with_number (p.dropWhile isspace) = false) : scan_long_rest p = none := by
  have hn := strtoul_none_of_no_number p h
  have key : List.takeWhile isdigit
      (if (deref (p.dropWhile isspace) == 45 || deref (p.dropWhile isspace) == 43) = true
        then (p.dropWhile isspace).tail else p.dropWhile isspace) = [] := by
    by_contra hds
    unfold strtoul at hn
    simp only at hn
    rw [if_neg hds] at hn
    cases hn
  unfold scan_long_rest
  simp only
  rw [if_pos key]

theorem begins_with_number_field (t q : List Nat) (hne : t ≠ [])
    (hq : tokch (deref q) = false) : begins_with_number (t ++ q) = begins_with_number t := by
  cases t with
  | nil => exact absurd rfl hne
  | cons b r =>
    cases r with
    | nil =>
      simp only [List.cons_append, List.nil_append, begins_with_number,
        tokch_false_not_digit _ hq]
      simp [deref, isdigit]
    | cons c r' => rfl

theorem scan_long_rest_no_field (p : List Nat) (h : split_ws p = []) :
    scan_long_rest p = none := by
  apply scan_long_rest_none
  have hq := no_field p h
  cases hs : p.dropWhile isspace with
  | nil => rfl
  | cons b r =>
    rw [hs] at hq
    simp only [deref, List.headD_cons] at hq
    have hd := tokch_false_not_digit b hq
    have hsign : (b == 45 || b == 43) = false := by
      cases hcase : (b == 45 || b == 43) with
      | false => rfl
      | true =>
        simp only [Bool.or_eq_true, beq_iff_eq] at hcase
        have : tokch b = true := by
          rcases hcase with e | e <;> subst e <;> decide
        rw [this] at hq; cases hq
    simp [begins_with_number, hd, hsign]

theorem scan_long_rest_not_number (p t : List Nat) (ts : List (List Nat))
    (h : split_ws p = t :: ts) (hb : begins_with_number t = false) :
    scan_long_rest p = none := by
  obtain ⟨q, hs, hne, _, hq, _⟩ := first_field p t ts h
  apply scan_long_rest_none
  rw [hs, begins_with_number_field t q hne hq]
  exact hb

theorem all_digits_of_all (ds : List Nat) (h : ds.all isdigit = true) :
    ∀ d ∈ ds, isdigit d = true := by
  simpa [List.all_eq_true] using h

theorem scan_long_rest_number (p t : List Nat) (ts : List (List Nat))
    (h : split_ws p = t :: ts) (hn : is_number t = true)
    (hv : LONG_MIN ≤ number_value t ∧ number_value t ≤ LONG_MAX) :
    ∃ q, scan_long_rest p = some (number_value t, q) ∧ split_ws q = ts := by
  obtain ⟨q, hs, hne, htok, hq, hts⟩ := first_field p t ts h
  have hqd := tokch_false_not_digit _ hq
  refine ⟨q, ?_, hts⟩
  cases t with
  | nil => exact absurd rfl hne
  | cons b r =>
    unfold LONG_MIN LONG_MAX at hv
    by_cases hsign : (b == 45 || b == 43) = true
    · simp only [is_number, hsign, if_true, Bool.and_eq_true, Bool.not_eq_true',
        List.isEmpty_eq_false] at hn
      obtain ⟨hrne, hall⟩ := hn
      have hrne' : r ≠ [] := by
        intro e; subst e; simp at hrne
      have htw := takeWhile_digits r q (all_digits_of_all r hall) hqd
      unfold scan_long_rest strtol_value
      simp only [hs, List.cons_append, deref, List.headD_cons, hsign, if_true, List.tail_cons,
        htw, hrne', if_false, List.drop_left, Option.some.injEq, Prod.mk.injEq, and_true]
      unfold LONG_MIN LONG_MAX
      by_cases h45 : b = 45
      · subst h45
        simp only [number_value, beq_self_eq_true, if_true] at hv ⊢
        split
        · omega
        · split <;> omega
      · have h43 : b = 43 := by
          simp only [Bool.or_eq_true, beq_iff_eq] at hsign
          rcases hsign with e | e
          · exact absurd e h45
          · exact e
        subst h43
        simp only [number_value, show ((43 : Nat) == 45) = false by decide,
          beq_self_eq_true, Bool.false_eq_true, if_false, if_true] at hv ⊢
        split
        · omega
        · split <;> omega
    · have hsign' : (b == 45 || b == 43) = false := by simpa using hsign
      simp only [is_number, hsign', Bool.false_eq_true, if_false] at hn
      have htw := takeWhile_digits (b :: r) q (all_digits_of_all _ hn) hqd
      have h45 : (b == 45) = false := by
        simp only [Bool.or_eq_false_iff] at hsign'; exact hsign'.1
      have h43 : (b == 43) = false := by
        simp only [Bool.or_eq_false_iff] at hsign'; exact hsign'.2
      simp only [List.cons_append] at htw
      unfold scan_long_rest strtol_value
      simp only [hs, List.cons_append, deref, List.headD_cons, h45, h43, Bool.or_self,
        Bool.false_eq_true, if_false, htw, reduceCtorEq, Option.some.injEq, Prod.mk.injEq]
      constructor
      · simp only [number_value, h45, h43, Bool.false_eq_true, if_false] at hv ⊢
        unfold LONG_MIN LONG_MAX
        split
        · omega
        · split <;> omega
      · have : b :: (r ++ q) = (b :: r) ++ q := rfl
        rw [this, List.drop_left]

theorem is_number_begins (t : List Nat) (h : is_number t = true) :
    begins_with_number t = true := by
  cases t with
  | nil => simp [is_number] at h
  | cons b r =>
    by_cases hsign : (b == 45 || b == 43) = true
    · simp only [is_number, hsign, if_true, Bool.and_eq_true, Bool.not_eq_true',
        List.isEmpty_eq_false] at h
      cases r with
      | nil => simp at h
      | cons c r' =>
        have hc : isdigit c = true := all_digits_of_all _ h.2 c (by simp)
        simp [begins_with_number, hsign, deref, hc]
    · have hsign' : (b == 45 || b == 43) = false := by simpa using hsign
      simp only [is_number, hsign', Bool.false_eq_true, if_false] at h
      have hb : isdigit b = true := all_digits_of_all _ h b (by simp)
      simp [begins_with_number, hb]

theorem ps_sscanf_four (sd : List Nat → Option (Dbl × List Nat))
    (c user p1 p2 comm p3 state p4 : List Nat) (pid : Int)
    (h1 : scan_str 63 c = some (user, p1)) (h2 : scan_int p1 = some (pid, p2))
    (h3 : scan_str 255 p2 = some (comm, p3)) (h4 : scan_str 31 p3 = some (state, p4)) :
    4 ≤ (ps_sscanf sd c).fields ∧ (ps_sscanf sd c).user = user ∧ (ps_sscanf sd c).pid = pid ∧
      (ps_sscanf sd c).comm = comm ∧ (ps_sscanf sd c).state = state := by
  unfold ps_sscanf
  simp only [h1, h2, h3, h4]
  cases scan_long_rest p4 with
  | none => simp
  | some r5 =>
    obtain ⟨rss, p5⟩ := r5
    simp only
    cases scan_long_rest p5 with
    | none => simp
    | some r6 =>
      obtain ⟨vsz, p6⟩ := r6
      simp only
      cases sd p6 with
      | none => simp
      | some r7 =>
        obtain ⟨pcpu, p7⟩ := r7
        simp only
        cases sd p7 with
        | none => simp
        | some r8 => simp

theorem ps_record_of_fields (sd : List Nat → Option (Dbl × List Nat)) (c : List Nat)
    (h : (ps_sscanf sd c).fields < 4) : ps_record sd c = none := by
  simp [ps_record, h]

/-- A line whose fields fit yields a record exactly when it is well formed, and
the record holds the first four fields. -/
theorem ps_record_spec (sd : List Nat → Option (Dbl × List Nat)) (c : List Nat)
    (hfit : ps_fits c) :
    (ps_record sd c).isSome = ps_well_formed c ∧
    ∀ r, ps_record sd c = some r →
      0 < r.pid ∧ r.pid = number_value ((split_ws c).getD 1 []) ∧
      r.user = (split_ws c).getD 0 [] ∧ r.name = (split_ws c).getD 2 [] ∧
      r.state = deref ((split_ws c).getD 3 []) := by
  obtain ⟨hf1, hf3, hf2⟩ := hfit
  have hnone : ∀ {P : ProcessInfo → Prop}, ps_record sd c = none →
      ps_well_formed c = false →
      (ps_record sd c).isSome = ps_well_formed c ∧ ∀ r, ps_record sd c = some r → P r := by
    intro P h1 h2
    rw [h1, h2]
    exact ⟨rfl, fun r hr => by cases hr⟩
  cases htoks : split_ws c with
  | nil =>
    apply hnone
    · apply ps_record_of_fields
      simp [ps_sscanf, scan_str_none 63 c htoks]
    · simp [ps_well_formed, htoks]
  | cons t1 ts1 =>
    rw [htoks] at hf1 hf2 hf3
    simp only [List.getD_cons_zero, List.getD_cons_succ] at hf1 hf2 hf3
    obtain ⟨p1, hs1, hp1⟩ := scan_str_field 63 c t1 ts1 htoks (by decide)
    have hp1 := hp1 hf1
    rw [List.take_of_length_le hf1] at hs1
    obtain ⟨_, _, hne1, htok1, _, _⟩ := first_field c t1 ts1 htoks
    cases ts1 with
    | nil =>
      apply hnone
      · apply ps_record_of_fields
        simp [ps_sscanf, hs1, scan_int, scan_long_rest_no_field p1 hp1]
      · simp [ps_well_formed, htoks]
    | cons t2 ts2 =>
      simp only [List.getD_cons_zero, List.getD_cons_succ] at hf2 hf3
      by_cases hb : begins_with_number t2 = true
      · obtain ⟨hnum, hlo, hhi⟩ := hf2 hb
        obtain ⟨p2, hs2, hp2⟩ := scan_long_rest_number p1 t2 ts2 hp1 hnum
          (by unfold LONG_MIN LONG_MAX; omega)
        have hi2 : scan_int p1 = some (number_value t2, p2) := by
          simp only [scan_int, hs2, Option.map_some', to_int32, Option.some.injEq, Prod.mk.injEq,
            and_true]
          omega
        cases ts2 with
        | nil =>
          apply hnone
          · apply ps_record_of_fields
            simp [ps_sscanf, hs1, hi2, scan_str_none 255 p2 hp2]
          · simp [ps_well_formed, htoks]
        | cons t3 ts3 =>
          simp only [List.getD_cons_zero, List.getD_cons_succ] at hf3
          obtain ⟨p3, hs3, hp3⟩ := scan_str_field 255 p2 t3 ts3 hp2 (by decide)
          have hp3 := hp3 hf3
          rw [List.take_of_length_le hf3] at hs3
          obtain ⟨_, _, hne3, htok3, _, _⟩ := first_field p2 t3 ts3 hp2
          cases ts3 with
          | nil =>
            apply hnone
            · apply ps_record_of_fields
              simp [ps_sscanf, hs1, hi2, hs3, scan_str_none 31 p3 hp3]
            · simp [ps_well_formed, htoks]
          | cons t4 ts4 =>
            obtain ⟨p4, hs4, _⟩ := scan_str_field 31 p3 t4 ts4 hp3 (by decide)
            obtain ⟨_, _, hne4, htok4, _, _⟩ := first_field p3 t4 ts4 hp3
            obtain ⟨g0, g1, g2, g3, g4⟩ := ps_sscanf_four sd c t1 p1 p2 t3 p3 (t4.take 31) p4
              (number_value t2) hs1 hi2 hs3 hs4
            have hwf : ps_well_formed c = decide (0 < number_value t2) := by
              simp [ps_well_formed, htoks, hnum]
            have hnf : ¬ (ps_sscanf sd c).fields < 4 := by omega
            by_cases hpos : 0 < number_value t2
            · have hrec : ps_record sd c = some
                  { pid := number_value t2, name := snprintf 256 t3, user := snprintf 64 t1,
                    state := if deref (t4.take 31) ≠ 0 then deref (t4.take 31) else 32,
                    vmsize_kb := (ps_sscanf sd c).vsz, vmrss_kb := (ps_sscanf sd c).rss,
                    cpu_percent := (ps_sscanf sd c).pcpu,
                    mem_percent := (ps_sscanf sd c).pmem } := by
                have hnp : ¬ (ps_sscanf sd c).pid ≤ 0 := by rw [g2]; omega
                have hor : ¬ ((ps_sscanf sd c).fields < 4 ∨ (ps_sscanf sd c).pid ≤ 0) := by
                  rintro (h | h)
                  · exact hnf h
                  · exact hnp h
                unfold ps_record
                simp only
                rw [if_neg hor, g1, g2, g3, g4]
              have h0 : ∀ (t : List Nat), (∀ b ∈ t, tokch b = true) → 0 ∉ t := by
                intro t ht h0
                have := ht 0 h0
                exact absurd this (by decide)
              have hu : snprintf 64 t1 = t1 := by
                unfold snprintf
                rw [List.take_of_length_le (by omega), cstr_eq_self t1 (h0 t1 htok1)]
              have hnm : snprintf 256 t3 = t3 := by
                unfold snprintf
                rw [List.take_of_length_le (by omega), cstr_eq_self t3 (h0 t3 htok3)]
              have hst : (if deref (t4.take 31) ≠ 0 then deref (t4.take 31) else 32) = deref t4 := by
                cases t4 with
                | nil => exact absurd rfl hne4
                | cons b r =>
                  have hb0 : b ≠ 0 := ((tokch_iff b).mp (htok4 b (by simp))).1
                  simp [deref, hb0]
              rw [hrec, hwf, hu, hnm, hst]
              refine ⟨by simp [hpos], ?_⟩
              intro r hr
              simp only [Option.some.injEq] at hr
              subst hr
              exact ⟨hpos, rfl, rfl, rfl, rfl⟩
            · apply hnone
              · have hnp : (ps_sscanf sd c).pid ≤ 0 := by rw [g2]; omega
                simp [ps_record, hnp]
              · rw [hwf]; simp [hpos]
      · have hb' : begins_with_number t2 = false := by simpa using hb
        apply hnone
        · apply ps_record_of_fields
          simp [ps_sscanf, hs1, scan_int, scan_long_rest_not_number p1 t2 ts2 hp1 hb']
        · have hnn : is_number t2 = false := by
            by_contra hc
            have hc' : is_number t2 = true := by simpa using hc
            rw [is_number_begins t2 hc'] at hb'
            cases hb'
          cases ts2 with
          | nil => simp [ps_well_formed, htoks]
          | cons t3 ts3 =>
            cases ts3 with
            | nil => simp [ps_well_formed, htoks]
            | cons t4 ts4 => simp [ps_well_formed, htoks, hnn]

/-! ## `collect_processes_ps` line by line -/

theorem ps_loop_chunks (sd : List Nat → Option (Dbl × List Nat)) (realloc_ok : Nat → Bool)
    (lines : List (List Nat)) (last : List Nat) (fuel cap : Nat) (list : List ProcessInfo)
    (hlines : ∀ l ∈ lines, 10 ∉ l ∧ l.length + 1 < 512)
    (hlast : 10 ∉ last ∧ last.length < 512)
    (hok : ∀ n, realloc_ok n = true)
    (hfuel : (join_lines lines ++ last).length ≤ fuel) :
    ps_loop sd realloc_ok fuel (join_lines lines ++ last) cap list
      = list ++ (line_chunks lines last).filterMap (ps_record sd) := by
  induction lines generalizing fuel cap list with
  | nil =>
    simp only [join_lines, List.nil_append, line_chunks, List.map_nil] at hfuel ⊢
    by_cases hl : last = []
    · subst hl
      cases fuel with
      | zero => simp [ps_loop]
      | succ f => simp [ps_loop, fgets]
    · cases fuel with
      | zero =>
        have : last.length = 0 := by omega
        exact absurd (List.length_eq_zero.mp this) hl
      | succ f =>
        have hend : ∀ cap' list', ps_loop sd realloc_ok f [] cap' list' = list' := by
          intro cap' list'
          cases f with
          | zero => rfl
          | succ f' => simp [ps_loop, fgets]
        simp only [ps_loop, fgets_rest 512 last hl hlast.1 hlast.2, hl, if_false,
          List.drop_length, hok, if_true, hend, List.filterMap_cons, List.filterMap_nil]
        cases ps_record sd last with
        | none => simp
        | some info => simp
  | cons l ls ih =>
    obtain ⟨h10, hlen⟩ := hlines l (by simp)
    have hstream : join_lines (l :: ls) ++ last = l ++ 10 :: (join_lines ls ++ last) := by
      simp [join_lines]
    rw [hstream] at hfuel ⊢
    cases fuel with
    | zero => simp at hfuel
    | succ f =>
      have hdrop : List.drop (l ++ [10]).length (l ++ 10 :: (join_lines ls ++ last))
          = join_lines ls ++ last := by
        have : l ++ 10 :: (join_lines ls ++ last) = (l ++ [10]) ++ (join_lines ls ++ last) := by
          simp
        rw [this, List.drop_left]
      have hf : (join_lines ls ++ last).length ≤ f := by
        simp only [List.length_append, List.length_cons] at hfuel ⊢
        omega
      have hls : ∀ l' ∈ ls, 10 ∉ l' ∧ l'.length + 1 < 512 :=
        fun l' hl' => hlines l' (by simp [hl'])
      have hch : line_chunks (l :: ls) last = (l ++ [10]) :: line_chunks ls last := by
        simp [line_chunks]
      simp only [ps_loop, fgets_line 512 l _ h10 hlen, hdrop, hok, if_true, hch,
        List.filterMap_cons]
      cases ps_record sd (l ++ [10]) with
      | none => simp only [ih f cap list hls hf]
      | some info =>
        simp only [ih f _ _ hls hf]
        split <;> simp

theorem length_filterMap_countP (f : List Nat → Option ProcessInfo) (g : List Nat → Bool)
    (l : List (List Nat)) (h : ∀ c ∈ l, (f c).isSome = g c) :
    (l.filterMap f).length = l.countP g := by
  induction l with
  | nil => rfl
  | cons c cs ih =>
    have hc := h c (by simp)
    have := ih (fun c' hc' => h c' (by simp [hc']))
    rw [List.filterMap_cons, List.countP_cons]
    cases hfc : f c with
    | none =>
      rw [hfc] at hc
      simp only [Option.isSome_none] at hc
      simp [← hc, this]
    | some r =>
      rw [hfc] at hc
      simp only [Option.isSome_some] at hc
      simp [← hc, this]

/-- C12 as stated fails: the line `root 12abc S` has three fields and its second
field is not a decimal number, and `collect_processes_ps` returns a record for it:
`%d` takes `12`, `%255s` takes `abc` as the command and `%31s` takes `S`. -/
theorem collect_processes_ps_accepts_three_fields :
    split_ws (bytes "root 12abc S\n") = [bytes "root", bytes "12abc", bytes "S"] ∧
    (collect_processes_ps (fun _ => none) (fun _ => true) (some (bytes "root 12abc S\n"))
        true).map (fun list => list.map (fun r => (r.pid, r.name, r.state)))
      = some [(12, bytes "abc", 83)] := by
  decide

/-- C12 as amended: for an output of the utility whose lines are shorter than 512
bytes and whose fields fit the conversions of line 299 (`ps_fits`), with
allocations succeeding, `collect_processes_ps` returns, in input order, exactly one
record for each well-formed line (at least four fields, the second a positive
decimal number) and none for any other line, so the count is the number of
well-formed lines; the record of a line holds its first four fields. -/
theorem collect_processes_ps_well_formed_lines (sd : List Nat → Option (Dbl × List Nat))
    (realloc_ok : Nat → Bool) (lines : List (List Nat)) (last : List Nat)
    (hlines : ∀ l ∈ lines, 10 ∉ l ∧ l.length + 1 < 512)
    (hlast : 10 ∉ last ∧ last.length < 512)
    (hok : ∀ n, realloc_ok n = true)
    (hfit : ∀ c ∈ line_chunks lines last, ps_fits c) :
    collect_processes_ps sd realloc_ok (some (join_lines lines ++ last)) true
      = some ((line_chunks lines last).filterMap (ps_record sd)) ∧
    ((line_chunks lines last).filterMap (ps_record sd)).length
      = (line_chunks lines last).countP ps_well_formed ∧
    ∀ c ∈ line_chunks lines last,
      (ps_record sd c).isSome = ps_well_formed c ∧
      ∀ r, ps_record sd c = some r →
        0 < r.pid ∧ r.pid = number_value ((split_ws c).getD 1 []) ∧
        r.user = (split_ws c).getD 0 [] ∧ r.name = (split_ws c).getD 2 [] ∧
        r.state = deref ((split_ws c).getD 3 []) := by
  refine ⟨?_, ?_, fun c hc => ps_record_spec sd c (hfit c hc)⟩
  · simp only [collect_processes_ps, if_true]
    rw [ps_loop_chunks sd realloc_ok lines last _ 256 [] hlines hlast hok (le_refl _)]
    simp
  · exact length_filterMap_countP _ _ _ (fun c hc => (ps_record_spec sd c (hfit c hc)).1)

/-- Witness for C12: two well-formed lines around a line with two fields. -/
theorem collect_processes_ps_well_formed_lines_witness :
    collect_processes_ps (fun _ => none) (fun _ => true)
        (some (join_lines [bytes "root 1 init S 1 2", bytes "bad line"] ++ bytes "bob 7 sh R 3 4"))
        true
      = some ((line_chunks [bytes "root 1 init S 1 2", bytes "bad line"]
          (bytes "bob 7 sh R 3 4")).filterMap (ps_record (fun _ => none))) ∧
    ((line_chunks [bytes "root 1 init S 1 2", bytes "bad line"]
        (bytes "bob 7 sh R 3 4")).filterMap (ps_record (fun _ => none))).length
      = (line_chunks [bytes "root 1 init S 1 2", bytes "bad line"]
          (bytes "bob 7 sh R 3 4")).countP ps_well_formed ∧
    (line_chunks [bytes "root 1 init S 1 2", bytes "bad line"]
        (bytes "bob 7 sh R 3 4")).countP ps_well_formed = 2 :=
  have h := collect_processes_ps_well_formed_lines (fun _ => none) (fun _ => true)
    [bytes "root 1 init S 1 2", bytes "bad line"] (bytes "bob 7 sh R 3 4")
    (by decide) (by decide) (fun _ => rfl)
    (by
      intro c hc
      have hcs : c = bytes "root 1 init S 1 2" ++ [10] ∨ c = bytes "bad line" ++ [10]
          ∨ c = bytes "bob 7 sh R 3 4" := by
        simpa [line_chunks, show bytes "bob 7 sh R 3 4" ≠ [] by decide] using hc
      rcases hcs with e | e | e <;> subst e <;> exact ⟨by decide, by decide, by decide⟩)
  ⟨h.1, h.2.1, by decide⟩

end TaskManager
